import Mathlib

/-!
nGramCpp: a shallow embedding of `nGram.cc` and proofs about it.

The development follows `src/nGram.cc` / `src/nGram.hpp`.

* `std::vector<T>` is a `List T`; `v[i]` is `v[i]?` (an out-of-range read has no result).
* `std::map<K,V>` is an association list with at most one entry per key; the list order is the
  iteration order of the map. `find` is `mapFind`, `m[k] = v` is `mapSet`.
* `U16`/`U32`/`U64` values are natural numbers reduced modulo `2^16`/`2^32`/`2^64`.
* `double` is modelled by exact rationals `ℚ`.
* Console output (`cout`) is not modelled.
-/

namespace NGram

/-! ## Machine integers and constants (`nGram.hpp`) -/

/-- Header constant `NGRAM`. -/
def NGRAM : Nat := 4

/-- Header constant `U16_MAX`. -/
def U16_MAX : Nat := 65535

/-- Header constant `U32_MAX`. -/
def U32_MAX : Nat := 4294967295

/-- Conversion to `U16` (`unsigned short int`, also `IntKey`). -/
def toU16 (n : Nat) : Nat := n % 2 ^ 16

/-- Conversion to `U32` (`unsigned int`). -/
def toU32 (n : Nat) : Nat := n % 2 ^ 32

/-- Conversion to `U64` (`unsigned long int`). -/
def toU64 (n : Nat) : Nat := n % 2 ^ 64

/-- Conversion `double → U16` as used by `dupeSet.insert(inner->second)`: the fractional part is
discarded. C++ defines the conversion only when the truncated value is representable, that is
for arguments in the open interval `(-1, 65536)`; there this function is exact. -/
def doubleToU16 (x : ℚ) : Nat := toU16 (Int.toNat (Rat.floor x))

/-! ## `std::map` as an association list -/

/-- Lookup `m.find(k)`: the value stored under `k`, if any. -/
def mapFind {κ β : Type} [DecidableEq κ] : List (κ × β) → κ → Option β
  | [], _ => none
  | (k', v) :: rest, k => if k' = k then some v else mapFind rest k

/-- Assignment `m[k] = v`: overwrite the entry of `k`, or create it. -/
def mapSet {κ β : Type} [DecidableEq κ] : List (κ × β) → κ → β → List (κ × β)
  | [], k, v => [(k, v)]
  | (k', v') :: rest, k, v =>
      if k' = k then (k, v) :: rest else (k', v') :: mapSet rest k v

/-! ## Loops with a `U32` index -/

/-- The loop `for(U32 i = i0; i < size; i++) s = body(i, s)`. The index is a `U32`, so the
increment wraps modulo `2^32`. `fuel` bounds the number of loop tests; `none` means the loop has
not terminated within the fuel. -/
def forU32 {σ : Type} (size : Nat) (body : Nat → σ → σ) : Nat → Nat → σ → Option σ
  | 0, _, _ => none
  | fuel + 1, i, s =>
      if i < size then forU32 size body fuel (toU32 (i + 1)) (body i s) else some s

/-- The loop `for(U32 i = 0; i < vec.size(); i++) s = g(vec[i], s)`. -/
def forEachU32 {α σ : Type} (vec : List α) (g : α → σ → σ) (fuel : Nat) (s : σ) : Option σ :=
  forU32 vec.length
    (fun i st => match vec[i]? with
      | some x => g x st
      | none => st)
    fuel 0 s

/-! ## `NgramModel::PruneSequence` -/

/-- Body of the counting loop of `PruneSequence`:
`it = freqMap.find(w); if(it == end) freqMap[w] = 1; else freqMap[w]++;` with `U32` counts. -/
def pruneCount (w : String) (freqMap : List (String × Nat)) : List (String × Nat) :=
  match mapFind freqMap w with
  | none => mapSet freqMap w 1
  | some c => mapSet freqMap w (toU32 (c + 1))

/-- Body of the filter loop of `PruneSequence`:
`if(freqMap[w] > 1) tempVec.push_back(w);` (`freqMap[w]` reads `0` for an absent key). -/
def pruneKeep (freqMap : List (String × Nat)) (w : String) (tempVec : List String) :
    List String :=
  if (mapFind freqMap w).getD 0 > 1 then tempVec ++ [w] else tempVec

/-- `NgramModel::PruneSequence`: the new contents of `wordVec`. The counters `counter1`,
`counter2` only feed the log message and are left out. The three `U32`-indexed loops are run
with the given fuel each. -/
def PruneSequence (fuel : Nat) (wordVec : List String) : Option (List String) :=
  match forEachU32 wordVec pruneCount fuel [] with
  | none => none
  | some freqMap =>
    match forEachU32 wordVec (pruneKeep freqMap) fuel [] with
    | none => none
    | some tempVec =>
      -- wordVec.clear(); then copy tempVec back
      forEachU32 tempVec (fun w out => out ++ [w]) fuel []

/-! ## Vocabulary: `StringToKey`, `KeyToString`, `AllocKey` -/

/-- The vocabulary part of `NgramModel`. -/
structure Vocab where
  /-- Field `IntKey idCounter` (a `U16`). -/
  idCounter : Nat
  /-- Field `KeyStringMap KeyStringTable`. -/
  KeyStringTable : List (Nat × String)
  /-- Field `StringKeyMap StringKeyTable`. -/
  StringKeyTable : List (String × Nat)

/-- Vocabulary state set up by the constructor `NgramModel::NgramModel`. -/
def Vocab.fresh : Vocab := ⟨1, [], []⟩

/-- `NgramModel::AllocKey(newWord, key)`: returns the `bool` result, the value of the reference
parameter `key` afterwards, and the new state. -/
def AllocKey (s : Vocab) (newWord : String) (key : Nat) : Bool × Nat × Vocab :=
  let it := mapFind s.StringKeyTable newWord
  if s.idCounter ≥ U32_MAX then
    (false, key, s)
  else
    match it with
    | none =>
        (true, s.idCounter,
          { idCounter := toU16 (s.idCounter + 1)
            KeyStringTable := mapSet s.KeyStringTable s.idCounter newWord
            StringKeyTable := mapSet s.StringKeyTable newWord s.idCounter })
    | some k => (true, k, s)

/-- `NgramModel::StringToKey(word)`: the returned key and the new state. The local `ret` is
uninitialised before `AllocKey` writes it; `0` stands for that value. -/
def StringToKey (s : Vocab) (word : String) : Nat × Vocab :=
  match mapFind s.StringKeyTable word with
  | some k => (k, s)
  | none =>
      match AllocKey s word 0 with
      | (true, key, s') => (key, s')
      | (false, _, s') => (0, s')

/-- `NgramModel::KeyToString(key, str)`: the `bool` result and the value of `str` afterwards. -/
def KeyToString (s : Vocab) (key : Nat) (str : String) : Bool × String :=
  match mapFind s.KeyStringTable key with
  | some w => (true, w)
  | none => (false, str)

/-- The state after calling `StringToKey` on each word of `ws` in turn. -/
def runStringToKey (s : Vocab) (ws : List String) : Vocab :=
  ws.foldl (fun st w => (StringToKey st w).2) s

/-- The lower-case letter number `d` (`0` is `a`). -/
def letter (d : Nat) : Char := Char.ofNat (97 + d % 26)

/-- The `n`-th four-letter word `aaaa, aaab, ..., aaaz, aaba, ...`. -/
def wordN (n : Nat) : String :=
  String.mk [letter (n / 17576), letter (n / 676), letter (n / 26), letter n]

/-- The first `n` four-letter words. -/
def firstWords (n : Nat) : List String := (List.range n).map wordN

/-! ## Key packing: `MakeNgramModelKey` -/

/-- `NgramModel::MakeNgramModelKey(model, w1, w2, w3)`; `w2`, `w3` default to `0` in the
header. All intermediate values are `U64`. -/
def MakeNgramModelKey (model : Int) (w1 : Nat) (w2 : Nat := 0) (w3 : Nat := 0) : Nat :=
  if model = 1 ∨ model = 2 then
    0x000000FF &&& toU64 w1
  else if model = 3 then
    (toU64 (toU64 w1 <<< 16) ||| toU64 w2) &&& 0x0000FFFF
  else if model = 4 then
    ((toU64 (toU64 w1 <<< 32) ||| toU64 (toU64 w2 <<< 16)) ||| toU64 w3) &&& 0x00FFFFFF
  else
    0

/-! ## Tables, `GetProb`, `NormalizeTable` -/

/-- The inner map `map<IntKey,double>`. -/
abbrev InnerTable := List (Nat × ℚ)

/-- The type `NgramTable = map<U64, map<IntKey,double>>`. -/
abbrev NgramTable := List (Nat × InnerTable)

/-- The part of `NgramModel` used by prediction: the weights `lambdas.l` and the four tables. -/
structure Model where
  /-- Field `lambdas.l[NLAMBDAS]`. -/
  l : Nat → ℚ
  /-- Field `unigramTable`. -/
  unigramTable : NgramTable
  /-- Field `bigramTable`. -/
  bigramTable : NgramTable
  /-- Field `trigramTable`. -/
  trigramTable : NgramTable
  /-- Field `quadgramTable`. -/
  quadgramTable : NgramTable

/-- The lookup shared by the four cases of `GetProb`. -/
def tableProb (table : NgramTable) (key subkey : Nat) : ℚ :=
  match mapFind table key with
  | none => 0
  | some inner =>
      match mapFind inner subkey with
      | none => 0
      | some v => v

/-- `NgramModel::GetProb(nModel, key, subkey)`. -/
def GetProb (m : Model) (nModel : Int) (key subkey : Nat) : ℚ :=
  if nModel = 1 then tableProb m.unigramTable key subkey
  else if nModel = 2 then tableProb m.bigramTable key subkey
  else if nModel = 3 then tableProb m.trigramTable key subkey
  else if nModel = 4 then tableProb m.quadgramTable key subkey
  else 0

/-- The sum loop of `NormalizeTable`: `sum = 0.0; for(inner ...) sum += inner->second;`. -/
def groupSum (inner : InnerTable) : ℚ :=
  inner.foldl (fun sum e => sum + e.2) 0

/-- One iteration of the outer loop of `NormalizeTable` on the group `inner`. -/
def normalizeGroup (inner : InnerTable) : InnerTable :=
  let sum := groupSum inner
  if sum > 0 then inner.map (fun e => (e.1, e.2 / sum)) else inner

/-- `NgramModel::NormalizeTable(table)`. -/
def NormalizeTable (table : NgramTable) : NgramTable :=
  table.map (fun outer => (outer.1, normalizeGroup outer.2))

/-! ## `Predict` -/

/-- The type `ResultPair = pair<InnerTableIt,double>`: `first` is the table entry (candidate word
key, stored value) the iterator points to, `second` the interpolated score. -/
structure ResultPair where
  /-- The entry `*first` of the inner table. -/
  first : Nat × ℚ
  /-- The score. -/
  second : ℚ
deriving DecidableEq

/-- Comparator `byRealProb(left, right)`. -/
def byRealProb (left right : ResultPair) : Bool := decide (left.second > right.second)

/-- Insert `x` into a list sorted by `comp`: `x` passes exactly the leading elements `y` with
`comp(y, x)`, so it stays in front of the elements it is equivalent to. -/
def sortInsert (comp : ResultPair → ResultPair → Bool) (x : ResultPair) :
    List ResultPair → List ResultPair
  | [] => [x]
  | y :: ys => if comp y x then y :: sortInsert comp x ys else x :: y :: ys

/-- The call `results.sort(comp)` of `std::list`: a stable sort (equivalent elements keep their
relative order), `comp(a, b)` meaning that `a` goes before `b`. -/
def listSort (comp : ResultPair → ResultPair → Bool) (results : List ResultPair) :
    List ResultPair :=
  results.foldr (sortInsert comp) []

/-- Loop state of `Predict`: `dupeSet`, `results` and the running minimum (`min4` or `min3`). -/
structure PredictState where
  /-- The local `unordered_set<IntKey> dupeSet`. -/
  dupeSet : List Nat
  /-- The reference parameter `results`. -/
  results : List ResultPair
  /-- The local `min4` (in the 4-gram loop) or `min3` (in the 3-gram loop). -/
  min : ℚ

/-- Body of the 4-gram loop of `Predict`. -/
def predict4 (m : Model) (key2g key3g : Nat) (st : PredictState) (inner : Nat × ℚ) :
    PredictState :=
  { dupeSet := (doubleToU16 inner.2) :: st.dupeSet
    results := st.results ++
      [⟨inner, m.l 1 * GetProb m 1 (toU64 inner.1) inner.1
                + m.l 2 * GetProb m 2 key2g inner.1
                + m.l 3 * GetProb m 3 key3g inner.1
                + m.l 4 * inner.2⟩]
    min := if inner.2 < st.min then inner.2 else st.min }

/-- Body of the 3-gram loop of `Predict`. -/
def predict3 (m : Model) (key2g : Nat) (min4 : ℚ) (st : PredictState) (inner : Nat × ℚ) :
    PredictState :=
  if doubleToU16 inner.2 ∈ st.dupeSet then st
  else
    { dupeSet := (doubleToU16 inner.2) :: st.dupeSet
      results := st.results ++
        [⟨inner, m.l 1 * GetProb m 1 (toU64 inner.1) inner.1
                  + m.l 2 * GetProb m 2 key2g inner.1
                  + m.l 3 * inner.2
                  + m.l 4 * min4⟩]
      min := if inner.2 < st.min then inner.2 else st.min }

/-- Body of the 2-gram loop of `Predict`. -/
def predict2 (m : Model) (min3 min4 : ℚ) (st : PredictState) (inner : Nat × ℚ) :
    PredictState :=
  if doubleToU16 inner.2 ∈ st.dupeSet then st
  else
    { dupeSet := (doubleToU16 inner.2) :: st.dupeSet
      results := st.results ++
        [⟨inner, m.l 1 * GetProb m 1 (toU64 inner.1) inner.1
                  + m.l 2 * inner.2
                  + m.l 3 * min3
                  + m.l 4 * min4⟩]
      min := st.min }

/-- The three lookup steps of `Predict` for context keys `key4g`, `key3g`, `key2g`: the contents
of `results` just before the final sort. -/
def predictAppend (m : Model) (key4g key3g key2g : Nat) (results : List ResultPair) :
    List ResultPair :=
  -- min3 = min4 = 99999
  let st0 : PredictState := ⟨[], results, 99999⟩
  let st4 : PredictState :=
    match mapFind m.quadgramTable key4g with
    | some group => group.foldl (predict4 m key2g key3g) st0
    | none => { st0 with min := 0 }
  let min4 := st4.min
  let st3 : PredictState :=
    match mapFind m.trigramTable key3g with
    | some group => group.foldl (predict3 m key2g min4) { st4 with min := 99999 }
    | none => { st4 with min := 0 }
  let min3 := st3.min
  let st2 : PredictState :=
    match mapFind m.bigramTable key2g with
    | some group => group.foldl (predict2 m min3 min4) st3
    | none => st3
  st2.results

/-- `NgramModel::Predict(keySeq, i, results)`: the contents of `results` afterwards; `none` when
`keySeq` is read outside its bounds. -/
def Predict (m : Model) (keySeq : List Nat) (i : Int) (results : List ResultPair) :
    Option (List ResultPair) :=
  if i < 3 then some results
  else
    match keySeq[(i - 3).toNat]?, keySeq[(i - 2).toNat]?, keySeq[(i - 1).toNat]? with
    | some a, some b, some c =>
        let key4g := MakeNgramModelKey 4 a b c
        let key3g := MakeNgramModelKey 3 b c
        let key2g := MakeNgramModelKey 2 c
        let appended := predictAppend m key4g key3g key2g results
        if appended.length > 0 then some (listSort byRealProb appended) else some appended
    | _, _, _ => none

/-! ## Auxiliary predicates and sample data -/

/-- The map `freqMap` holds the occurrence counts of the list `l`. -/
def CountsOf (freqMap : List (String × Nat)) (l : List String) : Prop :=
  ∀ w, mapFind freqMap w = if l.count w = 0 then none else some (l.count w)

/-- After registering the pairwise distinct words `ws` (in this order) on a fresh vocabulary:
`idCounter` is `|ws| + 1` modulo `2^16`, words outside `ws` are absent from `StringKeyTable`,
and the `j`-th word has the key `j + 1` modulo `2^16`. -/
def VocabAfter (s : Vocab) (ws : List String) : Prop :=
  s.idCounter = (ws.length + 1) % 65536 ∧
    (∀ w, w ∉ ws → mapFind s.StringKeyTable w = none) ∧
    (∀ j w, ws[j]? = some w → mapFind s.StringKeyTable w = some ((j + 1) % 65536))

/-- A model with a quadgram group `{9 ↦ 1}` under the composite key of the context `(2, 3)` and
a trigram group `{9 ↦ 1/2, 12 ↦ 1/2}` under the composite key `3`, with the weights set by the
constructor. -/
def dupModel : Model :=
  { l := fun j => if j = 1 then 1 / 20 else if j = 2 then 3 / 10 else if j = 3 then 2 / 5
      else if j = 4 then 1 / 5 else 1
    unigramTable := []
    bigramTable := []
    trigramTable := [(3, [(9, 1 / 2), (12, 1 / 2)])]
    quadgramTable := [(131075, [(9, 1)])] }

/-! ## Ordered maps and table updates: `UpdateNgramModel`, `UpdateUnigramModel` -/

/-- Assignment `m[k] = v` on a map with numeric keys kept in ascending key order (the iteration
order of `std::map`): overwrite the entry of `k`, or create it at its place. -/
def mapSetOrd {β : Type} : List (Nat × β) → Nat → β → List (Nat × β)
  | [], k, v => [(k, v)]
  | (k', v') :: rest, k, v =>
      if k < k' then (k, v) :: (k', v') :: rest
      else if k' = k then (k, v) :: rest
      else (k', v') :: mapSetOrd rest k v

/-- The weight stored in `table` at (outer key, inner key), if the entry exists. -/
def entryAt (table : NgramTable) (key subkey : Nat) : Option ℚ :=
  match mapFind table key with
  | none => none
  | some inner => mapFind inner subkey

/-- `NgramModel::UpdateNgramModel(table, key, nextWord)`: `table[key][nextWord] = 1` when the
outer key is new, `table[key][nextWord]++` otherwise (`operator[]` creates a missing inner entry
with value `0`). -/
def UpdateNgramModel (table : NgramTable) (key : Nat) (nextWord : Nat) : NgramTable :=
  match mapFind table key with
  | none => mapSetOrd table key (mapSetOrd [] nextWord 1)
  | some inner =>
      mapSetOrd table key (mapSetOrd inner nextWord ((mapFind inner nextWord).getD 0 + 1))

/-- `NgramModel::UpdateUnigramModel(unigrams, key)`: the outer key is `(U64)key`, the inner key
is `key` itself. -/
def UpdateUnigramModel (unigrams : NgramTable) (key : Nat) : NgramTable :=
  match mapFind unigrams (toU64 key) with
  | none => mapSetOrd unigrams (toU64 key) (mapSetOrd [] key 1)
  | some inner =>
      mapSetOrd unigrams (toU64 key) (mapSetOrd inner key ((mapFind inner key).getD 0 + 1))

/-- The unigram table built from the empty table by `UpdateUnigramModel` on each key in turn. -/
def buildUnigram (keys : List Nat) : NgramTable :=
  keys.foldl UpdateUnigramModel []

/-! ## `NormalizeUnigramTable` -/

/-- Body of the sum loop of `NormalizeUnigramTable`: `sum += outer->second.begin()->second`;
no result when the group is empty (`begin()` is then `end()` and must not be read). -/
def unigramSumStep (acc : Option ℚ) (outer : Nat × InnerTable) : Option ℚ :=
  match acc, outer.2 with
  | some sum, e :: _ => some (sum + e.2)
  | _, _ => none

/-- The sum loop of `NormalizeUnigramTable`, starting from `sum = 0.0`. -/
def unigramSum (unitable : NgramTable) : Option ℚ :=
  unitable.foldl unigramSumStep (some 0)

/-- The statement `outer->second.begin()->second /= sum` on one group. -/
def divFirst (sum : ℚ) : InnerTable → InnerTable
  | [] => []
  | e :: rest => (e.1, e.2 / sum) :: rest

/-- `NgramModel::NormalizeUnigramTable(unitable)`. -/
def NormalizeUnigramTable (unitable : NgramTable) : Option NgramTable :=
  match unigramSum unitable with
  | none => none
  | some sum =>
      if sum > 0 then some (unitable.map (fun outer => (outer.1, divFirst sum outer.2)))
      else some unitable

/-- The sum of all weights stored in a table. -/
def tableTotal (table : NgramTable) : ℚ :=
  (table.map (fun outer => groupSum outer.2)).sum

/-- The unigram table `t` is the one built from the keys `ks`: outer keys ascending, every group
the singleton `{k ↦ v}` under its own outer key `k`, the group of `k` holding the number of
occurrences of `k` in `ks`, and all weights together summing to the length of `ks`. -/
def UnigramBuilt (t : NgramTable) (ks : List Nat) : Prop :=
  (t.map Prod.fst).Pairwise (fun a b => a < b) ∧
    (∀ o ∈ t, ∃ v : ℚ, o.2 = [(o.1, v)]) ∧
    (∀ k : Nat, mapFind t k = if ks.count k = 0 then none else some [(k, (ks.count k : ℚ))]) ∧
    tableTotal t = (ks.length : ℚ)

/-! ## `WordToKeySequence` -/

/-- The constant `INT_MAX` of a 32-bit `int`. -/
def INT_MAX : Nat := 2147483647

/-- The loop `for(int i = i0; i < bound; i++) s = body(i, s)` against a `size_t` bound: the
comparison converts the non-negative `i` to `size_t`. The body may have no result (a read out of
range); incrementing `i` beyond `INT_MAX` is a signed overflow and has no result either. `fuel`
bounds the number of loop tests. -/
def forInt {σ : Type} (bound : Nat) (body : Nat → σ → Option σ) : Nat → Nat → σ → Option σ
  | 0, _, _ => none
  | fuel + 1, i, s =>
      if i < bound then
        match body i s with
        | none => none
        | some s' => if i + 1 > INT_MAX then none else forInt bound body fuel (i + 1) s'
      else some s

/-- Body of the loop of `WordToKeySequence`: `wordKey = StringToKey(wordVec[i]);
keySequence.push_back(wordKey);` on the vocabulary and the key sequence. -/
def wordToKeyBody (wordVec : List String) (i : Nat) (st : Vocab × List Nat) :
    Option (Vocab × List Nat) :=
  match wordVec[i]? with
  | none => none
  | some w => some ((StringToKey st.1 w).2, st.2 ++ [(StringToKey st.1 w).1])

/-- `NgramModel::WordToKeySequence(wordVec, keySequence)`: the new vocabulary, `wordVec` and
`keySequence`. The bound `wordVec.size()-NGRAM-1` is computed in `size_t`. -/
def WordToKeySequence (fuel : Nat) (s : Vocab) (wordVec : List String)
    (keySequence : List Nat) : Option (Vocab × List String × List Nat) :=
  match forInt (toU64 (wordVec.length + 2 ^ 64 - NGRAM - 1)) (wordToKeyBody wordVec)
      fuel 0 (s, keySequence) with
  | none => none
  | some st => some (st.1, [], st.2)

/-- The keys returned by calling `StringToKey` on each word of `ws` in turn, from state `s`. -/
def keysFrom (s : Vocab) : List String → List Nat
  | [] => []
  | w :: rest => (StringToKey s w).1 :: keysFrom (StringToKey s w).2 rest

/-- The tokens of `wordVec` that occur more than once in it, in their order: the list
`PruneSequence` leaves in `wordVec`. -/
def survivors (wordVec : List String) : List String :=
  wordVec.filter (fun w => decide (wordVec.count w > 1))

/-- The first two steps of `Train` on the token sequence `wordVec` (the output of
`TextToWordSequence`) of a fresh model: `PruneSequence`, then `WordToKeySequence`. -/
def trainSequence (fuel : Nat) (wordVec : List String) :
    Option (Vocab × List String × List Nat) :=
  match PruneSequence fuel wordVec with
  | none => none
  | some pruned => WordToKeySequence fuel Vocab.fresh pruned []

/-- The vocabulary `s` has been fed the words `seen`: `idCounter` is a `U16`, no word has two
entries in `StringKeyTable`, and the words with an entry are exactly those of `seen`. -/
def VocabDomain (s : Vocab) (seen : List String) : Prop :=
  s.idCounter < 65536 ∧ (s.StringKeyTable.map Prod.fst).Nodup ∧
    ∀ w, w ∈ s.StringKeyTable.map Prod.fst ↔ w ∈ seen

/-! ## `ScoreResult` -/

/-- The evaluation accumulators of `lambdaSet`. -/
structure LambdaStats where
  /-- Field `boolAccuracy`. -/
  boolAccuracy : ℚ
  /-- Field `realAccuracy`. -/
  realAccuracy : ℚ
  /-- Field `recall` (the word `recall` is reserved in Lean). -/
  recall_ : ℚ
  /-- Field `topSevenAccuracy`. -/
  topSevenAccuracy : ℚ
  /-- Field `nPredictions`. -/
  nPredictions : ℚ
deriving DecidableEq

/-- Body of the loop of `ScoreResult`, on the accumulators and the rank counter `i`. -/
def scoreStep (actual : Nat) (st : LambdaStats × ℚ) (r : ResultPair) : LambdaStats × ℚ :=
  (if r.first.1 = actual then
      { st.1 with
        recall_ := st.1.recall_ + 1
        realAccuracy := st.1.realAccuracy + 1 / st.2
        topSevenAccuracy :=
          if st.2 ≤ 7 then st.1.topSevenAccuracy + 1 else st.1.topSevenAccuracy }
    else st.1,
    st.2 + 1)

/-- `NgramModel::ScoreResult(actual, results)`: the accumulators afterwards. On an empty list
`results.begin()` is `results.end()`, and reading `results.begin()->first->first` has no
result. -/
def ScoreResult (lam : LambdaStats) (actual : Nat) (results : List ResultPair) :
    Option LambdaStats :=
  match results with
  | [] => none
  | r0 :: _ =>
      let lam1 : LambdaStats := { lam with nPredictions := lam.nPredictions + 1 }
      let lam2 : LambdaStats :=
        if actual = r0.first.1 then { lam1 with boolAccuracy := lam1.boolAccuracy + 1 }
        else lam1
      some (results.foldl (scoreStep actual) (lam2, 1)).1

/-! ## `LambdaEM`: the weights -/

/-- The last block of `NgramModel::LambdaEM`: from the accuracies `biCt`, `triCt`, `quadCt`,
`normal = biCt + triCt + quadCt` and `l[1] = biCt / (normal * 2)`, `l[2] = biCt / normal`,
`l[3] = triCt / normal`, `l[4] = quadCt / normal`. With `normal = 0` the quotients are not
numbers, and there is no result. -/
def lambdaWeights (l : Nat → ℚ) (biCt triCt quadCt : ℚ) : Option (Nat → ℚ) :=
  let normal := biCt + triCt + quadCt
  if normal = 0 then none
  else
    some (fun j =>
      if j = 1 then biCt / (normal * 2)
      else if j = 2 then biCt / normal
      else if j = 3 then triCt / normal
      else if j = 4 then quadCt / normal
      else l j)

/-! ## `IsValidWord` -/

/-- Header constant `MAX_WORD_LEN`. -/
def MAX_WORD_LEN : Nat := 27

/-- The `char` codes of a string literal. -/
def codes (s : String) : List Nat := s.toList.map Char.toNat

/-- The read `token[k]` of a `const string&` given by its `char` codes: the code at `k`, the
terminator `0` at `k = token.length()`, no result beyond. -/
def strAt (token : List Nat) (k : Nat) : Option Nat :=
  if k < token.length then token[k]?
  else if k = token.length then some 0
  else none

/-- `NgramModel::IsValidWord(const string& token)`, the token given by its `char` codes
(`0..255`; the ranges tested are below `128`, so the signedness of `char` plays no role). -/
def IsValidWord (token : List Nat) : Option Bool :=
  if token.length > MAX_WORD_LEN then some false
  else
    match strAt token 0 with
    | none => none
    | some c0 =>
      if c0 = 39 then some false              -- token[0] == '\''
      else if c0 = 42 then some false         -- token[0] == '*'
      else
        match strAt token 1 with
        | none => none
        | some c1 =>
          if c1 = 42 then some false          -- token[1] == '*'
          else if token = codes "com" then some false
          else if token = codes "www" then some false
          else if token = codes "http" then some false
          else if c0 = 39 ∧ (c1 = 39 ∨ c1 = 115) then some false
          else if token = codes "th" then some false
          else if token.any (fun c =>
              (decide (c ≥ 47) && decide (c ≤ 64)) || (decide (c ≥ 35) && decide (c ≤ 38))
                || (decide (c ≥ 91) && decide (c ≤ 96))) then some false
          else some true

/-! ## `GetMax` -/

/-- Body of the loop of `GetMax` on `(ret, max)`:
`if(inner->second > max){ ret = inner->first; max = inner->second; }`. -/
def getMaxStep (st : Nat × ℚ) (inner : Nat × ℚ) : Nat × ℚ :=
  if inner.2 > st.2 then (inner.1, inner.2) else st

/-- `NgramModel::GetMax(table, outerKey)`: `ret = 0`, and when the group exists the loop over
its entries from `max = 0.0`. -/
def GetMax (table : NgramTable) (outerKey : Nat) : Nat :=
  match mapFind table outerKey with
  | none => 0
  | some inner => (inner.foldl getMaxStep (0, 0)).1

/-! ## The build pass of `Train` -/

/-- Body of the build loop of `Train` at position `i`: the four table updates from
`keySequence[i] .. keySequence[i+3]`, no result when one of them lies outside the sequence;
then the progress output `if(i % 10000 == 9999) cout << ((double)(i * 100) / ...)`, whose
product `i * 100` is formed in `int` before the conversion and has no result beyond `INT_MAX`
(the quotient is only printed). -/
def buildBody (keySequence : List Nat) (i : Nat) (m : Model) : Option Model :=
  match keySequence[i]?, keySequence[i + 1]?, keySequence[i + 2]?, keySequence[i + 3]? with
  | some k0, some k1, some k2, some k3 =>
      if i % 10000 = 9999 ∧ i * 100 > INT_MAX then none
      else
        some
          { m with
            unigramTable := UpdateUnigramModel m.unigramTable k0
            bigramTable := UpdateNgramModel m.bigramTable (MakeNgramModelKey 2 k0) k1
            trigramTable := UpdateNgramModel m.trigramTable (MakeNgramModelKey 3 k0 k1) k2
            quadgramTable :=
              UpdateNgramModel m.quadgramTable (MakeNgramModelKey 4 k0 k1 k2) k3 }
  | _, _, _, _ => none

/-- The build loop of `Train`:
`for(i = 0; i < keySequence.size()-NGRAM-1; i++){ ... }` with an `int` index and the bound
computed in `size_t`. -/
def buildPass (fuel : Nat) (keySequence : List Nat) (m : Model) : Option Model :=
  forInt (toU64 (keySequence.length + 2 ^ 64 - NGRAM - 1)) (buildBody keySequence) fuel 0 m

/-- The composite key and next word that the build loop feeds to the order-`order` table at
position `i` (`order` is 2, 3 or 4), reading absent positions as `0`. -/
def contextAt (order : Int) (s : List Nat) (i : Nat) : Nat × Nat :=
  if order = 2 then (MakeNgramModelKey 2 (s.getD i 0), s.getD (i + 1) 0)
  else if order = 3 then (MakeNgramModelKey 3 (s.getD i 0) (s.getD (i + 1) 0), s.getD (i + 2) 0)
  else
    (MakeNgramModelKey 4 (s.getD i 0) (s.getD (i + 1) 0) (s.getD (i + 2) 0), s.getD (i + 3) 0)

/-- The number of positions `i < n` at which the build loop feeds `(c, w)` to the
order-`order` table. -/
def contextCount (order : Int) (s : List Nat) (n : Nat) (c w : Nat) : Nat :=
  (List.range n).countP (fun i => decide (contextAt order s i = (c, w)))

/-- The effect of `buildBody` at a position `i` with `i + 3` inside the sequence: the four
updates, written with `contextAt`. -/
def buildStep (s : List Nat) (i : Nat) (m : Model) : Model :=
  { m with
    unigramTable := UpdateUnigramModel m.unigramTable (s.getD i 0)
    bigramTable := UpdateNgramModel m.bigramTable (contextAt 2 s i).1 (contextAt 2 s i).2
    trigramTable := UpdateNgramModel m.trigramTable (contextAt 3 s i).1 (contextAt 3 s i).2
    quadgramTable := UpdateNgramModel m.quadgramTable (contextAt 4 s i).1 (contextAt 4 s i).2 }

/-! ## The scoring loop of `Test` -/

/-- Body of the loop of `Test` at position `i`: `Predict(keySequence, i, results);
ScoreResult(keySequence[i], results); results.clear();` on the accumulators. -/
def testBody (m : Model) (keySequence : List Nat) (i : Nat) (lam : LambdaStats) :
    Option LambdaStats :=
  match Predict m keySequence (i : Int) [] with
  | none => none
  | some results =>
      match keySequence[i]? with
      | none => none
      | some actual => ScoreResult lam actual results

/-- The loop of `Test`: `for(i = 0; i < keySequence.size()-NGRAM-1; i++){ ... }`. -/
def testPass (fuel : Nat) (m : Model) (keySequence : List Nat) (lam : LambdaStats) :
    Option LambdaStats :=
  forInt (toU64 (keySequence.length + 2 ^ 64 - NGRAM - 1)) (testBody m keySequence) fuel 0 lam

/-! ## `LambdaEM`: the accuracies -/

/-- The loop `for(int i = i0; i < bound; i++) s = body(i, s)` as `forInt`, also returning the
value of `i` after the loop. -/
def forIntIdx {σ : Type} (bound : Nat) (body : Nat → σ → Option σ) :
    Nat → Nat → σ → Option (Nat × σ)
  | 0, _, _ => none
  | fuel + 1, i, s =>
      if i < bound then
        match body i s with
        | none => none
        | some s' => if i + 1 > INT_MAX then none else forIntIdx bound body fuel (i + 1) s'
      else some (i, s)

/-- Body of the bigram loop of `LambdaEM`:
`key = MakeNgramModelKey(2,keySeq[i]); if(keySeq[i+1] == GetMax(bigramTable,key)) biCt++;`. -/
def accBody2 (m : Model) (keySeq : List Nat) (i : Nat) (ct : ℚ) : Option ℚ :=
  match keySeq[i]?, keySeq[i + 1]? with
  | some k, some next =>
      some (if next = GetMax m.bigramTable (MakeNgramModelKey 2 k) then ct + 1 else ct)
  | _, _ => none

/-- Body of the trigram loop of `LambdaEM`. -/
def accBody3 (m : Model) (keySeq : List Nat) (i : Nat) (ct : ℚ) : Option ℚ :=
  match keySeq[i - 1]?, keySeq[i]?, keySeq[i + 1]? with
  | some k1, some k2, some next =>
      some (if next = GetMax m.trigramTable (MakeNgramModelKey 3 k1 k2) then ct + 1 else ct)
  | _, _, _ => none

/-- Body of the quadgram loop of `LambdaEM`. -/
def accBody4 (m : Model) (keySeq : List Nat) (i : Nat) (ct : ℚ) : Option ℚ :=
  match keySeq[i - 2]?, keySeq[i - 1]?, keySeq[i]?, keySeq[i + 1]? with
  | some k1, some k2, some k3, some next =>
      some (if next = GetMax m.quadgramTable (MakeNgramModelKey 4 k1 k2 k3) then ct + 1
        else ct)
  | _, _, _, _ => none

/-- One accuracy loop of `LambdaEM` with its division:
`for(i = NGRAM + 1; i < (keySeq.size() - NGRAM - 1); i++){ ... } ct = ct / (double)i;`. -/
def accuracyLoop (body : Nat → ℚ → Option ℚ) (fuel : Nat) (keySeq : List Nat) : Option ℚ :=
  match forIntIdx (toU64 (keySeq.length + 2 ^ 64 - NGRAM - 1)) body fuel (NGRAM + 1) 0 with
  | none => none
  | some (i, ct) => some (ct / (i : ℚ))

/-- The accuracies `(biCt, triCt, quadCt)` that `LambdaEM` computes on the held-out key
sequence `keySeq`. -/
def lambdaAccuracies (fuel : Nat) (m : Model) (keySeq : List Nat) : Option (ℚ × ℚ × ℚ) :=
  match accuracyLoop (accBody2 m keySeq) fuel keySeq,
      accuracyLoop (accBody3 m keySeq) fuel keySeq,
      accuracyLoop (accBody4 m keySeq) fuel keySeq with
  | some biCt, some triCt, some quadCt => some (biCt, triCt, quadCt)
  | _, _, _ => none

/-- `NgramModel::LambdaEM` on the held-out key sequence `keySeq` (the output of
`TextToWordSequence` and `WordToKeySequence` on the held-out file): the three accuracy loops,
then the weights; the new `lambdas.l`. -/
def LambdaEM (fuel : Nat) (m : Model) (keySeq : List Nat) : Option (Nat → ℚ) :=
  match lambdaAccuracies fuel m keySeq with
  | none => none
  | some (biCt, triCt, quadCt) => lambdaWeights m.l biCt triCt quadCt

/-- A model whose bigram group for the context `1` predicts the word `1`, with the weights set
by the constructor. -/
def hitModel : Model :=
  { l := fun j => if j = 1 then 1 / 20 else if j = 2 then 3 / 10 else if j = 3 then 2 / 5
      else if j = 4 then 1 / 5 else 1
    unigramTable := [(1, [(1, 1)])]
    bigramTable := [(1, [(1, 1)])]
    trigramTable := []
    quadgramTable := [] }

/-- A model without a quadgram group, with the trigram group `{9 ↦ 1/2, 12 ↦ 1/2}` and the
bigram group `{7 ↦ 1/2, 9 ↦ 1/4, 12 ↦ 1/4}` under the composite key `3`, and the weights set by
the constructor. -/
def backoffModel : Model :=
  { l := fun j => if j = 1 then 1 / 20 else if j = 2 then 3 / 10 else if j = 3 then 2 / 5
      else if j = 4 then 1 / 5 else 1
    unigramTable := []
    bigramTable := [(3, [(7, 1 / 2), (9, 1 / 4), (12, 1 / 4)])]
    trigramTable := [(3, [(9, 1 / 2), (12, 1 / 2)])]
    quadgramTable := [] }

/-! ## `Tokenize` and `IsDelimiter` -/

/-- Header constant `BUFSIZE`. -/
def BUFSIZE : Nat := 4096

/-- `NgramModel::IsDelimiter(c, delims)`: whether `c` equals one of the characters of
`delims`. -/
def IsDelimiter (c : Nat) (delims : List Nat) : Bool :=
  delims.any (fun d => decide (c = d))

/-- Condition of the loop `for( ; !IsDelimiter(buf[i], delims) && (buf[i] != '\0'); i++);`. -/
def advanceCond (delims : List Nat) (c : Nat) : Bool :=
  !IsDelimiter c delims && decide (c ≠ 0)

/-- Condition of the loops `for( ; IsDelimiter(buf[i], delims) && (buf[i] != '\0'); i++)`. -/
def consumeCond (delims : List Nat) (c : Nat) : Bool :=
  IsDelimiter c delims && decide (c ≠ 0)

/-- The number of iterations of a loop `for( ; cond(buf[i]); i++)` whose condition fails on
the terminator, started at a position from which `rest` are the characters before the
terminator. -/
def scanWhile (cond : Nat → Bool) (rest : List Nat) : Nat :=
  (rest.takeWhile cond).length

/-- Loop state of `Tokenize`: the index `i`, the characters of `buf` before its terminator,
and the indices stored in `ptrs[0 .. tokCt-1]` (`ptrs[k] = &buf[i]` is kept as `i`). -/
structure TokState where
  /-- The local `i`. -/
  i : Nat
  /-- The contents of `buf`. -/
  buf : List Nat
  /-- The token pointers, as indices into `buf`. -/
  ptrs : List Nat

/-- The loop `while(buf[i] != '\0'){ ... }` of `Tokenize`: advance to the next delimiter,
overwrite the delimiters that follow by `'\0'`, and record the next token when the buffer goes
on. The index is an `int`: there is no result when it would pass `INT_MAX`. -/
def tokenizeLoop (delims : List Nat) : Nat → TokState → Option TokState
  | 0, _ => none
  | fuel + 1, st =>
      match strAt st.buf st.i with
      | none => none
      | some c =>
          if c = 0 then some st
          else
            let i1 := st.i + scanWhile (advanceCond delims) (st.buf.drop st.i)
            let k := scanWhile (consumeCond delims) (st.buf.drop i1)
            let buf2 := st.buf.take i1 ++ List.replicate k 0 ++ st.buf.drop (i1 + k)
            if i1 + k > INT_MAX then none
            else
              match strAt buf2 (i1 + k) with
              | none => none
              | some c2 =>
                  tokenizeLoop delims fuel
                    ⟨i1 + k, buf2, if c2 = 0 then st.ptrs else st.ptrs ++ [i1 + k]⟩

/-- `NgramModel::Tokenize(ptrs, buf, delims)` on a non-null buffer given by its characters
before the terminator: the returned count, the token pointers (as indices) and the contents
of `buf` afterwards. The first loop, which passes the leading delimiters, is entered only when
`buf[0]` is a delimiter. -/
def Tokenize (fuel : Nat) (buf : List Nat) (delims : List Nat) :
    Option (Nat × List Nat × List Nat) :=
  match strAt buf 0 with
  | none => none
  | some c0 =>
      if c0 = 0 then some (0, [], buf)
      else if delims.length = 0 then some (0, [], buf)
      else
        let i := if IsDelimiter c0 delims then scanWhile (consumeCond delims) buf else 0
        if i > INT_MAX then none
        else
          match strAt buf i with
          | none => none
          | some c =>
              if c = 0 then some (0, [], buf)
              else
                match tokenizeLoop delims fuel ⟨i, buf, [i]⟩ with
                | none => none
                | some st => some (st.ptrs.length, st.ptrs, st.buf)

/-- The C string that starts at index `p` of `buf`: the characters up to the first `'\0'`. -/
def cstr (buf : List Nat) (p : Nat) : List Nat :=
  (buf.drop p).takeWhile (fun c => decide (c ≠ 0))

/-- The tokens `Tokenize` hands back: the C strings at the returned pointers. -/
def tokensOf (r : Nat × List Nat × List Nat) : List (List Nat) :=
  r.2.1.map (cstr r.2.2)

/-- Stated from the claim: the maximal runs of consecutive non-delimiter characters of `buf`,
in order (the pieces between delimiters that are not empty). -/
def maximalRuns (delims : List Nat) (buf : List Nat) : List (List Nat) :=
  (buf.splitOnP (fun c => IsDelimiter c delims)).filter (fun r => decide (r ≠ []))

/-! ## Prediction: stored values in `[0, 1]` -/

/-- Stated from the claim: every value stored in the table lies in `[0, 1]`. -/
def weightsInUnit (table : NgramTable) : Prop :=
  ∀ group ∈ table, ∀ e ∈ group.2, 0 ≤ e.2 ∧ e.2 ≤ 1

/-- A model with the quadgram group `{9 ↦ 1}` and the trigram group `{9 ↦ 1}` of the contexts
of `[1, 2, 3]` and the bigram group `{9 ↦ 1/2, 12 ↦ 1/2}`: the shape these tables take when the
words `2 3` were only ever followed by `9` and the word `3` also by `12`. All stored values lie
in `[0, 1]`; the weights are those set by the constructor. -/
def sentinelModel : Model :=
  { l := fun j => if j = 1 then 1 / 20 else if j = 2 then 3 / 10 else if j = 3 then 2 / 5
      else if j = 4 then 1 / 5 else 1
    unigramTable := []
    bigramTable := [(3, [(9, 1 / 2), (12, 1 / 2)])]
    trigramTable := [(3, [(9, 1)])]
    quadgramTable := [(131075, [(9, 1)])] }

/-! ## The delimiters and the token array of `TextToWordSequence` -/

/-- The constant `MAX_TOKENS_PER_READ`, the size of the array `toks` that `TextToWordSequence`
passes to `Tokenize`. -/
def MAX_TOKENS_PER_READ : Nat := 1024

/-- Field `phraseDelimiters`, set by the constructor to the double quote and the characters
`. ? ! # ; : ) (`, given by their codes. -/
def phraseDelimiters : List Nat := [34, 46, 63, 33, 35, 59, 58, 41, 40]

/-- Field `wordDelimiters`, set by the constructor to the comma and the blank. -/
def wordDelimiters : List Nat := [44, 32]

/-- Field `delimiters`, set by the constructor:
`delimiters = phraseDelimiters; delimiters += wordDelimiters;`. -/
def delimiters : List Nat := phraseDelimiters ++ wordDelimiters

/-- The line `a a ... a a` of `n + 1` one-letter words separated by single blanks, by its
character codes. -/
def letterLine : Nat → List Nat
  | 0 => [97]
  | n + 1 => 97 :: 32 :: letterLine n

/-! ## The numbering of the vocabulary -/

/-- The numbering of a vocabulary that holds the pairwise distinct words `ws`, registered in
this order without exhausting the keys `1..65535`: the `j`-th word has the key `j + 1` in
`StringKeyTable`, `KeyStringTable` maps `j + 1` back to it and has no other key, and each table
has `|ws|` entries. -/
def VocabNumbered (s : Vocab) (ws : List String) : Prop :=
  ws.length ≤ 65535 ∧ ws.Nodup ∧
    s.idCounter = (ws.length + 1) % 65536 ∧
    (∀ w, w ∉ ws → mapFind s.StringKeyTable w = none) ∧
    (∀ j w, ws[j]? = some w → mapFind s.StringKeyTable w = some (j + 1)) ∧
    (∀ j w, ws[j]? = some w → mapFind s.KeyStringTable (j + 1) = some w) ∧
    (∀ k, k = 0 ∨ ws.length < k → mapFind s.KeyStringTable k = none) ∧
    s.StringKeyTable.length = ws.length ∧ s.KeyStringTable.length = ws.length

/-! ## Theorems -/

/-! ## Key packing -/

theorem toU64_of_lt {n : Nat} (h : n < 2 ^ 64) : toU64 n = n := Nat.mod_eq_of_lt h

theorem shl_or_eq_add (a b i : Nat) (hb : b < 2 ^ i) : a <<< i ||| b = a * 2 ^ i + b := by
  rw [Nat.shiftLeft_eq, Nat.mul_comm]
  exact (Nat.mul_add_lt_is_or hb a).symm

theorem MakeNgramModelKey_three_eq (k1 k2 w3 : Nat) (h1 : k1 < 65536) (h2 : k2 < 65536) :
    MakeNgramModelKey 3 k1 k2 w3 = k2 := by
  unfold MakeNgramModelKey
  rw [if_neg (by decide), if_pos rfl, toU64_of_lt (n := k1) (by omega),
    toU64_of_lt (n := k2) (by omega), toU64_of_lt (by rw [Nat.shiftLeft_eq]; omega),
    shl_or_eq_add k1 k2 16 (by omega), show (0x0000FFFF : Nat) = 2 ^ 16 - 1 by norm_num,
    Nat.and_pow_two_sub_one_eq_mod]
  omega

theorem MakeNgramModelKey_four_eq (k1 k2 k3 : Nat) (h1 : k1 < 65536) (h2 : k2 < 65536)
    (h3 : k3 < 65536) : MakeNgramModelKey 4 k1 k2 k3 = (k2 % 256) * 65536 + k3 := by
  unfold MakeNgramModelKey
  have e2 : k2 <<< 16 ||| k3 = k2 * 2 ^ 16 + k3 := shl_or_eq_add k2 k3 16 (by omega)
  have e1 : k1 <<< 32 ||| (k2 * 2 ^ 16 + k3) = k1 * 2 ^ 32 + (k2 * 2 ^ 16 + k3) :=
    shl_or_eq_add k1 _ 32 (by omega)
  rw [if_neg (by decide), if_neg (by decide), if_pos rfl, toU64_of_lt (n := k1) (by omega),
    toU64_of_lt (n := k2) (by omega), toU64_of_lt (n := k3) (by omega),
    toU64_of_lt (n := k1 <<< 32) (by rw [Nat.shiftLeft_eq]; omega),
    toU64_of_lt (n := k2 <<< 16) (by rw [Nat.shiftLeft_eq]; omega),
    Nat.lor_assoc, e2, e1, show (0x00FFFFFF : Nat) = 2 ^ 24 - 1 by norm_num,
    Nat.and_pow_two_sub_one_eq_mod]
  omega

/-- C8: for 16-bit word keys `k1`, `k2`, `MakeNgramModelKey(3, k1, k2)` is `k2`; hence the
composite does not depend on `k1`: any other oldest word `k1'` packs to the same key. -/
theorem MakeNgramModelKey_three (k1 k2 : Nat) (h1 : k1 < 65536) (h2 : k2 < 65536) :
    MakeNgramModelKey 3 k1 k2 = k2 ∧
      ∀ k1' : Nat, k1' < 65536 → MakeNgramModelKey 3 k1' k2 = MakeNgramModelKey 3 k1 k2 := by
  refine ⟨MakeNgramModelKey_three_eq k1 k2 0 h1 h2, fun k1' h => ?_⟩
  rw [MakeNgramModelKey_three_eq k1 k2 0 h1 h2, MakeNgramModelKey_three_eq k1' k2 0 h h2]

/-- Witness of C8 at `k1 = 7`, `k2 = 300`, with the colliding oldest word `k1' = 40000`. -/
theorem MakeNgramModelKey_three_witness :
    MakeNgramModelKey 3 7 300 = 300 ∧ MakeNgramModelKey 3 40000 300 = MakeNgramModelKey 3 7 300 :=
  ⟨(MakeNgramModelKey_three 7 300 (by decide) (by decide)).1,
    (MakeNgramModelKey_three 7 300 (by decide) (by decide)).2 40000 (by decide)⟩

/-- C9: for 16-bit word keys, `MakeNgramModelKey(4, k1, k2, k3)` is
`(k2 mod 256) * 65536 + k3`; it is below `2^24` and does not depend on `k1`. -/
theorem MakeNgramModelKey_four (k1 k2 k3 : Nat) (h1 : k1 < 65536) (h2 : k2 < 65536)
    (h3 : k3 < 65536) :
    MakeNgramModelKey 4 k1 k2 k3 = (k2 % 256) * 65536 + k3 ∧
      MakeNgramModelKey 4 k1 k2 k3 < 2 ^ 24 ∧
      ∀ k1' : Nat, k1' < 65536 →
        MakeNgramModelKey 4 k1' k2 k3 = MakeNgramModelKey 4 k1 k2 k3 := by
  refine ⟨MakeNgramModelKey_four_eq k1 k2 k3 h1 h2 h3, ?_, fun k1' h => ?_⟩
  · rw [MakeNgramModelKey_four_eq k1 k2 k3 h1 h2 h3]; omega
  · rw [MakeNgramModelKey_four_eq k1 k2 k3 h1 h2 h3, MakeNgramModelKey_four_eq k1' k2 k3 h h2 h3]

/-- Witness of C9 at `(k1, k2, k3) = (1, 0x1234, 3)`: the composite is `0x340003`. -/
theorem MakeNgramModelKey_four_witness :
    MakeNgramModelKey 4 1 0x1234 3 = (0x1234 % 256) * 65536 + 3 ∧
      MakeNgramModelKey 4 1 0x1234 3 < 2 ^ 24 ∧
      ∀ k1' : Nat, k1' < 65536 →
        MakeNgramModelKey 4 k1' 0x1234 3 = MakeNgramModelKey 4 1 0x1234 3 :=
  MakeNgramModelKey_four 1 0x1234 3 (by decide) (by decide) (by decide)

/-- C10: for `model` 1 or 2 and 16-bit word keys, `MakeNgramModelKey(model, k1, k2, k3)` is
`k1 mod 256`, whatever the values `k2` and `k3` are; for a model number outside `1..4` it is `0`. -/
theorem MakeNgramModelKey_low_and_default (model : Int) (k1 k2 k3 : Nat) (h1 : k1 < 65536) :
    ((model = 1 ∨ model = 2) → MakeNgramModelKey model k1 k2 k3 = k1 % 256) ∧
      ((model < 1 ∨ 4 < model) → MakeNgramModelKey model k1 k2 k3 = 0) := by
  constructor
  · intro hm
    unfold MakeNgramModelKey
    rw [if_pos hm, toU64_of_lt (n := k1) (by omega), Nat.land_comm,
      show (0x000000FF : Nat) = 2 ^ 8 - 1 by norm_num, Nat.and_pow_two_sub_one_eq_mod]
  · intro hm
    unfold MakeNgramModelKey
    rw [if_neg (by omega), if_neg (by omega), if_neg (by omega)]

/-- Witness of C10: model 2 on `(300, 7, 9)` gives `300 mod 256`, model 7 gives `0`. -/
theorem MakeNgramModelKey_low_and_default_witness :
    MakeNgramModelKey 2 300 7 9 = 300 % 256 ∧ MakeNgramModelKey 7 300 7 9 = 0 :=
  ⟨(MakeNgramModelKey_low_and_default 2 300 7 9 (by decide)).1
      (Or.inr rfl),
    (MakeNgramModelKey_low_and_default 7 300 7 9 (by decide)).2
      (Or.inr (by decide))⟩

/-! ## Normalisation -/

theorem foldl_sum_eq (g : InnerTable) (a : ℚ) :
    g.foldl (fun sum e => sum + e.2) a = a + (g.map Prod.snd).sum := by
  induction g generalizing a with
  | nil => simp
  | cons e rest ih => simp [ih, add_assoc]

theorem groupSum_eq_sum (g : InnerTable) : groupSum g = (g.map Prod.snd).sum := by
  unfold groupSum; rw [foldl_sum_eq]; simp

theorem sum_map_div (g : InnerTable) (s : ℚ) :
    ((g.map (fun e => (e.1, e.2 / s))).map Prod.snd).sum = (g.map Prod.snd).sum / s := by
  induction g with
  | nil => simp
  | cons e rest ih => simp only [List.map_cons, List.sum_cons, ih, add_div]

theorem mapFind_map_snd {κ β γ : Type} [DecidableEq κ] (f : β → γ) (m : List (κ × β)) (k : κ) :
    mapFind (m.map (fun e => (e.1, f e.2))) k = (mapFind m k).map f := by
  induction m with
  | nil => rfl
  | cons e rest ih =>
    simp only [List.map_cons, mapFind]
    split <;> simp [ih]

/-- C7: over exact rational arithmetic, if the group stored under outer key `k` has inner weights
summing to `s > 0`, then after `NormalizeTable` the group under `k` holds each old weight divided
by `s` (same inner keys, same order), every inner weight looked up there is the old one divided
by `s`, and the weights of the group sum to exactly `1`. -/
theorem NormalizeTable_group (table : NgramTable) (k : Nat) (g : InnerTable) (s : ℚ)
    (hk : mapFind table k = some g) (hs : groupSum g = s) (hpos : s > 0) :
    mapFind (NormalizeTable table) k = some (g.map (fun e => (e.1, e.2 / s))) ∧
      (∀ w v, mapFind g w = some v → tableProb (NormalizeTable table) k w = v / s) ∧
      groupSum (g.map (fun e => (e.1, e.2 / s))) = 1 := by
  have hfind : mapFind (NormalizeTable table) k = some (g.map (fun e => (e.1, e.2 / s))) := by
    unfold NormalizeTable
    rw [mapFind_map_snd normalizeGroup table k, hk]
    simp only [Option.map_some', normalizeGroup, hs, if_pos hpos]
  refine ⟨hfind, fun w v hw => ?_, ?_⟩
  · unfold tableProb
    rw [hfind]
    simp only [mapFind_map_snd (fun x : ℚ => x / s) g w, hw, Option.map_some']
  · rw [groupSum_eq_sum, sum_map_div, ← groupSum_eq_sum, hs]
    exact div_self (ne_of_gt hpos)

/-- Witness of C7: the group `{9 ↦ 2}` under outer key `5` normalises to `{9 ↦ 1}`. -/
theorem NormalizeTable_group_witness :
    mapFind (NormalizeTable [(5, [(9, 2)])]) 5 = some [(9, 1)] ∧
      tableProb (NormalizeTable [(5, [(9, 2)])]) 5 9 = 1 := by
  have h := NormalizeTable_group [(5, [(9, 2)])] 5 [(9, 2)] 2 (by decide) (by decide!)
    (by norm_num)
  refine ⟨?_, ?_⟩
  · rw [h.1]; norm_num
  · rw [h.2.1 9 2 (by decide!)]; norm_num

/-! ## Prediction -/

/-- C5: for a position `i < 3`, `Predict` returns at once: nothing is read from the key sequence
or the tables, `results` is left as it was, and an empty `results` stays empty. -/
theorem Predict_lt_three (m : Model) (keySeq : List Nat) (i : Int) (h : i < 3) :
    Predict m keySeq i [] = some [] ∧
      ∀ results : List ResultPair, Predict m keySeq i results = some results := by
  unfold Predict
  simp [h]

/-- Witness of C5 at position `2` of a five-key sequence, on a model with a non-empty
quadgram table. -/
theorem Predict_lt_three_witness :
    Predict ⟨fun _ => 1, [], [], [], [(131075, [(9, 1)])]⟩ [1, 2, 3, 9, 4] 2 [] = some [] :=
  (Predict_lt_three ⟨fun _ => 1, [], [], [], [(131075, [(9, 1)])]⟩ [1, 2, 3, 9, 4] 2
    (by decide)).1

theorem sortInsert_perm (comp : ResultPair → ResultPair → Bool) (x : ResultPair)
    (ys : List ResultPair) : List.Perm (sortInsert comp x ys) (x :: ys) := by
  induction ys with
  | nil => exact List.Perm.refl _
  | cons y rest ih =>
    unfold sortInsert
    split
    · exact (List.Perm.cons y ih).trans (List.Perm.swap x y rest)
    · exact List.Perm.refl _

theorem listSort_perm (comp : ResultPair → ResultPair → Bool) (rs : List ResultPair) :
    List.Perm (listSort comp rs) rs := by
  induction rs with
  | nil => exact List.Perm.refl _
  | cons x rest ih =>
    show List.Perm (sortInsert comp x (listSort comp rest)) (x :: rest)
    exact (sortInsert_perm comp x _).trans (List.Perm.cons x ih)

theorem sortInsert_byRealProb_sorted (x : ResultPair) (ys : List ResultPair)
    (h : ys.Pairwise (fun a b => a.second ≥ b.second)) :
    (sortInsert byRealProb x ys).Pairwise (fun a b => a.second ≥ b.second) := by
  induction ys with
  | nil => simp [sortInsert]
  | cons y rest ih =>
    rw [List.pairwise_cons] at h
    unfold sortInsert
    by_cases hc : byRealProb y x = true
    · rw [if_pos hc]
      have hyx : y.second > x.second := by simpa [byRealProb] using hc
      refine List.Pairwise.cons (fun z hz => ?_) (ih h.2)
      rcases List.mem_cons.1 ((sortInsert_perm byRealProb x rest).mem_iff.1 hz) with rfl | hz
      · exact le_of_lt hyx
      · exact h.1 z hz
    · rw [if_neg hc]
      have hyx : y.second ≤ x.second := by simpa [byRealProb] using hc
      refine List.Pairwise.cons (fun z hz => ?_) (List.Pairwise.cons h.1 h.2)
      rcases List.mem_cons.1 hz with rfl | hz
      · exact hyx
      · exact le_trans (h.1 z hz) hyx

theorem listSort_byRealProb_sorted (rs : List ResultPair) :
    (listSort byRealProb rs).Pairwise (fun a b => a.second ≥ b.second) := by
  induction rs with
  | nil => exact List.Pairwise.nil
  | cons x rest ih => exact sortInsert_byRealProb_sorted x _ ih

/-- C6: for a position `i ≥ 3` whose three context keys lie inside the key sequence, `Predict`
returns a list; and whenever `Predict` returns a list at a position `i ≥ 3`, that list is in
non-increasing order of score and is a permutation of the list built by the three lookup steps
(`predictAppend` on the packed context keys). -/
theorem Predict_sorted_perm (m : Model) (keySeq : List Nat) (i : Int)
    (results : List ResultPair) (hi : 3 ≤ i) :
    (i ≤ keySeq.length → (Predict m keySeq i results).isSome = true) ∧
      ∀ out : List ResultPair, Predict m keySeq i results = some out →
        out.Pairwise (fun a b => a.second ≥ b.second) ∧
        ∃ a b c : Nat, keySeq[(i - 3).toNat]? = some a ∧ keySeq[(i - 2).toNat]? = some b ∧
          keySeq[(i - 1).toNat]? = some c ∧
          List.Perm out (predictAppend m (MakeNgramModelKey 4 a b c) (MakeNgramModelKey 3 b c)
            (MakeNgramModelKey 2 c) results) := by
  have hn : ¬ i < 3 := not_lt.2 hi
  constructor
  · intro hlen
    have h3 : (i - 3).toNat < keySeq.length := by omega
    have h2 : (i - 2).toNat < keySeq.length := by omega
    have h1 : (i - 1).toNat < keySeq.length := by omega
    unfold Predict
    rw [if_neg hn, List.getElem?_eq_getElem h3, List.getElem?_eq_getElem h2,
      List.getElem?_eq_getElem h1]
    dsimp only
    split <;> rfl
  · intro out hout
    unfold Predict at hout
    rw [if_neg hn] at hout
    split at hout
    · rename_i a b c ha hb hc
      dsimp only at hout
      split at hout
      · injection hout with hout
        subst hout
        exact ⟨listSort_byRealProb_sorted _, a, b, c, ha, hb, hc, listSort_perm _ _⟩
      · rename_i hlen
        injection hout with hout
        subst hout
        have hnil : predictAppend m (MakeNgramModelKey 4 a b c) (MakeNgramModelKey 3 b c)
            (MakeNgramModelKey 2 c) results = [] :=
          List.length_eq_zero.1 (by omega)
        exact ⟨hnil ▸ List.Pairwise.nil, a, b, c, ha, hb, hc, List.Perm.refl _⟩
    · exact absurd hout (by simp)

/-- Witness of C6 at position `3` of the key sequence `[1, 2, 3]` on `dupModel`. -/
theorem Predict_sorted_perm_witness :
    (Predict dupModel [1, 2, 3] 3 []).isSome = true ∧
      ∀ out : List ResultPair, Predict dupModel [1, 2, 3] 3 [] = some out →
        out.Pairwise (fun a b => a.second ≥ b.second) ∧
        ∃ a b c : Nat, [1, 2, 3][(3 - 3 : Int).toNat]? = some a ∧
          [1, 2, 3][(3 - 2 : Int).toNat]? = some b ∧
          [1, 2, 3][(3 - 1 : Int).toNat]? = some c ∧
          List.Perm out (predictAppend dupModel (MakeNgramModelKey 4 a b c)
            (MakeNgramModelKey 3 b c) (MakeNgramModelKey 2 c) []) :=
  ⟨(Predict_sorted_perm dupModel [1, 2, 3] 3 [] (by decide)).1 (by decide),
    (Predict_sorted_perm dupModel [1, 2, 3] 3 [] (by decide)).2⟩

/-- C4 (evaluation at the failing input): on `dupModel`, `Predict` at position `3` of
`[1, 2, 3]` returns two entries that both carry the candidate word key `9`: `dupeSet` receives
the stored values converted to `U16` (here `1`, then `0`), not the candidate keys, so the
trigram entry for `9` is appended although the quadgram loop already appended `9`. -/
theorem Predict_duplicate_candidate :
    Predict dupModel [1, 2, 3] 3 [] = some [⟨(9, 1), 2 / 5⟩, ⟨(9, 1 / 2), 2 / 5⟩] ∧
      ∃ out : List ResultPair, Predict dupModel [1, 2, 3] 3 [] = some out ∧
        out.map (fun r => r.first.1) = [9, 9] ∧ ¬ (out.map (fun r => r.first.1)).Nodup := by
  have h : Predict dupModel [1, 2, 3] 3 [] = some [⟨(9, 1), 2 / 5⟩, ⟨(9, 1 / 2), 2 / 5⟩] := by
    decide!
  exact ⟨h, _, h, rfl, by decide⟩

/-! ## `U32`-indexed loops -/

theorem forU32_wrap {σ : Type} (size : Nat) (body : Nat → σ → σ) (hsize : 2 ^ 32 ≤ size) :
    ∀ (fuel i : Nat) (s : σ), i < 2 ^ 32 → forU32 size body fuel i s = none := by
  intro fuel
  induction fuel with
  | zero => intro i s _; rfl
  | succ fuel ih =>
    intro i s hi
    unfold forU32
    rw [if_pos (by omega)]
    exact ih _ _ (Nat.mod_lt _ (by norm_num))

theorem forEachU32_drop {α σ : Type} (vec : List α) (g : α → σ → σ)
    (hsize : vec.length < 2 ^ 32) :
    ∀ (fuel i : Nat) (s : σ), i ≤ vec.length → vec.length - i < fuel →
      forU32 vec.length
          (fun j st => match vec[j]? with
            | some x => g x st
            | none => st)
          fuel i s
        = some ((vec.drop i).foldl (fun st x => g x st) s) := by
  intro fuel
  induction fuel with
  | zero => intro i s _ h; omega
  | succ fuel ih =>
    intro i s hi hfuel
    unfold forU32
    by_cases hlt : i < vec.length
    · rw [if_pos hlt]
      have hw : toU32 (i + 1) = i + 1 := Nat.mod_eq_of_lt (by omega)
      rw [hw, ih (i + 1) _ (by omega) (by omega), List.drop_eq_getElem_cons hlt,
        List.getElem?_eq_getElem hlt]
      rfl
    · rw [if_neg hlt, List.drop_eq_nil_of_le (by omega)]
      rfl

theorem forEachU32_eq_foldl {α σ : Type} (vec : List α) (g : α → σ → σ) (fuel : Nat) (s : σ)
    (hsize : vec.length < 2 ^ 32) (hfuel : vec.length < fuel) :
    forEachU32 vec g fuel s = some (vec.foldl (fun st x => g x st) s) := by
  unfold forEachU32
  rw [forEachU32_drop vec g hsize fuel 0 s (Nat.zero_le _) (by omega), List.drop_zero]

theorem forEachU32_wrap {α σ : Type} (vec : List α) (g : α → σ → σ) (fuel : Nat) (s : σ)
    (hsize : 2 ^ 32 ≤ vec.length) : forEachU32 vec g fuel s = none :=
  forU32_wrap _ _ hsize fuel 0 s (by norm_num)

/-! ## Maps -/

theorem mapFind_mapSet {κ β : Type} [DecidableEq κ] (m : List (κ × β)) (k k' : κ) (v : β) :
    mapFind (mapSet m k v) k' = if k = k' then some v else mapFind m k' := by
  induction m with
  | nil => simp [mapSet, mapFind]
  | cons e rest ih =>
    obtain ⟨a, b⟩ := e
    unfold mapSet
    by_cases h : a = k
    · subst h
      by_cases h2 : a = k' <;> simp [mapFind, h2]
    · by_cases h2 : a = k'
      · subst h2
        have h3 : ¬ k = a := fun e => h e.symm
        simp [mapFind, h, h3]
      · simp [mapFind, h, h2, ih]

/-! ## `PruneSequence` -/

theorem pruneCount_counts (freqMap : List (String × Nat)) (l : List String) (x : String)
    (h : CountsOf freqMap l) (hlen : l.length + 1 < 2 ^ 32) :
    CountsOf (pruneCount x freqMap) (l ++ [x]) := by
  intro w
  have hx := h x
  have hcx : l.count x ≤ l.length := List.count_le_length x l
  unfold pruneCount
  by_cases h0 : l.count x = 0
  · rw [if_pos h0] at hx
    rw [hx]
    simp only [mapFind_mapSet, List.count_append, List.count_singleton]
    by_cases hw : x = w
    · subst hw; simp [h0]
    · have hw2 : ¬ (x == w) = true := by simpa using hw
      simp only [hw, hw2, if_false, Nat.add_zero]
      exact h w
  · rw [if_neg h0] at hx
    rw [hx]
    simp only [mapFind_mapSet, List.count_append, List.count_singleton]
    by_cases hw : x = w
    · subst hw
      have : toU32 (List.count x l + 1) = List.count x l + 1 := Nat.mod_eq_of_lt (by omega)
      simp [this]
    · have hw2 : ¬ (x == w) = true := by simpa using hw
      simp only [hw, hw2, if_false, Nat.add_zero]
      exact h w

theorem foldl_pruneCount_counts (rest : List String) :
    ∀ (pre : List String) (freqMap : List (String × Nat)), CountsOf freqMap pre →
      pre.length + rest.length < 2 ^ 32 →
      CountsOf (rest.foldl (fun st x => pruneCount x st) freqMap) (pre ++ rest) := by
  induction rest with
  | nil => intro pre fm h _; simpa using h
  | cons x rest ih =>
    intro pre fm h hlen
    simp only [List.length_cons] at hlen
    have := ih (pre ++ [x]) (pruneCount x fm) (pruneCount_counts fm pre x h (by omega))
      (by simp only [List.length_append, List.length_singleton]; omega)
    simpa using this

theorem foldl_pruneKeep (freqMap : List (String × Nat)) (p : String → Bool)
    (hp : ∀ w, p w = decide ((mapFind freqMap w).getD 0 > 1)) (rest : List String) :
    ∀ acc : List String,
      rest.foldl (fun st x => pruneKeep freqMap x st) acc = acc ++ rest.filter p := by
  induction rest with
  | nil => intro acc; simp
  | cons x rest ih =>
    intro acc
    rw [List.foldl_cons, ih, List.filter_cons, hp x]
    unfold pruneKeep
    by_cases h : (mapFind freqMap x).getD 0 > 1
    · rw [if_pos h, decide_eq_true h, if_pos rfl, List.append_assoc]
      rfl
    · rw [if_neg h, decide_eq_false h, if_neg (by simp)]

theorem foldl_copy (rest : List String) :
    ∀ acc : List String, rest.foldl (fun st x => st ++ [x]) acc = acc ++ rest := by
  induction rest with
  | nil => intro acc; simp
  | cons x rest ih => intro acc; simp [ih]

theorem PruneSequence_eq_filter (fuel : Nat) (v : List String) (hlen : v.length < 2 ^ 32)
    (hfuel : v.length < fuel) :
    PruneSequence fuel v = some (v.filter (fun w => decide (v.count w > 1))) := by
  have hc : CountsOf (v.foldl (fun st x => pruneCount x st) []) v := by
    have := foldl_pruneCount_counts v [] [] (fun w => by simp [mapFind]) (by simpa using hlen)
    simpa using this
  have hkeep := foldl_pruneKeep (v.foldl (fun st x => pruneCount x st) [])
    (fun w => decide (v.count w > 1))
    (fun w => by
      rw [hc w]
      by_cases h0 : v.count w = 0
      · simp [h0]
      · simp [h0]) v []
  have hfl : (v.filter (fun w => decide (v.count w > 1))).length ≤ v.length :=
    List.length_filter_le _ _
  unfold PruneSequence
  rw [forEachU32_eq_foldl v pruneCount fuel [] hlen hfuel]
  dsimp only
  rw [forEachU32_eq_foldl v _ fuel [] hlen hfuel]
  dsimp only
  rw [hkeep, List.nil_append,
    forEachU32_eq_foldl _ _ fuel [] (by omega) (by omega), foldl_copy, List.nil_append]

/-- C1 (amended): for every token list `v` of fewer than `2^32` tokens, `PruneSequence` returns
(with any fuel above the length) and replaces `v` by exactly the sub-list of the tokens whose
number of occurrences in `v` is greater than `1`, in their original order. -/
theorem PruneSequence_spec (v : List String) (hlen : v.length < 2 ^ 32) :
    ∀ fuel : Nat, v.length < fuel →
      PruneSequence fuel v = some (v.filter (fun w => decide (v.count w > 1))) :=
  fun fuel hfuel => PruneSequence_eq_filter fuel v hlen hfuel

/-- Witness of C1 (amended): `[the, cat, sat, the, cat, ran]` becomes `[the, cat, the, cat]`. -/
theorem PruneSequence_spec_witness :
    PruneSequence 7 ["the", "cat", "sat", "the", "cat", "ran"]
      = some ["the", "cat", "the", "cat"] :=
  (PruneSequence_spec ["the", "cat", "sat", "the", "cat", "ran"] (by decide) 7
    (by decide)).trans (by decide)

/-- C1 (counterexample): on the list of `2^32` copies of the token `a` the `U32` loop index of
`PruneSequence` can never reach `wordVec.size()`, so no amount of fuel yields a result. -/
theorem PruneSequence_no_result :
    ¬ ∃ fuel : Nat, (PruneSequence fuel (List.replicate 4294967296 "a")).isSome = true := by
  rintro ⟨fuel, h⟩
  unfold PruneSequence at h
  rw [forEachU32_wrap _ _ fuel [] (by rw [List.length_replicate]; norm_num)] at h
  simp at h

/-! ## Vocabulary -/

theorem StringToKey_new (s : Vocab) (x : String) (hid : s.idCounter < 65536)
    (hx : mapFind s.StringKeyTable x = none) :
    StringToKey s x = (s.idCounter,
      { idCounter := toU16 (s.idCounter + 1)
        KeyStringTable := mapSet s.KeyStringTable s.idCounter x
        StringKeyTable := mapSet s.StringKeyTable x s.idCounter }) := by
  unfold StringToKey AllocKey
  have hg : ¬ s.idCounter ≥ U32_MAX := by unfold U32_MAX; omega
  simp only [hx, if_neg hg]

theorem StringToKey_known (s : Vocab) (w : String) (k : Nat)
    (h : mapFind s.StringKeyTable w = some k) : StringToKey s w = (k, s) := by
  unfold StringToKey
  rw [h]

theorem KeyToString_known (s : Vocab) (k : Nat) (w str : String)
    (h : mapFind s.KeyStringTable k = some w) : KeyToString s k str = (true, w) := by
  unfold KeyToString
  rw [h]

theorem StringToKey_new_key (s : Vocab) (x : String) (hid : s.idCounter < 65536)
    (hx : mapFind s.StringKeyTable x = none) :
    mapFind (StringToKey s x).2.KeyStringTable s.idCounter = some x := by
  rw [StringToKey_new s x hid hx]
  show mapFind (mapSet s.KeyStringTable s.idCounter x) s.idCounter = some x
  rw [mapFind_mapSet, if_pos rfl]

theorem VocabAfter_step (s : Vocab) (ws : List String) (x : String) (h : VocabAfter s ws)
    (hx : x ∉ ws) : VocabAfter (StringToKey s x).2 (ws ++ [x]) := by
  obtain ⟨hid, habs, hkey⟩ := h
  rw [StringToKey_new s x (by rw [hid]; exact Nat.mod_lt _ (by norm_num)) (habs x hx)]
  refine ⟨?_, ?_, ?_⟩
  · show toU16 (s.idCounter + 1) = _
    rw [hid, List.length_append, List.length_singleton]
    unfold toU16
    omega
  · intro w hw
    show mapFind (mapSet s.StringKeyTable x s.idCounter) w = none
    rw [mapFind_mapSet]
    have hne : ¬ x = w := fun e => hw (by simp [e])
    rw [if_neg hne]
    exact habs w (fun hm => hw (List.mem_append_left _ hm))
  · intro j w hj
    show mapFind (mapSet s.StringKeyTable x s.idCounter) w = _
    rw [mapFind_mapSet]
    by_cases hjl : j < ws.length
    · rw [List.getElem?_append_left hjl] at hj
      have hmem : w ∈ ws := List.getElem?_mem hj
      have hne : ¬ x = w := fun e => hx (e ▸ hmem)
      rw [if_neg hne]
      exact hkey j w hj
    · have hj2 : j = ws.length := by
        obtain ⟨hlt, _⟩ := List.getElem?_eq_some_iff.1 hj
        simp only [List.length_append, List.length_singleton] at hlt
        omega
      subst hj2
      rw [List.getElem?_append_right (le_refl _)] at hj
      simp only [Nat.sub_self, List.getElem?_cons_zero, Option.some.injEq] at hj
      rw [if_pos hj, hid]

theorem VocabAfter_run (rest : List String) :
    ∀ (pre : List String) (s : Vocab), VocabAfter s pre → (pre ++ rest).Nodup →
      VocabAfter (runStringToKey s rest) (pre ++ rest) := by
  induction rest with
  | nil => intro pre s h _; simpa [runStringToKey] using h
  | cons x rest ih =>
    intro pre s h hnd
    have hx : x ∉ pre := by
      intro hm
      have := List.nodup_append.1 hnd
      exact this.2.2 hm (List.mem_cons_self x rest)
    have hnd2 : ((pre ++ [x]) ++ rest).Nodup := by simpa using hnd
    have := ih (pre ++ [x]) (StringToKey s x).2 (VocabAfter_step s pre x h hx) hnd2
    simpa [runStringToKey] using this

theorem VocabAfter_fresh (ws : List String) (hnd : ws.Nodup) :
    VocabAfter (runStringToKey Vocab.fresh ws) ws := by
  have h0 : VocabAfter Vocab.fresh [] :=
    ⟨rfl, fun w _ => rfl, fun j w hj => by simp at hj⟩
  simpa using VocabAfter_run ws [] Vocab.fresh h0 (by simpa using hnd)

theorem letter_inj : ∀ a < 26, ∀ b < 26, letter a = letter b → a = b := by decide

theorem letter_mod (a : Nat) : letter a = letter (a % 26) := by
  unfold letter; rw [Nat.mod_mod]

theorem wordN_inj (a b : Nat) (ha : a < 456976) (hb : b < 456976) (h : wordN a = wordN b) :
    a = b := by
  unfold wordN at h
  injection h with h
  simp only [List.cons.injEq, and_true] at h
  obtain ⟨h3, h2, h1, h0⟩ := h
  rw [letter_mod (a / 17576), letter_mod (b / 17576)] at h3
  rw [letter_mod (a / 676), letter_mod (b / 676)] at h2
  rw [letter_mod (a / 26), letter_mod (b / 26)] at h1
  rw [letter_mod a, letter_mod b] at h0
  have e3 := letter_inj _ (Nat.mod_lt _ (by norm_num)) _ (Nat.mod_lt _ (by norm_num)) h3
  have e2 := letter_inj _ (Nat.mod_lt _ (by norm_num)) _ (Nat.mod_lt _ (by norm_num)) h2
  have e1 := letter_inj _ (Nat.mod_lt _ (by norm_num)) _ (Nat.mod_lt _ (by norm_num)) h1
  have e0 := letter_inj _ (Nat.mod_lt _ (by norm_num)) _ (Nat.mod_lt _ (by norm_num)) h0
  omega

theorem firstWords_nodup (n : Nat) (hn : n ≤ 456976) : (firstWords n).Nodup := by
  unfold firstWords
  refine List.Nodup.map_on ?_ (List.nodup_range n)
  intro a ha b hb hab
  exact wordN_inj a b (by have := List.mem_range.1 ha; omega)
    (by have := List.mem_range.1 hb; omega) hab

theorem firstWords_get (n j : Nat) (hj : j < n) : (firstWords n)[j]? = some (wordN j) := by
  unfold firstWords
  rw [List.getElem?_map, List.getElem?_range hj]
  rfl

theorem firstWords_succ (n : Nat) : firstWords (n + 1) = firstWords n ++ [wordN n] := by
  unfold firstWords
  rw [List.range_succ, List.map_append]
  rfl

theorem runStringToKey_snoc (s : Vocab) (ws : List String) (x : String) :
    runStringToKey s (ws ++ [x]) = (StringToKey (runStringToKey s ws) x).2 := by
  unfold runStringToKey
  rw [List.foldl_append]
  rfl

theorem firstWords_key (n j : Nat) (hn : n ≤ 456976) (hj : j < n) :
    mapFind (runStringToKey Vocab.fresh (firstWords n)).StringKeyTable (wordN j)
      = some ((j + 1) % 65536) :=
  (VocabAfter_fresh (firstWords n) (firstWords_nodup n hn)).2.2 j _ (firstWords_get n j hj)

theorem firstWords_last (n : Nat) (hn : n < 456976) :
    mapFind (runStringToKey Vocab.fresh (firstWords (n + 1))).KeyStringTable ((n + 1) % 65536)
      = some (wordN n) := by
  have hB := VocabAfter_fresh (firstWords n) (firstWords_nodup n (by omega))
  have hlen : (firstWords n).length = n := by unfold firstWords; simp
  have hid : (runStringToKey Vocab.fresh (firstWords n)).idCounter = (n + 1) % 65536 := by
    rw [hB.1, hlen]
  have habs : mapFind (runStringToKey Vocab.fresh (firstWords n)).StringKeyTable (wordN n)
      = none := by
    apply hB.2.1
    intro hm
    unfold firstWords at hm
    obtain ⟨a, ha, hab⟩ := List.mem_map.1 hm
    have h1 := List.mem_range.1 ha
    have h2 := wordN_inj a n (by omega) hn hab
    omega
  have hkey := StringToKey_new_key _ _ (by rw [hid]; exact Nat.mod_lt _ (by norm_num)) habs
  rw [hid] at hkey
  rw [firstWords_succ, runStringToKey_snoc]
  exact hkey

/-- C2 (evaluation at the failing input): after `StringToKey` has been called on the 65537
distinct words `aaaa, aaab, ..., dsyq` of a fresh model, `StringToKey("aaaa")` still returns
the key `1` and leaves the state alone, but `KeyToString(1)` succeeds with `dsyq`: the `U16`
counter wrapped past `65535` (the guard compares it with `U32_MAX`) and key `1` was handed
out a second time. -/
theorem StringToKey_KeyToString_wrapped :
    StringToKey (runStringToKey Vocab.fresh (firstWords 65537)) "aaaa"
        = (1, runStringToKey Vocab.fresh (firstWords 65537)) ∧
      KeyToString (runStringToKey Vocab.fresh (firstWords 65537)) 1 ""
        = (true, "dsyq") ∧
      "dsyq" ≠ "aaaa" := by
  have h0 : wordN 0 = "aaaa" := by decide
  have h1 : wordN 65536 = "dsyq" := by decide
  have hS := firstWords_key 65537 0 (by norm_num) (by norm_num)
  have hK := firstWords_last 65536 (by norm_num)
  rw [h0] at hS
  rw [h1] at hK
  exact ⟨StringToKey_known _ _ _ hS, KeyToString_known _ _ _ _ hK, by decide⟩

/-- C3 (evaluation at the failing input): in the vocabulary reached by calling `StringToKey`
on the 65537 distinct words `aaaa, aaab, ..., dsyq` of a fresh model, the word `dsyp` has the
key `0`, the distinct words `aaaa` and `dsyq` share the key `1`, and `KeyStringTable` maps `1`
to `dsyq` only, so it is not the inverse of `StringKeyTable`. -/
theorem vocabulary_not_bijective_wrapped :
    mapFind (runStringToKey Vocab.fresh (firstWords 65537)).StringKeyTable "dsyp" = some 0 ∧
      mapFind (runStringToKey Vocab.fresh (firstWords 65537)).StringKeyTable "aaaa" = some 1 ∧
      mapFind (runStringToKey Vocab.fresh (firstWords 65537)).StringKeyTable "dsyq" = some 1 ∧
      mapFind (runStringToKey Vocab.fresh (firstWords 65537)).KeyStringTable 1 = some "dsyq" ∧
      "aaaa" ≠ "dsyq" := by
  have h0 : wordN 0 = "aaaa" := by decide
  have h1 : wordN 65536 = "dsyq" := by decide
  have h2 : wordN 65535 = "dsyp" := by decide
  have hA := firstWords_key 65537 0 (by norm_num) (by norm_num)
  have hB := firstWords_key 65537 65535 (by norm_num) (by norm_num)
  have hC := firstWords_key 65537 65536 (by norm_num) (by norm_num)
  have hK := firstWords_last 65536 (by norm_num)
  rw [h0] at hA
  rw [h2] at hB
  rw [h1] at hC hK
  exact ⟨hB, hA, hC, hK, by decide⟩

/-! ## Table updates -/

theorem mapFind_mapSetOrd {β : Type} (m : List (Nat × β)) (k k' : Nat) (v : β) :
    mapFind (mapSetOrd m k v) k' = if k = k' then some v else mapFind m k' := by
  induction m with
  | nil => simp [mapSetOrd, mapFind]
  | cons e rest ih =>
    obtain ⟨a, b⟩ := e
    unfold mapSetOrd
    by_cases h1 : k < a
    · rw [if_pos h1]
      by_cases h2 : k = k'
      · simp [mapFind, h2]
      · simp [mapFind, h2]
    · rw [if_neg h1]
      by_cases h3 : a = k
      · rw [if_pos h3]
        subst h3
        by_cases h2 : a = k' <;> simp [mapFind, h2]
      · rw [if_neg h3]
        by_cases h2 : a = k'
        · subst h2
          have h4 : ¬ k = a := fun e => h3 e.symm
          simp [mapFind, h4]
        · simp [mapFind, h2, ih]

theorem entryAt_UpdateNgramModel_same (t : NgramTable) (c w : Nat) :
    entryAt (UpdateNgramModel t c w) c w = some ((entryAt t c w).getD 0 + 1) := by
  unfold entryAt UpdateNgramModel
  cases h : mapFind t c with
  | none => simp [mapFind_mapSetOrd]
  | some inner => simp [mapFind_mapSetOrd]

theorem mapFind_UpdateNgramModel_other (t : NgramTable) (c w c' : Nat) (h : c' ≠ c) :
    mapFind (UpdateNgramModel t c w) c' = mapFind t c' := by
  have hne : ¬ c = c' := fun e => h e.symm
  unfold UpdateNgramModel
  cases mapFind t c <;> simp [mapFind_mapSetOrd, hne]

theorem entryAt_UpdateNgramModel_other (t : NgramTable) (c w c' w' : Nat)
    (h : (c', w') ≠ (c, w)) :
    entryAt (UpdateNgramModel t c w) c' w' = entryAt t c' w' := by
  by_cases hc : c' = c
  · subst hc
    have hw : ¬ w = w' := fun e => h (by rw [e])
    unfold entryAt UpdateNgramModel
    cases h1 : mapFind t c' with
    | none => simp [mapFind_mapSetOrd, hw, mapFind]
    | some inner => simp [mapFind_mapSetOrd, hw]
  · unfold entryAt
    rw [mapFind_UpdateNgramModel_other t c w c' hc]

/-- C11: after `UpdateNgramModel(t, c, w)` the weight stored at `(c, w)` is the previous weight
plus `1`, an absent entry counting as `0`; the entry at every other (outer key, inner key) pair
is as before (present with the same weight, or still absent), and every group under another
outer key is unchanged. -/
theorem UpdateNgramModel_frame (t : NgramTable) (c w : Nat) :
    entryAt (UpdateNgramModel t c w) c w = some ((entryAt t c w).getD 0 + 1) ∧
      (∀ c' w' : Nat, (c', w') ≠ (c, w) →
        entryAt (UpdateNgramModel t c w) c' w' = entryAt t c' w') ∧
      (∀ c' : Nat, c' ≠ c → mapFind (UpdateNgramModel t c w) c' = mapFind t c') :=
  ⟨entryAt_UpdateNgramModel_same t c w,
    fun c' w' h => entryAt_UpdateNgramModel_other t c w c' w' h,
    fun c' h => mapFind_UpdateNgramModel_other t c w c' h⟩

/-- Witness of C11: two updates with `(5, 9)` on the empty table give weight `2` at `(5, 9)`,
and no entry at `(5, 8)` or under the outer key `4`. -/
theorem UpdateNgramModel_frame_witness :
    entryAt (UpdateNgramModel (UpdateNgramModel [] 5 9) 5 9) 5 9 = some 2 ∧
      entryAt (UpdateNgramModel (UpdateNgramModel [] 5 9) 5 9) 5 8 = none ∧
      mapFind (UpdateNgramModel (UpdateNgramModel [] 5 9) 5 9) 4 = none :=
  ⟨((UpdateNgramModel_frame (UpdateNgramModel [] 5 9) 5 9).1).trans (by decide!),
    ((UpdateNgramModel_frame (UpdateNgramModel [] 5 9) 5 9).2.1 5 8 (by decide)).trans
      (by decide!),
    ((UpdateNgramModel_frame (UpdateNgramModel [] 5 9) 5 9).2.2 4 (by decide)).trans
      (by decide!)⟩

/-! ## The weights of `LambdaEM` -/

/-- C15: over exact arithmetic, when `normal = acc2 + acc3 + acc4` is not `0`, the weights set
by `LambdaEM` are `l[1] = acc2 / (2 * normal)`, `l[2] = acc2 / normal`, `l[3] = acc3 / normal`
and `l[4] = acc4 / normal` (so `l[2] + l[3] + l[4] = 1`); the other entries of `l` are kept. -/
theorem lambdaWeights_spec (l : Nat → ℚ) (acc2 acc3 acc4 : ℚ)
    (hn : acc2 + acc3 + acc4 ≠ 0) :
    ∃ l' : Nat → ℚ, lambdaWeights l acc2 acc3 acc4 = some l' ∧
      l' 1 = acc2 / (2 * (acc2 + acc3 + acc4)) ∧
      l' 2 = acc2 / (acc2 + acc3 + acc4) ∧
      l' 3 = acc3 / (acc2 + acc3 + acc4) ∧
      l' 4 = acc4 / (acc2 + acc3 + acc4) ∧
      l' 2 + l' 3 + l' 4 = 1 ∧
      ∀ j : Nat, 4 < j → l' j = l j := by
  refine ⟨_, by unfold lambdaWeights; rw [if_neg hn], ?_, ?_, ?_, ?_, ?_, ?_⟩
  · simp [mul_comm]
  · simp
  · simp
  · simp
  · simp only [show ¬ ((2 : Nat) = 1) by decide, show ¬ ((3 : Nat) = 1) by decide,
      show ¬ ((3 : Nat) = 2) by decide, show ¬ ((4 : Nat) = 1) by decide,
      show ¬ ((4 : Nat) = 2) by decide, show ¬ ((4 : Nat) = 3) by decide, if_false, if_true]
    rw [← add_div, ← add_div]
    exact div_self hn
  · intro j hj
    have h1 : ¬ j = 1 := by omega
    have h2 : ¬ j = 2 := by omega
    have h3 : ¬ j = 3 := by omega
    have h4 : ¬ j = 4 := by omega
    simp [h1, h2, h3, h4]

/-- Witness of C15: the accuracies `(1/2, 3/10, 1/5)` give `normal = 1` and the weights
`(1/4, 1/2, 3/10, 1/5)`. -/
theorem lambdaWeights_spec_witness :
    ∃ l' : Nat → ℚ, lambdaWeights (fun _ => 1) (1 / 2) (3 / 10) (1 / 5) = some l' ∧
      l' 1 = 1 / 4 ∧ l' 2 = 1 / 2 ∧ l' 3 = 3 / 10 ∧ l' 4 = 1 / 5 := by
  obtain ⟨l', h, h1, h2, h3, h4, _, _⟩ :=
    lambdaWeights_spec (fun _ => 1) (1 / 2) (3 / 10) (1 / 5) (by norm_num)
  refine ⟨l', h, ?_, ?_, ?_, ?_⟩
  · rw [h1]; norm_num
  · rw [h2]; norm_num
  · rw [h3]; norm_num
  · rw [h4]; norm_num

/-! ## Scoring -/

theorem foldl_scoreStep_no_match (actual : Nat) (l : List ResultPair)
    (h : ∀ x ∈ l, x.first.1 ≠ actual) :
    ∀ (lam : LambdaStats) (i : ℚ),
      l.foldl (scoreStep actual) (lam, i) = (lam, i + l.length) := by
  induction l with
  | nil => intro lam i; simp
  | cons x rest ih =>
    intro lam i
    have hx : ¬ x.first.1 = actual := h x (List.mem_cons_self x rest)
    rw [List.foldl_cons]
    have hstep : scoreStep actual (lam, i) x = (lam, i + 1) := by
      unfold scoreStep
      rw [if_neg hx]
    rw [hstep, ih (fun y hy => h y (List.mem_cons_of_mem x hy))]
    simp only [List.length_cons, Nat.cast_add, Nat.cast_one]
    congr 1
    ring

theorem foldl_scoreStep_match (actual : Nat) (pre post : List ResultPair) (x : ResultPair)
    (hpre : ∀ y ∈ pre, y.first.1 ≠ actual) (hx : x.first.1 = actual)
    (hpost : ∀ y ∈ post, y.first.1 ≠ actual) (lam : LambdaStats) (i : ℚ) :
    ((pre ++ x :: post).foldl (scoreStep actual) (lam, i)).1 =
      { lam with
        recall_ := lam.recall_ + 1
        realAccuracy := lam.realAccuracy + 1 / (i + pre.length)
        topSevenAccuracy :=
          if i + pre.length ≤ 7 then lam.topSevenAccuracy + 1 else lam.topSevenAccuracy } := by
  rw [List.foldl_append, foldl_scoreStep_no_match actual pre hpre, List.foldl_cons]
  have hstep : scoreStep actual (lam, i + pre.length) x =
      ({ lam with
          recall_ := lam.recall_ + 1
          realAccuracy := lam.realAccuracy + 1 / (i + pre.length)
          topSevenAccuracy :=
            if i + pre.length ≤ 7 then lam.topSevenAccuracy + 1 else lam.topSevenAccuracy },
        i + pre.length + 1) := by
    unfold scoreStep
    rw [if_pos hx]
  rw [hstep, foldl_scoreStep_no_match actual post hpost]

theorem ScoreResult_no_match (lam : LambdaStats) (actual : Nat) (r0 : ResultPair)
    (rest : List ResultPair) (h : ∀ x ∈ r0 :: rest, x.first.1 ≠ actual) :
    ScoreResult lam actual (r0 :: rest) =
      some { lam with nPredictions := lam.nPredictions + 1 } := by
  have h0 : ¬ actual = r0.first.1 := fun e => h r0 (List.mem_cons_self r0 rest) e.symm
  unfold ScoreResult
  simp only [if_neg h0]
  rw [foldl_scoreStep_no_match actual (r0 :: rest) h]

/-- C13: if the candidates of the non-empty ranked list are pairwise distinct and `a` is the
candidate at 1-indexed rank `r`, one `ScoreResult` call adds `1` to `nPredictions`, `1` to
`recall`, exactly `1/r` to `realAccuracy`, `1` to `topSevenAccuracy` if and only if `r ≤ 7`
and `1` to `boolAccuracy` if and only if `r = 1`. -/
theorem ScoreResult_match (lam : LambdaStats) (a : Nat) (results : List ResultPair)
    (r : Nat) (x : ResultPair) (hne : results ≠ [])
    (hnd : (results.map (fun p => p.first.1)).Nodup) (hr : 1 ≤ r)
    (hx : results[r - 1]? = some x) (hxa : x.first.1 = a) :
    ScoreResult lam a results = some
      { boolAccuracy := if r = 1 then lam.boolAccuracy + 1 else lam.boolAccuracy
        realAccuracy := lam.realAccuracy + 1 / (r : ℚ)
        recall_ := lam.recall_ + 1
        topSevenAccuracy := if r ≤ 7 then lam.topSevenAccuracy + 1 else lam.topSevenAccuracy
        nPredictions := lam.nPredictions + 1 } := by
  obtain ⟨hlt, hget⟩ := List.getElem?_eq_some_iff.1 hx
  -- split the list at the match
  have hsplit : results = results.take (r - 1) ++ x :: results.drop r := by
    have h1 : results.drop (r - 1) = x :: results.drop r := by
      rw [List.drop_eq_getElem_cons hlt, hget]
      congr 2
      omega
    conv_lhs => rw [← List.take_append_drop (r - 1) results, h1]
  have hlen : (results.take (r - 1)).length = r - 1 := by
    rw [List.length_take]; omega
  rw [hsplit, List.map_append, List.map_cons, List.nodup_append] at hnd
  obtain ⟨_, hnd2, hdisj⟩ := hnd
  have hpre : ∀ y ∈ results.take (r - 1), y.first.1 ≠ a := by
    intro y hy hya
    refine hdisj (List.mem_map.2 ⟨y, hy, rfl⟩) ?_
    rw [hya, ← hxa]
    exact List.mem_cons_self _ _
  have hpost : ∀ y ∈ results.drop r, y.first.1 ≠ a := by
    intro y hy hya
    rw [List.nodup_cons] at hnd2
    refine hnd2.1 ?_
    rw [hxa, ← hya]
    exact List.mem_map.2 ⟨y, hy, rfl⟩
  have hrank : (1 : ℚ) + ((results.take (r - 1)).length : ℚ) = (r : ℚ) := by
    rw [hlen]
    have : ((r - 1 : Nat) : ℚ) = (r : ℚ) - 1 := by
      rw [Nat.cast_sub hr]; simp
    rw [this]; ring
  have hr7 : ((r : ℚ) ≤ 7) ↔ r ≤ 7 := by
    constructor
    · intro h; exact_mod_cast h
    · intro h; exact_mod_cast h
  -- the head of the list decides `boolAccuracy`
  have hfold := foldl_scoreStep_match a (results.take (r - 1)) (results.drop r) x hpre hxa
    hpost
  rw [← hsplit] at hfold
  obtain ⟨r0, rest, hres⟩ := List.exists_cons_of_ne_nil hne
  have hscore : ScoreResult lam a results = some
      (results.foldl (scoreStep a)
        (if a = r0.first.1 then
          { nPredictions := lam.nPredictions + 1, boolAccuracy := lam.boolAccuracy + 1,
            realAccuracy := lam.realAccuracy, recall_ := lam.recall_,
            topSevenAccuracy := lam.topSevenAccuracy }
        else
          { nPredictions := lam.nPredictions + 1, boolAccuracy := lam.boolAccuracy,
            realAccuracy := lam.realAccuracy, recall_ := lam.recall_,
            topSevenAccuracy := lam.topSevenAccuracy }, 1)).1 := by
    rw [hres]
    rfl
  rw [hscore, hfold, hrank]
  by_cases h1 : r = 1
  · subst h1
    have hr0 : r0 = x := by
      rw [hres] at hx
      simpa using hx
    have hact : a = r0.first.1 := by rw [hr0, hxa]
    rw [if_pos hact]
    simp
  · have hact : ¬ a = r0.first.1 := by
      intro e
      have hmem : r0 ∈ results.take (r - 1) := by
        rw [hres]
        have : r - 1 = (r - 2) + 1 := by omega
        rw [this, List.take_succ_cons]
        exact List.mem_cons_self _ _
      exact hpre r0 hmem e.symm
    rw [if_neg hact]
    simp only [if_neg h1, hr7]

/-- Witness of C13: the list `[k9, k4, k7]` with actual `k4` (rank `2`) gives `recall` +1,
reciprocal rank +1/2, top-7 +1, top-1 +0 and `nPredictions` +1. -/
theorem ScoreResult_match_witness :
    ScoreResult ⟨0, 0, 0, 0, 0⟩ 4 [⟨(9, 1 / 2), 1 / 2⟩, ⟨(4, 3 / 10), 3 / 10⟩, ⟨(7, 1 / 5), 1 / 5⟩]
      = some ⟨0, 1 / 2, 1, 1, 1⟩ :=
  (ScoreResult_match ⟨0, 0, 0, 0, 0⟩ 4
    [⟨(9, 1 / 2), 1 / 2⟩, ⟨(4, 3 / 10), 3 / 10⟩, ⟨(7, 1 / 5), 1 / 5⟩] 2 ⟨(4, 3 / 10), 3 / 10⟩
    (by simp) (by decide) (by decide) (by decide!) rfl).trans (by decide!)

/-- C14 (evaluation at the failing input): on the empty list, which is what `Predict` leaves
in `results` for every position `i < 3` (`Test` starts at `i = 0`), `ScoreResult` has no defined
result: it reads `results.begin()->first->first` although `begin()` is `end()`. -/
theorem ScoreResult_empty_undefined (m : Model) (keySeq : List Nat) (lam : LambdaStats)
    (a : Nat) :
    Predict m keySeq 0 [] = some [] ∧ ScoreResult lam a [] = none ∧
      (Predict m keySeq 0 []).bind (ScoreResult lam a) = none := by
  have h : Predict m keySeq 0 [] = some [] := by
    unfold Predict
    simp
  refine ⟨h, rfl, ?_⟩
  rw [h]
  rfl

/-! ## `WordToKeySequence` -/

theorem forInt_overflow {σ : Type} (bound : Nat) (body : Nat → σ → Option σ)
    (hb : INT_MAX < bound) :
    ∀ (fuel i : Nat) (s : σ), i ≤ INT_MAX → forInt bound body fuel i s = none := by
  intro fuel
  induction fuel with
  | zero => intro i s _; rfl
  | succ fuel ih =>
    intro i s hi
    unfold forInt
    rw [if_pos (by omega)]
    cases body i s with
    | none => rfl
    | some s' =>
      simp only
      by_cases h : i + 1 > INT_MAX
      · rw [if_pos h]
      · rw [if_neg h]
        exact ih (i + 1) s' (by omega)

/-- One iteration of the loop of `WordToKeySequence` on the word `w`. -/
theorem forInt_words (wordVec : List String) (bound : Nat) (hb : bound ≤ wordVec.length)
    (hmax : bound ≤ INT_MAX) :
    ∀ (fuel i : Nat) (st : Vocab × List Nat), i ≤ bound → bound - i < fuel →
      forInt bound (wordToKeyBody wordVec) fuel i st
        = some (((wordVec.take bound).drop i).foldl
            (fun st w => ((StringToKey st.1 w).2, st.2 ++ [(StringToKey st.1 w).1])) st) := by
  intro fuel
  induction fuel with
  | zero => intro i st _ h; omega
  | succ fuel ih =>
    intro i st hi hfuel
    unfold forInt
    by_cases hlt : i < bound
    · have hlt2 : i < wordVec.length := by omega
      have hlt3 : i < (wordVec.take bound).length := by rw [List.length_take]; omega
      have hbody : wordToKeyBody wordVec i st
          = some ((StringToKey st.1 wordVec[i]).2, st.2 ++ [(StringToKey st.1 wordVec[i]).1]) := by
        unfold wordToKeyBody
        rw [List.getElem?_eq_getElem hlt2]
      rw [if_pos hlt, hbody]
      simp only
      rw [if_neg (by omega), ih (i + 1) _ (by omega) (by omega),
        List.drop_eq_getElem_cons hlt3, List.foldl_cons, List.getElem_take]
    · rw [if_neg hlt, List.drop_eq_nil_of_le (by rw [List.length_take]; omega)]
      rfl

theorem foldl_StringToKey (ws : List String) :
    ∀ (s : Vocab) (ks : List Nat),
      ws.foldl (fun st w => ((StringToKey st.1 w).2, st.2 ++ [(StringToKey st.1 w).1])) (s, ks)
        = (runStringToKey s ws, ks ++ keysFrom s ws) := by
  induction ws with
  | nil => intro s ks; simp [runStringToKey, keysFrom]
  | cons w rest ih =>
    intro s ks
    rw [List.foldl_cons, ih]
    simp [runStringToKey, keysFrom]

theorem keysFrom_length (ws : List String) : ∀ s : Vocab, (keysFrom s ws).length = ws.length := by
  induction ws with
  | nil => intro s; rfl
  | cons w rest ih => intro s; simp [keysFrom, ih]

theorem keysFrom_get (ws : List String) :
    ∀ (s : Vocab) (j : Nat) (w : String), ws[j]? = some w →
      (keysFrom s ws)[j]? = some (StringToKey (runStringToKey s (ws.take j)) w).1 := by
  induction ws with
  | nil => intro s j w h; simp at h
  | cons x rest ih =>
    intro s j w h
    cases j with
    | zero =>
      simp only [List.getElem?_cons_zero, Option.some.injEq] at h
      subst h
      simp [keysFrom, runStringToKey]
    | succ j =>
      simp only [List.getElem?_cons_succ] at h
      have := ih (StringToKey s x).2 j w h
      simpa [keysFrom, runStringToKey] using this

theorem WordToKeySequence_eq (fuel : Nat) (s : Vocab) (v : List String) (ks : List Nat)
    (h5 : 5 ≤ v.length) (hmax : v.length ≤ 2 ^ 31 + 4) (hfuel : v.length - 5 < fuel) :
    WordToKeySequence fuel s v ks =
      some (runStringToKey s (v.take (v.length - 5)), [],
        ks ++ keysFrom s (v.take (v.length - 5))) := by
  have hbound : toU64 (v.length + 2 ^ 64 - NGRAM - 1) = v.length - 5 := by
    unfold toU64 NGRAM
    omega
  unfold WordToKeySequence
  rw [hbound, forInt_words v (v.length - 5) (by omega) (by unfold INT_MAX; omega) fuel 0 (s, ks)
    (Nat.zero_le _) (by omega), List.drop_zero, foldl_StringToKey]

/-- C12 (amended): for a token list of length `n` with `5 ≤ n ≤ 2^31 + 4`,
`WordToKeySequence` returns (with any fuel above `n - 5`); it appends exactly `n - 5` keys, the
`j`-th being the result of `StringToKey` on the `j`-th token in the state reached after the
tokens before it; the vocabulary afterwards is the one reached by calling `StringToKey` on the
first `n - 5` tokens only, and the token list is empty. -/
theorem WordToKeySequence_spec (s : Vocab) (v : List String) (ks : List Nat)
    (h5 : 5 ≤ v.length) (hmax : v.length ≤ 2 ^ 31 + 4) :
    ∀ fuel : Nat, v.length - 5 < fuel →
      WordToKeySequence fuel s v ks =
          some (runStringToKey s (v.take (v.length - 5)), [],
            ks ++ keysFrom s (v.take (v.length - 5))) ∧
        (keysFrom s (v.take (v.length - 5))).length = v.length - 5 ∧
        ∀ j : Nat, j < v.length - 5 → ∃ w : String, v[j]? = some w ∧
          (keysFrom s (v.take (v.length - 5)))[j]?
            = some (StringToKey (runStringToKey s (v.take j)) w).1 := by
  intro fuel hfuel
  refine ⟨WordToKeySequence_eq fuel s v ks h5 hmax hfuel, ?_, ?_⟩
  · rw [keysFrom_length, List.length_take]; omega
  · intro j hj
    have hjl : j < v.length := by omega
    refine ⟨v[j], List.getElem?_eq_getElem hjl, ?_⟩
    have hget : (v.take (v.length - 5))[j]? = some v[j] := by
      rw [List.getElem?_take_of_lt hj, List.getElem?_eq_getElem hjl]
    have := keysFrom_get (v.take (v.length - 5)) s j v[j] hget
    rw [List.take_take, Nat.min_eq_left (by omega)] at this
    exact this

/-- Witness of C12 (amended): seven tokens on a fresh model give the keys of the first two
tokens, and the last five tokens get no key. -/
theorem WordToKeySequence_spec_witness :
    WordToKeySequence 3 Vocab.fresh ["a", "b", "a", "c", "d", "e", "f"] [] =
      some (⟨3, [(1, "a"), (2, "b")], [("a", 1), ("b", 2)]⟩, [], [1, 2]) :=
  ((WordToKeySequence_spec Vocab.fresh ["a", "b", "a", "c", "d", "e", "f"] [] (by decide)
    (by decide) 3 (by decide)).1).trans rfl

/-- C12 (counterexample): on a token list of length `2^31 + 6` the bound is `2^31 + 1`, and
the `int` loop index of `WordToKeySequence` would have to pass `INT_MAX` to reach it; no amount
of fuel yields a result. -/
theorem WordToKeySequence_no_result :
    ¬ ∃ fuel : Nat,
      (WordToKeySequence fuel Vocab.fresh (List.replicate 2147483654 "a") []).isSome = true := by
  rintro ⟨fuel, h⟩
  have hbound : toU64 ((List.replicate 2147483654 "a").length + 2 ^ 64 - NGRAM - 1)
      = 2147483649 := by
    rw [List.length_replicate]
    unfold toU64 NGRAM
    norm_num
  unfold WordToKeySequence at h
  rw [hbound, forInt_overflow 2147483649 _ (by unfold INT_MAX; norm_num) fuel 0 _
    (Nat.zero_le _)] at h
  simp at h

/-! ## Vocabulary: exhaustion of the key space -/

theorem firstWords_next (n : Nat) (hn : n < 456976) :
    mapFind (runStringToKey Vocab.fresh (firstWords n)).StringKeyTable (wordN n) = none ∧
      (StringToKey (runStringToKey Vocab.fresh (firstWords n)) (wordN n)).1
        = (n + 1) % 65536 ∧
      mapFind (StringToKey (runStringToKey Vocab.fresh (firstWords n)) (wordN n)).2.StringKeyTable
        (wordN n) = some ((n + 1) % 65536) ∧
      mapFind (StringToKey (runStringToKey Vocab.fresh (firstWords n)) (wordN n)).2.KeyStringTable
        ((n + 1) % 65536) = some (wordN n) := by
  have hB := VocabAfter_fresh (firstWords n) (firstWords_nodup n (by omega))
  have hlen : (firstWords n).length = n := by unfold firstWords; simp
  have hid : (runStringToKey Vocab.fresh (firstWords n)).idCounter = (n + 1) % 65536 := by
    rw [hB.1, hlen]
  have habs : mapFind (runStringToKey Vocab.fresh (firstWords n)).StringKeyTable (wordN n)
      = none := by
    apply hB.2.1
    intro hm
    unfold firstWords at hm
    obtain ⟨a, ha, hab⟩ := List.mem_map.1 hm
    have h1 := List.mem_range.1 ha
    have h2 := wordN_inj a n (by omega) hn hab
    omega
  have hlt : (runStringToKey Vocab.fresh (firstWords n)).idCounter < 65536 := by
    rw [hid]; exact Nat.mod_lt _ (by norm_num)
  have hkey := StringToKey_new_key _ _ hlt habs
  have hnew := StringToKey_new _ _ hlt habs
  rw [hid] at hkey
  refine ⟨habs, ?_, ?_, hkey⟩
  · rw [hnew, hid]
  · rw [hnew]
    show mapFind (mapSet _ _ _) _ = _
    rw [mapFind_mapSet, if_pos rfl, hid]

/-- C16 (evaluation at the failing input): on the vocabulary holding the 65535 distinct words
`aaaa, ..., dsyo` the unseen word `dsyp` is not refused: `StringToKey` returns `0` because the
wrapped counter is `0`, and it registers `dsyp` under the key `0` in both tables; the next
unseen word `dsyq` then gets the key `1`, not the sentinel. -/
theorem StringToKey_exhausted :
    mapFind (runStringToKey Vocab.fresh (firstWords 65535)).StringKeyTable "dsyp" = none ∧
      (StringToKey (runStringToKey Vocab.fresh (firstWords 65535)) "dsyp").1 = 0 ∧
      mapFind (StringToKey (runStringToKey Vocab.fresh (firstWords 65535)) "dsyp").2.StringKeyTable
        "dsyp" = some 0 ∧
      mapFind (StringToKey (runStringToKey Vocab.fresh (firstWords 65535)) "dsyp").2.KeyStringTable
        0 = some "dsyp" ∧
      (StringToKey (runStringToKey Vocab.fresh (firstWords 65536)) "dsyq").1 = 1 := by
  have h1 : wordN 65536 = "dsyq" := by decide
  have h2 : wordN 65535 = "dsyp" := by decide
  have hA := firstWords_next 65535 (by norm_num)
  have hB := firstWords_next 65536 (by norm_num)
  rw [h2] at hA
  rw [h1] at hB
  exact ⟨hA.1, hA.2.1, hA.2.2.1, hA.2.2.2, hB.2.1⟩

/-! ## The vocabulary built by `Train` -/

theorem mapSet_absent {κ β : Type} [DecidableEq κ] (m : List (κ × β)) (k : κ) (v : β)
    (h : mapFind m k = none) : mapSet m k v = m ++ [(k, v)] := by
  induction m with
  | nil => rfl
  | cons e rest ih =>
    obtain ⟨a, b⟩ := e
    unfold mapFind at h
    by_cases hk : a = k
    · rw [if_pos hk] at h
      exact absurd h (by simp)
    · rw [if_neg hk] at h
      unfold mapSet
      rw [if_neg hk, ih h]
      rfl

theorem mapFind_isSome_iff {κ β : Type} [DecidableEq κ] (m : List (κ × β)) (k : κ) :
    (mapFind m k).isSome = true ↔ k ∈ m.map Prod.fst := by
  induction m with
  | nil => simp [mapFind]
  | cons e rest ih =>
    obtain ⟨a, b⟩ := e
    unfold mapFind
    by_cases hk : a = k
    · simp [hk]
    · have hk2 : ¬ k = a := fun e => hk e.symm
      simp [hk, hk2, ih]

theorem mapFind_eq_none_iff {κ β : Type} [DecidableEq κ] (m : List (κ × β)) (k : κ) :
    mapFind m k = none ↔ k ∉ m.map Prod.fst := by
  rw [← mapFind_isSome_iff]
  cases mapFind m k <;> simp

theorem VocabDomain_step (s : Vocab) (seen : List String) (x : String)
    (h : s.idCounter < 65536 ∧ (s.StringKeyTable.map Prod.fst).Nodup ∧
      ∀ w, w ∈ s.StringKeyTable.map Prod.fst ↔ w ∈ seen) :
    VocabDomain (StringToKey s x).2 (seen ++ [x]) := by
  obtain ⟨hid, hnd, hdom⟩ := h
  cases hx : mapFind s.StringKeyTable x with
  | some k =>
    rw [StringToKey_known s x k hx]
    refine ⟨hid, hnd, fun w => ?_⟩
    have hxin : x ∈ s.StringKeyTable.map Prod.fst :=
      (mapFind_isSome_iff _ _).1 (by rw [hx]; rfl)
    rw [List.mem_append, List.mem_singleton, hdom w]
    constructor
    · intro hw; exact Or.inl hw
    · rintro (hw | hw)
      · exact hw
      · rw [hw]; exact (hdom x).1 hxin
  | none =>
    rw [StringToKey_new s x hid hx]
    have hxout : x ∉ s.StringKeyTable.map Prod.fst := (mapFind_eq_none_iff _ _).1 hx
    refine ⟨Nat.mod_lt _ (by norm_num), ?_, fun w => ?_⟩
    · show ((mapSet s.StringKeyTable x s.idCounter).map Prod.fst).Nodup
      rw [mapSet_absent _ _ _ hx, List.map_append]
      exact List.Nodup.append hnd (List.nodup_singleton x)
        (by simpa [List.disjoint_singleton] using hxout)
    · show w ∈ (mapSet s.StringKeyTable x s.idCounter).map Prod.fst ↔ _
      rw [mapSet_absent _ _ _ hx, List.map_append, List.mem_append, List.mem_append, hdom w]
      simp

theorem VocabDomain_run (rest : List String) :
    ∀ (seen : List String) (s : Vocab), VocabDomain s seen →
      VocabDomain (runStringToKey s rest) (seen ++ rest) := by
  induction rest with
  | nil => intro seen s h; simpa [runStringToKey] using h
  | cons x rest ih =>
    intro seen s h
    have := ih (seen ++ [x]) (StringToKey s x).2 (VocabDomain_step s seen x h)
    simpa [runStringToKey] using this

theorem VocabDomain_fresh (ws : List String) : VocabDomain (runStringToKey Vocab.fresh ws) ws := by
  have h0 : VocabDomain Vocab.fresh [] := by
    refine ⟨by decide, List.nodup_nil, fun w => ?_⟩
    simp [Vocab.fresh]
  simpa using VocabDomain_run ws [] Vocab.fresh h0

theorem VocabDomain_length (s : Vocab) (seen : List String) (h : VocabDomain s seen) :
    s.StringKeyTable.length = seen.dedup.length := by
  obtain ⟨_, hnd, hdom⟩ := h
  have hperm : List.Perm (s.StringKeyTable.map Prod.fst) seen.dedup :=
    (List.perm_ext_iff_of_nodup hnd (List.nodup_dedup seen)).2
      (fun w => by rw [hdom w, List.mem_dedup])
  rw [← hperm.length_eq, List.length_map]

theorem VocabNumbered_known (s : Vocab) (ws : List String) (x : String)
    (h : VocabNumbered s ws) (hx : x ∈ ws) : (StringToKey s x).2 = s := by
  obtain ⟨j, hj⟩ := List.getElem?_of_mem hx
  rw [StringToKey_known s x (j + 1) (h.2.2.2.2.1 j x hj)]

theorem VocabNumbered_step (s : Vocab) (ws : List String) (x : String)
    (h : VocabNumbered s ws) (hx : x ∉ ws) (hroom : ws.length < 65535) :
    VocabNumbered (StringToKey s x).2 (ws ++ [x]) := by
  obtain ⟨_, hnd, hid, habs, hkey, hback, hfree, hl1, hl2⟩ := h
  have hidv : s.idCounter = ws.length + 1 := by
    rw [hid]; exact Nat.mod_eq_of_lt (by omega)
  have hnew : mapFind s.KeyStringTable s.idCounter = none :=
    hfree _ (Or.inr (by omega))
  rw [StringToKey_new s x (by omega) (habs x hx)]
  refine ⟨?_, ?_, ?_, ?_, ?_, ?_, ?_, ?_, ?_⟩
  · rw [List.length_append, List.length_singleton]; omega
  · exact List.Nodup.append hnd (List.nodup_singleton x)
      (by simpa [List.disjoint_singleton] using hx)
  · show toU16 (s.idCounter + 1) = _
    rw [hidv, List.length_append, List.length_singleton]
    rfl
  · intro w hw
    show mapFind (mapSet s.StringKeyTable x s.idCounter) w = none
    rw [mapFind_mapSet]
    have hne : ¬ x = w := fun e => hw (by simp [e])
    rw [if_neg hne]
    exact habs w (fun hm => hw (List.mem_append_left _ hm))
  · intro j w hj
    show mapFind (mapSet s.StringKeyTable x s.idCounter) w = _
    rw [mapFind_mapSet]
    by_cases hjl : j < ws.length
    · rw [List.getElem?_append_left hjl] at hj
      have hmem : w ∈ ws := List.getElem?_mem hj
      have hne : ¬ x = w := fun e => hx (e ▸ hmem)
      rw [if_neg hne]
      exact hkey j w hj
    · have hj2 : j = ws.length := by
        obtain ⟨hlt, _⟩ := List.getElem?_eq_some_iff.1 hj
        simp only [List.length_append, List.length_singleton] at hlt
        omega
      subst hj2
      rw [List.getElem?_append_right (le_refl _)] at hj
      simp only [Nat.sub_self, List.getElem?_cons_zero, Option.some.injEq] at hj
      rw [if_pos hj, hidv]
  · intro j w hj
    show mapFind (mapSet s.KeyStringTable s.idCounter x) (j + 1) = _
    rw [mapFind_mapSet]
    by_cases hjl : j < ws.length
    · rw [List.getElem?_append_left hjl] at hj
      have hne : ¬ s.idCounter = j + 1 := by omega
      rw [if_neg hne]
      exact hback j w hj
    · have hj2 : j = ws.length := by
        obtain ⟨hlt, _⟩ := List.getElem?_eq_some_iff.1 hj
        simp only [List.length_append, List.length_singleton] at hlt
        omega
      subst hj2
      rw [List.getElem?_append_right (le_refl _)] at hj
      simp only [Nat.sub_self, List.getElem?_cons_zero, Option.some.injEq] at hj
      rw [if_pos hidv, hj]
  · intro k hk
    show mapFind (mapSet s.KeyStringTable s.idCounter x) k = none
    rw [mapFind_mapSet]
    rw [List.length_append, List.length_singleton] at hk
    have hne : ¬ s.idCounter = k := by omega
    rw [if_neg hne]
    exact hfree k (by omega)
  · show (mapSet s.StringKeyTable x s.idCounter).length = _
    rw [mapSet_absent _ _ _ (habs x hx), List.length_append, List.length_append, hl1]
    rfl
  · show (mapSet s.KeyStringTable s.idCounter x).length = _
    rw [mapSet_absent _ _ _ hnew, List.length_append, List.length_append, hl2]
    rfl

theorem VocabNumbered_run (rest : List String) :
    ∀ (ws : List String) (s : Vocab), VocabNumbered s ws →
      (∀ E : List String, E.Nodup → (∀ w ∈ E, w ∈ ws ∨ w ∈ rest) → E.length ≤ 65535) →
      ∃ ws2 : List String, VocabNumbered (runStringToKey s rest) ws2 ∧
        ∀ w, w ∈ ws2 ↔ w ∈ ws ∨ w ∈ rest := by
  induction rest with
  | nil =>
    intro ws s h _
    exact ⟨ws, by simpa [runStringToKey] using h, fun w => by simp⟩
  | cons x rest ih =>
    intro ws s h hcard
    have hrun : runStringToKey s (x :: rest) = runStringToKey (StringToKey s x).2 rest := rfl
    rw [hrun]
    by_cases hx : x ∈ ws
    · rw [VocabNumbered_known s ws x h hx]
      obtain ⟨ws2, h2, hmem⟩ := ih ws s h
        (fun E hE hsub => hcard E hE (fun w hw => by
          rcases hsub w hw with h1 | h1
          · exact Or.inl h1
          · exact Or.inr (List.mem_cons_of_mem _ h1)))
      refine ⟨ws2, h2, fun w => ?_⟩
      rw [hmem w, List.mem_cons]
      constructor
      · rintro (h1 | h1)
        · exact Or.inl h1
        · exact Or.inr (Or.inr h1)
      · rintro (h1 | h1 | h1)
        · exact Or.inl h1
        · rw [h1]; exact Or.inl hx
        · exact Or.inr h1
    · have hnd : (ws ++ [x]).Nodup :=
        List.Nodup.append h.2.1 (List.nodup_singleton x)
          (by simpa [List.disjoint_singleton] using hx)
      have hroom : ws.length < 65535 := by
        have := hcard (ws ++ [x]) hnd (fun w hw => by
          rcases List.mem_append.1 hw with h1 | h1
          · exact Or.inl h1
          · rw [List.mem_singleton.1 h1]; exact Or.inr (List.mem_cons_self _ _))
        rw [List.length_append, List.length_singleton] at this
        omega
      obtain ⟨ws2, h2, hmem⟩ := ih (ws ++ [x]) (StringToKey s x).2
        (VocabNumbered_step s ws x h hx hroom)
        (fun E hE hsub => hcard E hE (fun w hw => by
          rcases hsub w hw with h1 | h1
          · rcases List.mem_append.1 h1 with h3 | h3
            · exact Or.inl h3
            · rw [List.mem_singleton.1 h3]; exact Or.inr (List.mem_cons_self _ _)
          · exact Or.inr (List.mem_cons_of_mem _ h1)))
      refine ⟨ws2, h2, fun w => ?_⟩
      rw [hmem w, List.mem_append, List.mem_singleton, List.mem_cons]
      constructor
      · rintro ((h1 | h1) | h1)
        · exact Or.inl h1
        · exact Or.inr (Or.inl h1)
        · exact Or.inr (Or.inr h1)
      · rintro (h1 | h1 | h1)
        · exact Or.inl (Or.inl h1)
        · exact Or.inl (Or.inr h1)
        · exact Or.inr h1

theorem VocabNumbered_fresh (ws : List String) (hcard : ws.dedup.length ≤ 65535) :
    ∃ ws2 : List String, VocabNumbered (runStringToKey Vocab.fresh ws) ws2 ∧
      (∀ w, w ∈ ws2 ↔ w ∈ ws) ∧ ws2.length = ws.dedup.length := by
  have h0 : VocabNumbered Vocab.fresh [] :=
    ⟨by simp, List.nodup_nil, rfl, fun w _ => rfl, fun j w hj => by simp at hj,
      fun j w hj => by simp at hj, fun k _ => rfl, rfl, rfl⟩
  have hsub : ∀ E : List String, E.Nodup → (∀ w ∈ E, w ∈ ([] : List String) ∨ w ∈ ws) →
      E.length ≤ 65535 := by
    intro E hE hmem
    have hss : E ⊆ ws.dedup := fun w hw => by
      rcases hmem w hw with h1 | h1
      · cases h1
      · exact List.mem_dedup.2 h1
    exact le_trans (List.subperm_of_subset hE hss).length_le hcard
  obtain ⟨ws2, h2, hmem⟩ := VocabNumbered_run ws [] Vocab.fresh h0 hsub
  refine ⟨ws2, h2, fun w => by rw [hmem w]; simp, ?_⟩
  have hperm : List.Perm ws2 ws.dedup :=
    (List.perm_ext_iff_of_nodup h2.2.1 (List.nodup_dedup ws)).2
      (fun w => by rw [hmem w, List.mem_dedup]; simp)
  exact hperm.length_eq

/-- C18 (amended): for every token sequence of fewer than `2^31` tokens fed to training on a
fresh model whose pruned sequence (the tokens occurring more than once) has `n ≥ 5` tokens, with
at most `65535` distinct tokens among the first `n - 5` of them, `PruneSequence` followed by
`WordToKeySequence` returns, and the vocabulary then holds exactly one key per distinct token
among the first `n - 5` tokens that survived pruning: each such token has a key in `1..65535`
in `StringKeyTable`, which `KeyStringTable` maps back to it; no other word has a key; every
entry of `KeyStringTable` is such a pair; distinct tokens have distinct keys; and both tables
have as many entries as there are distinct such tokens. -/
theorem trainSequence_vocabulary (v : List String) (hlen : v.length < 2 ^ 31)
    (h5 : 5 ≤ (survivors v).length)
    (hkeys : ((survivors v).take ((survivors v).length - 5)).dedup.length ≤ 65535) :
    ∀ fuel : Nat, v.length < fuel →
      ∃ (vocab : Vocab) (keys : List Nat),
        trainSequence fuel v = some (vocab, [], keys) ∧
        (∀ w ∈ (survivors v).take ((survivors v).length - 5),
          ∃ k, mapFind vocab.StringKeyTable w = some k ∧ 1 ≤ k ∧ k ≤ 65535 ∧
            mapFind vocab.KeyStringTable k = some w) ∧
        (∀ w, w ∉ (survivors v).take ((survivors v).length - 5) →
          mapFind vocab.StringKeyTable w = none) ∧
        (∀ k w, mapFind vocab.KeyStringTable k = some w →
          mapFind vocab.StringKeyTable w = some k) ∧
        (∀ w1 w2 k, mapFind vocab.StringKeyTable w1 = some k →
          mapFind vocab.StringKeyTable w2 = some k → w1 = w2) ∧
        vocab.StringKeyTable.length =
          ((survivors v).take ((survivors v).length - 5)).dedup.length ∧
        vocab.KeyStringTable.length =
          ((survivors v).take ((survivors v).length - 5)).dedup.length := by
  intro fuel hfuel
  have hfl : (survivors v).length ≤ v.length := List.length_filter_le _ _
  obtain ⟨ws, hnum, hmem, hlen2⟩ :=
    VocabNumbered_fresh ((survivors v).take ((survivors v).length - 5)) hkeys
  obtain ⟨hle, hnd, _, habs, hkey, hback, hfree, hl1, hl2⟩ := hnum
  have hinv : ∀ k w,
      mapFind (runStringToKey Vocab.fresh
        ((survivors v).take ((survivors v).length - 5))).KeyStringTable k = some w →
      ∃ j, ws[j]? = some w ∧ k = j + 1 := by
    intro k w hk
    by_cases hk0 : k = 0 ∨ ws.length < k
    · rw [hfree k hk0] at hk; cases hk
    · have hj : k - 1 < ws.length := by omega
      have hget : ws[k - 1]? = some (ws[k - 1]) := List.getElem?_eq_getElem hj
      have hb := hback (k - 1) _ hget
      have hk1 : k - 1 + 1 = k := by omega
      rw [hk1, hk] at hb
      injection hb with hb
      exact ⟨k - 1, by rw [hget, hb], by omega⟩
  refine ⟨runStringToKey Vocab.fresh ((survivors v).take ((survivors v).length - 5)),
    [] ++ keysFrom Vocab.fresh ((survivors v).take ((survivors v).length - 5)),
    ?_, ?_, ?_, ?_, ?_, ?_, ?_⟩
  · unfold trainSequence
    rw [PruneSequence_eq_filter fuel v (by omega) hfuel]
    simp only
    exact WordToKeySequence_eq fuel Vocab.fresh (survivors v) [] h5 (by omega) (by omega)
  · intro w hw
    obtain ⟨j, hj⟩ := List.getElem?_of_mem ((hmem w).2 hw)
    have hjl : j < ws.length := (List.getElem?_eq_some_iff.1 hj).1
    exact ⟨j + 1, hkey j w hj, by omega, by omega, hback j w hj⟩
  · intro w hw
    exact habs w (fun h => hw ((hmem w).1 h))
  · intro k w hk
    obtain ⟨j, hj, hkj⟩ := hinv k w hk
    rw [hkj]
    exact hkey j w hj
  · intro w1 w2 k h1 h2
    have hw1 : w1 ∈ ws := by
      by_contra hc
      rw [habs w1 hc] at h1; cases h1
    have hw2 : w2 ∈ ws := by
      by_contra hc
      rw [habs w2 hc] at h2; cases h2
    obtain ⟨j1, hj1⟩ := List.getElem?_of_mem hw1
    obtain ⟨j2, hj2⟩ := List.getElem?_of_mem hw2
    rw [hkey j1 w1 hj1] at h1
    rw [hkey j2 w2 hj2] at h2
    injection h1 with h1
    injection h2 with h2
    have hjj : j1 = j2 := by omega
    rw [hjj, hj2] at hj1
    injection hj1 with hj1
    exact hj1.symm
  · rw [hl1, hlen2]
  · rw [hl2, hlen2]

/-- Witness of C18 (amended): of the seven tokens `[a, b, a, b, c, c, c]`, all of which survive
pruning, the first two are converted, and the vocabulary holds the two keys of `a` and `b`. -/
theorem trainSequence_vocabulary_witness :
    ∃ (vocab : Vocab) (keys : List Nat),
      trainSequence 8 ["a", "b", "a", "b", "c", "c", "c"] = some (vocab, [], keys) ∧
      vocab.StringKeyTable.length = 2 ∧ vocab.KeyStringTable.length = 2 := by
  obtain ⟨vocab, keys, h, _, _, _, _, hl1, hl2⟩ :=
    trainSequence_vocabulary ["a", "b", "a", "b", "c", "c", "c"] (by decide) (by decide)
      (by decide) 8 (by decide)
  exact ⟨vocab, keys, h, hl1.trans (by decide), hl2.trans (by decide)⟩

/-- C18 (counterexample): the seven tokens `[a, a, a, a, a, b, b]` all survive pruning, but
after `WordToKeySequence` the vocabulary holds the single entry `a`: the surviving token `b`
occurs only among the last five tokens and gets no key. -/
theorem trainSequence_survivor_without_key :
    PruneSequence 8 ["a", "a", "a", "a", "a", "b", "b"]
        = some ["a", "a", "a", "a", "a", "b", "b"] ∧
      (trainSequence 8 ["a", "a", "a", "a", "a", "b", "b"]).map
          (fun r => (r.1.StringKeyTable, r.1.KeyStringTable))
        = some ([("a", 1)], [(1, "a")]) := by
  constructor <;> decide

/-! ## `IsValidWord` -/

theorem IsValidWord_nil : IsValidWord [] = none := by decide

/-- Whenever `IsValidWord(t)` returns `true`, `t` has length at most `27`, contains no digit
(codes `48..57`) and no character with code in `35..38`, `47..64` or `91..96`, and is none of
the tokens `com`, `www`, `http`, `th`. -/
theorem IsValidWord_true (token : List Nat) (h : IsValidWord token = some true) :
    token.length ≤ 27 ∧
      (∀ c ∈ token, ¬ (48 ≤ c ∧ c ≤ 57) ∧ ¬ (35 ≤ c ∧ c ≤ 38) ∧ ¬ (47 ≤ c ∧ c ≤ 64) ∧
        ¬ (91 ≤ c ∧ c ≤ 96)) ∧
      token ≠ codes "com" ∧ token ≠ codes "www" ∧ token ≠ codes "http" ∧
      token ≠ codes "th" := by
  unfold IsValidWord at h
  by_cases hlen : token.length > MAX_WORD_LEN
  · rw [if_pos hlen] at h; exact absurd h (by simp)
  rw [if_neg hlen] at h
  cases h0 : strAt token 0 with
  | none => rw [h0] at h; exact absurd h (by simp)
  | some c0 =>
    rw [h0] at h
    simp only at h
    by_cases a1 : c0 = 39
    · rw [if_pos a1] at h; exact absurd h (by simp)
    rw [if_neg a1] at h
    by_cases a2 : c0 = 42
    · rw [if_pos a2] at h; exact absurd h (by simp)
    rw [if_neg a2] at h
    cases h1 : strAt token 1 with
    | none => rw [h1] at h; exact absurd h (by simp)
    | some c1 =>
      rw [h1] at h
      simp only at h
      by_cases a3 : c1 = 42
      · rw [if_pos a3] at h; exact absurd h (by simp)
      rw [if_neg a3] at h
      by_cases hcom : token = codes "com"
      · rw [if_pos hcom] at h; exact absurd h (by simp)
      rw [if_neg hcom] at h
      by_cases hwww : token = codes "www"
      · rw [if_pos hwww] at h; exact absurd h (by simp)
      rw [if_neg hwww] at h
      by_cases hhttp : token = codes "http"
      · rw [if_pos hhttp] at h; exact absurd h (by simp)
      rw [if_neg hhttp] at h
      by_cases a4 : c0 = 39 ∧ (c1 = 39 ∨ c1 = 115)
      · rw [if_pos a4] at h; exact absurd h (by simp)
      rw [if_neg a4] at h
      by_cases hth : token = codes "th"
      · rw [if_pos hth] at h; exact absurd h (by simp)
      rw [if_neg hth] at h
      by_cases hany : (token.any (fun c =>
          (decide (c ≥ 47) && decide (c ≤ 64)) || (decide (c ≥ 35) && decide (c ≤ 38))
            || (decide (c ≥ 91) && decide (c ≤ 96)))) = true
      · rw [if_pos hany] at h; exact absurd h (by simp)
      refine ⟨by unfold MAX_WORD_LEN at hlen; omega, ?_, hcom, hwww, hhttp, hth⟩
      intro c hc
      have hc2 : ¬ ((decide (c ≥ 47) && decide (c ≤ 64))
          || (decide (c ≥ 35) && decide (c ≤ 38))
          || (decide (c ≥ 91) && decide (c ≤ 96))) = true := by
        intro hbad
        exact hany (List.any_eq_true.2 ⟨c, hc, hbad⟩)
      simp only [Bool.or_eq_true, Bool.and_eq_true, decide_eq_true_eq, not_or] at hc2
      refine ⟨?_, ?_, ?_, ?_⟩ <;> omega

/-- The token `hello` is accepted, and it meets every condition. -/
theorem IsValidWord_true_witness :
    IsValidWord (codes "hello") = some true ∧
      (codes "hello").length ≤ 27 ∧
      (∀ c ∈ codes "hello", ¬ (48 ≤ c ∧ c ≤ 57) ∧ ¬ (35 ≤ c ∧ c ≤ 38) ∧ ¬ (47 ≤ c ∧ c ≤ 64) ∧
        ¬ (91 ≤ c ∧ c ≤ 96)) ∧
      codes "hello" ≠ codes "com" ∧ codes "hello" ≠ codes "www" ∧
      codes "hello" ≠ codes "http" ∧ codes "hello" ≠ codes "th" :=
  ⟨by decide, IsValidWord_true (codes "hello") (by decide)⟩

/-- C19 (evaluation at the failing input): on the empty token the length test passes, the read
`token[0]` gives the terminator, and the test `token[1] == '*'` then reads index `1` of a string
of size `0`, outside the string: `IsValidWord` has no emptiness test, and the call has no
defined result, in particular not the result `false`. -/
theorem IsValidWord_empty_undefined :
    IsValidWord (codes "") = none ∧ ¬ (codes "").length > MAX_WORD_LEN ∧
      strAt (codes "") 0 = some 0 ∧ strAt (codes "") 1 = none ∧
      IsValidWord (codes "") ≠ some false := by
  decide

/-! ## Prediction: the order-4 candidates -/

/-- The score `Predict` gives to an entry of the order-4 group. -/
theorem predict4_results (m : Model) (key2g key3g : Nat) (group : InnerTable) :
    ∀ st : PredictState, ∀ e ∈ group,
      (⟨e, m.l 1 * GetProb m 1 (toU64 e.1) e.1 + m.l 2 * GetProb m 2 key2g e.1
          + m.l 3 * GetProb m 3 key3g e.1 + m.l 4 * e.2⟩ : ResultPair)
        ∈ (group.foldl (predict4 m key2g key3g) st).results := by
  have hmono : ∀ (g : InnerTable) (st : PredictState) (r : ResultPair), r ∈ st.results →
      r ∈ (g.foldl (predict4 m key2g key3g) st).results := by
    intro g
    induction g with
    | nil => intro st r h; exact h
    | cons x rest ih =>
      intro st r h
      rw [List.foldl_cons]
      exact ih _ r (List.mem_append_left _ h)
  induction group with
  | nil => intro st e he; simp at he
  | cons x rest ih =>
    intro st e he
    rw [List.foldl_cons]
    rcases List.mem_cons.1 he with rfl | he
    · exact hmono rest _ _ (List.mem_append_right _ (List.mem_singleton_self _))
    · exact ih _ e he

theorem predict3_mono (m : Model) (key2g : Nat) (min4 : ℚ) (g : InnerTable) :
    ∀ (st : PredictState) (r : ResultPair), r ∈ st.results →
      r ∈ (g.foldl (predict3 m key2g min4) st).results := by
  induction g with
  | nil => intro st r h; exact h
  | cons x rest ih =>
    intro st r h
    rw [List.foldl_cons]
    apply ih
    unfold predict3
    split
    · exact h
    · exact List.mem_append_left _ h

theorem predict2_mono (m : Model) (min3 min4 : ℚ) (g : InnerTable) :
    ∀ (st : PredictState) (r : ResultPair), r ∈ st.results →
      r ∈ (g.foldl (predict2 m min3 min4) st).results := by
  induction g with
  | nil => intro st r h; exact h
  | cons x rest ih =>
    intro st r h
    rw [List.foldl_cons]
    apply ih
    unfold predict2
    split
    · exact h
    · exact List.mem_append_left _ h

theorem predictAppend_order4 (m : Model) (key4g key3g key2g : Nat) (results : List ResultPair)
    (group : InnerTable) (hg : mapFind m.quadgramTable key4g = some group) :
    ∀ e ∈ group,
      (⟨e, m.l 1 * GetProb m 1 (toU64 e.1) e.1 + m.l 2 * GetProb m 2 key2g e.1
          + m.l 3 * GetProb m 3 key3g e.1 + m.l 4 * e.2⟩ : ResultPair)
        ∈ predictAppend m key4g key3g key2g results := by
  intro e he
  have h4 := predict4_results m key2g key3g group ⟨[], results, 99999⟩ e he
  unfold predictAppend
  simp only [hg]
  cases h2 : mapFind m.bigramTable key2g with
  | none =>
    simp only
    cases h3 : mapFind m.trigramTable key3g with
    | none => exact h4
    | some g3 => exact predict3_mono m key2g _ g3 _ _ h4
  | some g2 =>
    simp only
    apply predict2_mono
    cases h3 : mapFind m.trigramTable key3g with
    | none => exact h4
    | some g3 => exact predict3_mono m key2g _ g3 _ _ h4

/-- C20: at a position `i ≥ 3` whose context keys `a, b, c` are read from the key sequence and
whose order-4 group exists, `Predict` returns a list in which every entry `(cand, v4)` of the
order-4 group with a 16-bit candidate key appears with the score
`l[1]*P1 + l[2]*P2 + l[3]*P3 + l[4]*v4`, where `P1` is looked up in the unigram table under
outer key `cand`, `P2` in the bigram table under the order-2 context key, `P3` in the trigram
table under the order-3 context key, and absent entries count as `0`. -/
theorem Predict_order4_scores (m : Model) (keySeq : List Nat) (i : Int)
    (results : List ResultPair) (a b c : Nat) (group : InnerTable) (hi : 3 ≤ i)
    (ha : keySeq[(i - 3).toNat]? = some a) (hb : keySeq[(i - 2).toNat]? = some b)
    (hc : keySeq[(i - 1).toNat]? = some c)
    (hg : mapFind m.quadgramTable (MakeNgramModelKey 4 a b c) = some group) :
    ∃ out : List ResultPair, Predict m keySeq i results = some out ∧
      ∀ e ∈ group, e.1 < 65536 →
        (⟨e, m.l 1 * tableProb m.unigramTable e.1 e.1
            + m.l 2 * tableProb m.bigramTable (MakeNgramModelKey 2 c) e.1
            + m.l 3 * tableProb m.trigramTable (MakeNgramModelKey 3 b c) e.1
            + m.l 4 * e.2⟩ : ResultPair) ∈ out := by
  have hn : ¬ i < 3 := not_lt.2 hi
  have hmem : ∀ e ∈ group, e.1 < 65536 →
      (⟨e, m.l 1 * tableProb m.unigramTable e.1 e.1
          + m.l 2 * tableProb m.bigramTable (MakeNgramModelKey 2 c) e.1
          + m.l 3 * tableProb m.trigramTable (MakeNgramModelKey 3 b c) e.1
          + m.l 4 * e.2⟩ : ResultPair)
        ∈ predictAppend m (MakeNgramModelKey 4 a b c) (MakeNgramModelKey 3 b c)
            (MakeNgramModelKey 2 c) results := by
    intro e he hlt
    have h := predictAppend_order4 m (MakeNgramModelKey 4 a b c) (MakeNgramModelKey 3 b c)
      (MakeNgramModelKey 2 c) results group hg e he
    have h64 : toU64 e.1 = e.1 := toU64_of_lt (by omega)
    rw [h64] at h
    simpa [GetProb] using h
  unfold Predict
  rw [if_neg hn, ha, hb, hc]
  simp only
  split
  · exact ⟨_, rfl, fun e he hlt => (listSort_perm _ _).mem_iff.2 (hmem e he hlt)⟩
  · exact ⟨_, rfl, hmem⟩

/-- Witness of C20: on `dupModel` at position `3` of `[1, 2, 3]` the order-4 entry `(9, 1)`
appears with the score `2/5 * 1/2 + 1/5 * 1 = 2/5`. -/
theorem Predict_order4_scores_witness :
    ∃ out : List ResultPair, Predict dupModel [1, 2, 3] 3 [] = some out ∧
      (⟨(9, 1), 2 / 5⟩ : ResultPair) ∈ out := by
  obtain ⟨out, h, hall⟩ := Predict_order4_scores dupModel [1, 2, 3] 3 [] 1 2 3 [(9, 1)]
    (by decide) (by decide) (by decide) (by decide) (by decide!)
  refine ⟨out, h, ?_⟩
  have h9 := hall (9, 1) (List.mem_singleton_self _) (by decide)
  have hs : (1 / 20 : ℚ) * tableProb dupModel.unigramTable 9 9
      + 3 / 10 * tableProb dupModel.bigramTable (MakeNgramModelKey 2 3) 9
      + 2 / 5 * tableProb dupModel.trigramTable (MakeNgramModelKey 3 2 3) 9
      + 1 / 5 * 1 = 2 / 5 := by decide!
  have hl : dupModel.l 1 = 1 / 20 ∧ dupModel.l 2 = 3 / 10 ∧ dupModel.l 3 = 2 / 5 ∧
      dupModel.l 4 = 1 / 5 := by
    refine ⟨?_, ?_, ?_, ?_⟩ <;> rfl
  rw [hl.1, hl.2.1, hl.2.2.1, hl.2.2.2, hs] at h9
  exact h9

/-! ## The unigram table -/

theorem mem_mapSetOrd {β : Type} (m : List (Nat × β)) (k : Nat) (v : β) :
    ∀ o ∈ mapSetOrd m k v, o = (k, v) ∨ o ∈ m := by
  induction m with
  | nil => intro o ho; simpa [mapSetOrd] using ho
  | cons e rest ih =>
    obtain ⟨a, b⟩ := e
    intro o ho
    unfold mapSetOrd at ho
    by_cases h1 : k < a
    · rw [if_pos h1] at ho
      rcases List.mem_cons.1 ho with h | h
      · exact Or.inl h
      · exact Or.inr h
    · rw [if_neg h1] at ho
      by_cases h2 : a = k
      · rw [if_pos h2] at ho
        rcases List.mem_cons.1 ho with h | h
        · exact Or.inl h
        · exact Or.inr (List.mem_cons_of_mem _ h)
      · rw [if_neg h2] at ho
        rcases List.mem_cons.1 ho with h | h
        · exact Or.inr (h ▸ List.mem_cons_self _ _)
        · rcases ih o h with h | h
          · exact Or.inl h
          · exact Or.inr (List.mem_cons_of_mem _ h)

theorem mapSetOrd_sorted {β : Type} (m : List (Nat × β)) (k : Nat) (v : β)
    (h : (m.map Prod.fst).Pairwise (fun a b => a < b)) :
    ((mapSetOrd m k v).map Prod.fst).Pairwise (fun a b => a < b) := by
  induction m with
  | nil => simp [mapSetOrd]
  | cons e rest ih =>
    obtain ⟨a, b⟩ := e
    rw [List.map_cons, List.pairwise_cons] at h
    unfold mapSetOrd
    by_cases h1 : k < a
    · rw [if_pos h1, List.map_cons, List.map_cons]
      refine List.Pairwise.cons ?_ (List.Pairwise.cons h.1 h.2)
      intro x hx
      rcases List.mem_cons.1 hx with rfl | hx
      · exact h1
      · exact lt_trans h1 (h.1 x hx)
    · rw [if_neg h1]
      by_cases h2 : a = k
      · rw [if_pos h2, List.map_cons]
        subst h2
        exact List.Pairwise.cons h.1 h.2
      · rw [if_neg h2, List.map_cons]
        refine List.Pairwise.cons ?_ (ih h.2)
        intro x hx
        obtain ⟨o, ho, rfl⟩ := List.mem_map.1 hx
        rcases mem_mapSetOrd rest k v o ho with rfl | ho
        · show a < k
          omega
        · exact h.1 o.1 (List.mem_map.2 ⟨o, ho, rfl⟩)

theorem mapFind_none_of_lt {β : Type} (m : List (Nat × β)) (k : Nat)
    (h : ∀ x ∈ m.map Prod.fst, k < x) : mapFind m k = none := by
  induction m with
  | nil => rfl
  | cons e rest ih =>
    obtain ⟨a, b⟩ := e
    have ha : k < a := h a (by simp)
    unfold mapFind
    rw [if_neg (by omega)]
    exact ih (fun x hx => h x (by simp only [List.map_cons, List.mem_cons]; exact Or.inr hx))

theorem sum_mapSetOrd {β : Type} (f : β → ℚ) (m : List (Nat × β)) (k : Nat) (v : β)
    (h : (m.map Prod.fst).Pairwise (fun a b => a < b)) :
    ((mapSetOrd m k v).map (fun o => f o.2)).sum =
      (m.map (fun o => f o.2)).sum - ((mapFind m k).map f).getD 0 + f v := by
  induction m with
  | nil => simp [mapSetOrd, mapFind]
  | cons e rest ih =>
    obtain ⟨a, b⟩ := e
    rw [List.map_cons, List.pairwise_cons] at h
    unfold mapSetOrd
    by_cases h1 : k < a
    · have hnone : mapFind ((a, b) :: rest) k = none :=
        mapFind_none_of_lt _ k (by
          intro x hx
          rcases List.mem_cons.1 hx with rfl | hx
          · exact h1
          · exact lt_trans h1 (h.1 x hx))
      rw [if_pos h1, hnone]
      simp only [List.map_cons, List.sum_cons, Option.map_none', Option.getD_none]
      ring
    · rw [if_neg h1]
      by_cases h2 : a = k
      · rw [if_pos h2]
        simp only [List.map_cons, List.sum_cons, mapFind, if_pos h2, Option.map_some',
          Option.getD_some]
        ring
      · rw [if_neg h2]
        simp only [List.map_cons, List.sum_cons, mapFind, if_neg h2, ih h.2]
        ring

theorem groupSum_singleton (k : Nat) (v : ℚ) : groupSum [(k, v)] = v := by
  simp [groupSum]

theorem UnigramBuilt_step (t : NgramTable) (ks : List Nat) (k : Nat) (hk : k < 65536)
    (h : UnigramBuilt t ks) : UnigramBuilt (UpdateUnigramModel t k) (ks ++ [k]) := by
  obtain ⟨hsort, hsing, hfind, htot⟩ := h
  have h64 : toU64 k = k := toU64_of_lt (by omega)
  have hupd : UpdateUnigramModel t k = mapSetOrd t k [(k, (ks.count k : ℚ) + 1)] := by
    unfold UpdateUnigramModel
    rw [h64, hfind k]
    by_cases h0 : ks.count k = 0
    · rw [if_pos h0, h0]
      simp [mapSetOrd]
    · rw [if_neg h0]
      simp [mapSetOrd, mapFind]
  rw [hupd]
  refine ⟨mapSetOrd_sorted t k _ hsort, ?_, ?_, ?_⟩
  · intro o ho
    rcases mem_mapSetOrd t k _ o ho with rfl | ho
    · exact ⟨_, rfl⟩
    · exact hsing o ho
  · intro k'
    rw [mapFind_mapSetOrd, List.count_append, List.count_singleton]
    by_cases hkk : k = k'
    · subst hkk
      simp
    · have hb : ¬ (k == k') = true := by simpa using hkk
      rw [if_neg hkk, if_neg hb, Nat.add_zero]
      exact hfind k'
  · have hsum := sum_mapSetOrd groupSum t k [(k, (ks.count k : ℚ) + 1)] hsort
    unfold tableTotal at htot ⊢
    rw [hsum, htot, hfind k, groupSum_singleton]
    by_cases h0 : ks.count k = 0
    · rw [if_pos h0, h0]
      simp
    · rw [if_neg h0]
      simp only [Option.map_some', Option.getD_some, groupSum_singleton, List.length_append,
        List.length_singleton, Nat.cast_add, Nat.cast_one]
      ring

theorem UnigramBuilt_foldl (rest : List Nat) :
    ∀ (pre : List Nat) (t : NgramTable), UnigramBuilt t pre → (∀ k ∈ rest, k < 65536) →
      UnigramBuilt (rest.foldl UpdateUnigramModel t) (pre ++ rest) := by
  induction rest with
  | nil => intro pre t h _; simpa using h
  | cons x rest ih =>
    intro pre t h hk
    have := ih (pre ++ [x]) (UpdateUnigramModel t x)
      (UnigramBuilt_step t pre x (hk x (List.mem_cons_self _ _)) h)
      (fun k hkm => hk k (List.mem_cons_of_mem _ hkm))
    simpa using this

theorem UnigramBuilt_build (keys : List Nat) (hk : ∀ k ∈ keys, k < 65536) :
    UnigramBuilt (buildUnigram keys) keys := by
  have h0 : UnigramBuilt [] [] := by
    refine ⟨by simp, by simp, fun k => by simp [mapFind], by simp [tableTotal]⟩
  simpa [buildUnigram] using UnigramBuilt_foldl keys [] [] h0 hk

theorem unigramSum_singletons (t : NgramTable) (hsing : ∀ o ∈ t, ∃ v : ℚ, o.2 = [(o.1, v)]) :
    ∀ a : ℚ,
      t.foldl unigramSumStep (some a) = some (a + tableTotal t) := by
  induction t with
  | nil => intro a; simp [tableTotal]
  | cons o rest ih =>
    intro a
    obtain ⟨v, hv⟩ := hsing o (List.mem_cons_self _ _)
    have hstep : unigramSumStep (some a) o = some (a + v) := by
      unfold unigramSumStep
      rw [hv]
    rw [List.foldl_cons, hstep, ih (fun o' ho' => hsing o' (List.mem_cons_of_mem _ ho'))]
    simp only [tableTotal, List.map_cons, List.sum_cons, hv, groupSum_singleton]
    congr 1
    ring

theorem tableTotal_divFirst (sum : ℚ) (t : NgramTable)
    (hsing : ∀ o ∈ t, ∃ v : ℚ, o.2 = [(o.1, v)]) :
    tableTotal (t.map (fun outer => (outer.1, divFirst sum outer.2))) = tableTotal t / sum := by
  induction t with
  | nil => simp [tableTotal]
  | cons o rest ih =>
    obtain ⟨v, hv⟩ := hsing o (List.mem_cons_self _ _)
    have ih2 := ih (fun o' ho' => hsing o' (List.mem_cons_of_mem _ ho'))
    unfold tableTotal at ih2 ⊢
    rw [List.map_cons, List.map_cons, List.sum_cons, ih2, List.map_cons, List.sum_cons, add_div]
    congr 1
    show groupSum (divFirst sum o.2) = groupSum o.2 / sum
    rw [hv]
    simp [divFirst, groupSum_singleton]

/-- C17: over exact arithmetic, for the unigram table built from the empty table by
`UpdateUnigramModel` on a non-empty list of 16-bit keys (so `N > 0` is its length): every outer
key `k` holds exactly the single inner entry `k` with weight `count(k)`;
`NormalizeUnigramTable` returns, and afterwards the weight of every word `k` is `count(k) / N`
(the group of `k` is the singleton `{k ↦ count(k) / N}`), and the weights of all groups together
sum to exactly `1`. -/
theorem NormalizeUnigramTable_built (keys : List Nat) (hk : ∀ k ∈ keys, k < 65536)
    (hN : keys ≠ []) :
    (∀ k : Nat, mapFind (buildUnigram keys) k =
        if keys.count k = 0 then none else some [(k, (keys.count k : ℚ))]) ∧
      ∃ t' : NgramTable, NormalizeUnigramTable (buildUnigram keys) = some t' ∧
        (∀ k : Nat, mapFind t' k =
          if keys.count k = 0 then none
          else some [(k, (keys.count k : ℚ) / (keys.length : ℚ))]) ∧
        (∀ k : Nat, tableProb t' k k = (keys.count k : ℚ) / (keys.length : ℚ)) ∧
        tableTotal t' = 1 := by
  obtain ⟨_, hsing, hfind, htot⟩ := UnigramBuilt_build keys hk
  have hpos : (0 : ℚ) < (keys.length : ℚ) := by
    have : 0 < keys.length := List.length_pos.2 hN
    exact_mod_cast this
  have hsum : unigramSum (buildUnigram keys) = some (keys.length : ℚ) := by
    unfold unigramSum
    rw [unigramSum_singletons _ hsing 0, htot, zero_add]
  have hfind' : ∀ k : Nat,
      mapFind ((buildUnigram keys).map
          (fun outer => (outer.1, divFirst (keys.length : ℚ) outer.2))) k =
        if keys.count k = 0 then none
        else some [(k, (keys.count k : ℚ) / (keys.length : ℚ))] := by
    intro k
    rw [mapFind_map_snd (divFirst (keys.length : ℚ)) (buildUnigram keys) k, hfind k]
    by_cases h0 : keys.count k = 0
    · rw [if_pos h0, if_pos h0]; rfl
    · rw [if_neg h0, if_neg h0]; rfl
  refine ⟨hfind, _, ?_, hfind', ?_, ?_⟩
  · unfold NormalizeUnigramTable
    rw [hsum]
    simp only [if_pos hpos]
  · intro k
    unfold tableProb
    rw [hfind' k]
    by_cases h0 : keys.count k = 0
    · rw [if_pos h0, h0]; simp
    · rw [if_neg h0]; simp [mapFind]
  · rw [tableTotal_divFirst _ _ hsing, htot]
    exact div_self (ne_of_gt hpos)

/-- Witness of C17: the keys `[3, 1, 3, 2]` give the unigram probabilities `1/4`, `1/4`,
`1/2` for the words `1`, `2`, `3`. -/
theorem NormalizeUnigramTable_built_witness :
    NormalizeUnigramTable (buildUnigram [3, 1, 3, 2]) =
        some [(1, [(1, 1 / 4)]), (2, [(2, 1 / 4)]), (3, [(3, 1 / 2)])] ∧
      ∃ t' : NgramTable, NormalizeUnigramTable (buildUnigram [3, 1, 3, 2]) = some t' ∧
        tableProb t' 3 3 = 1 / 2 ∧ tableTotal t' = 1 := by
  obtain ⟨_, t', h, _, hp, ht⟩ :=
    NormalizeUnigramTable_built [3, 1, 3, 2] (by decide) (by decide)
  refine ⟨by decide!, t', h, ?_, ht⟩
  rw [hp 3]
  norm_num

/-! ## Prediction: the order-3 and order-2 candidates -/

/-- C21 (evaluation at the failing input): on `dupModel` at position `3` of `[1, 2, 3]` the
order-3 group is `{9 ↦ 1/2, 12 ↦ 1/2}` and the order-4 group is `{9 ↦ 1}`, so the candidate `12`
is in the order-3 group and not in the order-4 group; yet no entry of the list `Predict`
returns has the candidate `12`: its value `1/2` converts to the `U16` `0`, which the entry of
`9` has just put into `dupeSet`. -/
theorem Predict_order3_candidate_dropped :
    mapFind dupModel.quadgramTable (MakeNgramModelKey 4 1 2 3) = some [(9, 1)] ∧
      mapFind dupModel.trigramTable (MakeNgramModelKey 3 2 3) = some [(9, 1 / 2), (12, 1 / 2)] ∧
      ∃ out : List ResultPair, Predict dupModel [1, 2, 3] 3 [] = some out ∧
        ∀ r ∈ out, r.first.1 ≠ 12 := by
  refine ⟨by decide!, by decide!, [⟨(9, 1), 2 / 5⟩, ⟨(9, 1 / 2), 2 / 5⟩], by decide!, ?_⟩
  intro r hr
  simp only [List.mem_cons, List.mem_singleton, List.not_mem_nil, or_false] at hr
  rcases hr with rfl | rfl <;> decide

/-- C22 (evaluation at the failing input): on `backoffModel` at position `3` of `[1, 2, 3]`
there is no order-4 group, the order-3 group is `{9 ↦ 1/2, 12 ↦ 1/2}` and the order-2 group is
`{7 ↦ 1/2, 9 ↦ 1/4, 12 ↦ 1/4}`, so the candidate `7` is in the order-2 group only; yet `Predict`
returns the single entry of the candidate `9`: the value `1/2` of `7` converts to the `U16` `0`,
which is already in `dupeSet`. -/
theorem Predict_order2_candidate_dropped :
    mapFind backoffModel.quadgramTable (MakeNgramModelKey 4 1 2 3) = none ∧
      mapFind backoffModel.trigramTable (MakeNgramModelKey 3 2 3)
        = some [(9, 1 / 2), (12, 1 / 2)] ∧
      mapFind backoffModel.bigramTable (MakeNgramModelKey 2 3)
        = some [(7, 1 / 2), (9, 1 / 4), (12, 1 / 4)] ∧
      Predict backoffModel [1, 2, 3] 3 [] = some [⟨(9, 1 / 2), 11 / 40⟩] := by
  refine ⟨by decide!, by decide!, by decide!, by decide!⟩

/-! ## Key packing: order 2 -/

theorem MakeNgramModelKey_two_eq (k : Nat) (h : k < 65536) :
    MakeNgramModelKey 2 k = k % 256 := by
  unfold MakeNgramModelKey
  rw [if_pos (Or.inr rfl), toU64_of_lt (n := k) (by omega), Nat.land_comm,
    show (0x000000FF : Nat) = 2 ^ 8 - 1 by norm_num, Nat.and_pow_two_sub_one_eq_mod]

/-- C30: for 16-bit word keys `a` and `b`, `MakeNgramModelKey(2, a) = MakeNgramModelKey(2, b)`
if and only if `a mod 256 = b mod 256`; every order-2 composite is below `256`; and when the
keys agree modulo `256` an update for the context `a` and one for the context `b` go to the
same outer key of the bigram table. -/
theorem MakeNgramModelKey_two_collide (a b : Nat) (ha : a < 65536) (hb : b < 65536) :
    (MakeNgramModelKey 2 a = MakeNgramModelKey 2 b ↔ a % 256 = b % 256) ∧
      MakeNgramModelKey 2 a < 256 ∧
      (a % 256 = b % 256 → ∀ (t : NgramTable) (w : Nat),
        UpdateNgramModel t (MakeNgramModelKey 2 a) w
          = UpdateNgramModel t (MakeNgramModelKey 2 b) w) := by
  rw [MakeNgramModelKey_two_eq a ha, MakeNgramModelKey_two_eq b hb]
  refine ⟨Iff.rfl, Nat.mod_lt _ (by norm_num), fun h t w => by rw [h]⟩

/-- Witness of C30: the distinct keys `1` and `257` pack to the same order-2 composite `1`. -/
theorem MakeNgramModelKey_two_collide_witness :
    (MakeNgramModelKey 2 1 = MakeNgramModelKey 2 257 ↔ 1 % 256 = 257 % 256) ∧
      MakeNgramModelKey 2 1 < 256 ∧
      UpdateNgramModel [] (MakeNgramModelKey 2 1) 9 = UpdateNgramModel [] (MakeNgramModelKey 2 257) 9 :=
  ⟨(MakeNgramModelKey_two_collide 1 257 (by decide) (by decide)).1,
    (MakeNgramModelKey_two_collide 1 257 (by decide) (by decide)).2.1,
    (MakeNgramModelKey_two_collide 1 257 (by decide) (by decide)).2.2 (by decide) [] 9⟩

/-! ## Normalisation: groups without a positive sum -/

/-- C26: `NormalizeTable` goes through every group of the table: the result has as many groups
as the table, under the same outer keys and in the same order; a group whose inner weights sum
to a value `≤ 0` is left entry for entry as it was, and every other group, wherever it stands
relative to such a group, has each weight divided by its sum. -/
theorem NormalizeTable_every_group (table : NgramTable) :
    (NormalizeTable table).length = table.length ∧
      ∀ (j : Nat) (o : Nat × InnerTable), table[j]? = some o →
        (groupSum o.2 ≤ 0 → (NormalizeTable table)[j]? = some o) ∧
        (groupSum o.2 > 0 → (NormalizeTable table)[j]?
          = some (o.1, o.2.map (fun e => (e.1, e.2 / groupSum o.2)))) := by
  refine ⟨by unfold NormalizeTable; rw [List.length_map], fun j o hj => ?_⟩
  have hget : (NormalizeTable table)[j]? = some (o.1, normalizeGroup o.2) := by
    unfold NormalizeTable
    rw [List.getElem?_map, hj]
    rfl
  constructor
  · intro h
    rw [hget]
    unfold normalizeGroup
    simp only [if_neg (not_lt.2 h)]
  · intro h
    rw [hget]
    unfold normalizeGroup
    simp only [if_pos h]

/-- Witness of C26: the zero-sum group under the outer key `1` is left as it is, and the group
under the outer key `5` after it is normalised. -/
theorem NormalizeTable_every_group_witness :
    (NormalizeTable [(1, [(4, 0)]), (5, [(9, 2)])])[0]? = some (1, [(4, 0)]) ∧
      (NormalizeTable [(1, [(4, 0)]), (5, [(9, 2)])])[1]? = some (5, [(9, 1)]) :=
  ⟨((NormalizeTable_every_group [(1, [(4, 0)]), (5, [(9, 2)])]).2 0 (1, [(4, 0)]) rfl).1
      (by decide!),
    (((NormalizeTable_every_group [(1, [(4, 0)]), (5, [(9, 2)])]).2 1 (5, [(9, 2)]) rfl).2
      (by decide!)).trans (by decide!)⟩

/-! ## `GetMax` -/

theorem foldl_getMaxStep_le (g : InnerTable) :
    ∀ st : Nat × ℚ, (∀ e ∈ g, e.2 ≤ st.2) → g.foldl getMaxStep st = st := by
  induction g with
  | nil => intro st _; rfl
  | cons x rest ih =>
    intro st h
    have hx : ¬ x.2 > st.2 := not_lt.2 (h x (List.mem_cons_self _ _))
    rw [List.foldl_cons]
    have hstep : getMaxStep st x = st := by unfold getMaxStep; rw [if_neg hx]
    rw [hstep]
    exact ih st (fun e he => h e (List.mem_cons_of_mem _ he))

theorem foldl_getMaxStep_gt (g : InnerTable) :
    ∀ st : Nat × ℚ, (∃ e ∈ g, e.2 > st.2) →
      ∃ (j : Nat) (e : Nat × ℚ), g[j]? = some e ∧ g.foldl getMaxStep st = (e.1, e.2) ∧
        e.2 > st.2 ∧ (∀ e' ∈ g, e'.2 ≤ e.2) ∧
        ∀ (j' : Nat) (e' : Nat × ℚ), j' < j → g[j']? = some e' → e'.2 < e.2 := by
  induction g with
  | nil => intro st h; obtain ⟨e, he, _⟩ := h; simp at he
  | cons x rest ih =>
    intro st h
    rw [List.foldl_cons]
    by_cases hx : x.2 > st.2
    · have hstep : getMaxStep st x = (x.1, x.2) := by unfold getMaxStep; rw [if_pos hx]
      rw [hstep]
      by_cases hrest : ∃ e ∈ rest, e.2 > x.2
      · obtain ⟨j, e, hj, hf, hgt, hmax, hfirst⟩ := ih (x.1, x.2) hrest
        refine ⟨j + 1, e, by simpa using hj, hf, lt_trans hx hgt, ?_, ?_⟩
        · intro e' he'
          rcases List.mem_cons.1 he' with rfl | he'
          · exact le_of_lt hgt
          · exact hmax e' he'
        · intro j' e' hj' he'
          cases j' with
          | zero =>
            simp only [List.getElem?_cons_zero, Option.some.injEq] at he'
            rw [← he']
            exact hgt
          | succ j' =>
            simp only [List.getElem?_cons_succ] at he'
            exact hfirst j' e' (by omega) he'
      · have hle : ∀ e ∈ rest, e.2 ≤ x.2 := by
          intro e he
          by_contra hc
          exact hrest ⟨e, he, not_le.1 hc⟩
        refine ⟨0, x, by simp, foldl_getMaxStep_le rest (x.1, x.2) hle, hx, ?_, ?_⟩
        · intro e' he'
          rcases List.mem_cons.1 he' with rfl | he'
          · exact le_refl _
          · exact hle e' he'
        · intro j' e' hj' _
          omega
    · have hstep : getMaxStep st x = st := by unfold getMaxStep; rw [if_neg hx]
      rw [hstep]
      have hrest : ∃ e ∈ rest, e.2 > st.2 := by
        obtain ⟨e, he, hgt⟩ := h
        rcases List.mem_cons.1 he with rfl | he
        · exact absurd hgt hx
        · exact ⟨e, he, hgt⟩
      obtain ⟨j, e, hj, hf, hgt, hmax, hfirst⟩ := ih st hrest
      refine ⟨j + 1, e, by simpa using hj, hf, hgt, ?_, ?_⟩
      · intro e' he'
        rcases List.mem_cons.1 he' with rfl | he'
        · exact le_trans (not_lt.1 hx) (le_of_lt hgt)
        · exact hmax e' he'
      · intro j' e' hj' he'
        cases j' with
        | zero =>
          simp only [List.getElem?_cons_zero, Option.some.injEq] at he'
          rw [← he']
          exact lt_of_le_of_lt (not_lt.1 hx) hgt
        | succ j' =>
          simp only [List.getElem?_cons_succ] at he'
          exact hfirst j' e' (by omega) he'

/-- C25: when the group of `outerKey` exists and holds a weight `> 0`, `GetMax` returns the
key of an entry whose weight is the maximum of the group, namely the first such entry in
iteration order (every earlier entry has a smaller weight), which is the numerically smallest
key of maximal weight when the keys ascend as in a `std::map`; when the group is absent, or
holds no weight `> 0`, `GetMax` returns `0`. -/
theorem GetMax_spec (table : NgramTable) (outerKey : Nat) :
    (mapFind table outerKey = none → GetMax table outerKey = 0) ∧
      ∀ g : InnerTable, mapFind table outerKey = some g →
        ((∀ e ∈ g, e.2 ≤ 0) → GetMax table outerKey = 0) ∧
        ((∃ e ∈ g, e.2 > 0) →
          ∃ (j : Nat) (e : Nat × ℚ), g[j]? = some e ∧ GetMax table outerKey = e.1 ∧
            (∀ e' ∈ g, e'.2 ≤ e.2) ∧
            (∀ (j' : Nat) (e' : Nat × ℚ), j' < j → g[j']? = some e' → e'.2 < e.2) ∧
            ((g.map Prod.fst).Pairwise (fun a b => a < b) →
              ∀ e' ∈ g, e'.2 = e.2 → e.1 ≤ e'.1)) := by
  constructor
  · intro h
    unfold GetMax
    rw [h]
  · intro g hg
    constructor
    · intro h
      unfold GetMax
      rw [hg]
      simp only
      rw [foldl_getMaxStep_le g (0, 0) h]
    · intro h
      obtain ⟨j, e, hj, hf, _, hmax, hfirst⟩ := foldl_getMaxStep_gt g (0, 0) h
      refine ⟨j, e, hj, ?_, hmax, hfirst, ?_⟩
      · unfold GetMax
        rw [hg]
        simp only
        rw [hf]
      · intro hsorted e' he' heq
        obtain ⟨j', hj'⟩ := List.mem_iff_getElem?.1 he'
        have hjj : j ≤ j' := by
          by_contra hc
          have := hfirst j' e' (not_le.1 hc) hj'
          rw [heq] at this
          exact lt_irrefl _ this
        rcases Nat.lt_or_eq_of_le hjj with hlt | heq2
        · obtain ⟨h1, hg1⟩ := List.getElem?_eq_some_iff.1 hj
          obtain ⟨h2, hg2⟩ := List.getElem?_eq_some_iff.1 hj'
          have hp := List.pairwise_iff_getElem.1 hsorted j j' (by simpa using h1)
            (by simpa using h2) hlt
          simp only [List.getElem_map, hg1, hg2] at hp
          exact le_of_lt hp
        · subst heq2
          rw [hj] at hj'
          injection hj' with hj'
          rw [hj']

/-- Witness of C25: the group `{4 ↦ 3/10, 9 ↦ 7/10}` gives `9`; an absent group gives `0`. -/
theorem GetMax_spec_witness :
    GetMax [(5, [(4, 3 / 10), (9, 7 / 10)])] 5 = 9 ∧
      GetMax [(5, [(4, 3 / 10), (9, 7 / 10)])] 6 = 0 := by
  have h := GetMax_spec [(5, [(4, 3 / 10), (9, 7 / 10)])] 5
  obtain ⟨j, e, hj, hget, hmax, _, _⟩ :=
    (h.2 [(4, 3 / 10), (9, 7 / 10)] (by decide!)).2 ⟨(9, 7 / 10), by simp, by norm_num⟩
  refine ⟨?_, (GetMax_spec [(5, [(4, 3 / 10), (9, 7 / 10)])] 6).1 (by decide!)⟩
  rw [hget]
  have h9 := hmax (9, 7 / 10) (by simp)
  have hmem := List.getElem?_mem hj
  simp only [List.mem_cons, List.mem_singleton, List.not_mem_nil, or_false] at hmem
  rcases hmem with rfl | rfl
  · norm_num at h9
  · rfl

/-! ## The build pass of `Train` -/

theorem forInt_fold {σ : Type} (bound : Nat) (body : Nat → σ → Option σ) (g : Nat → σ → σ)
    (hbody : ∀ (i : Nat) (s : σ), i < bound → body i s = some (g i s))
    (hmax : bound ≤ INT_MAX) :
    ∀ (fuel i : Nat) (s : σ), i ≤ bound → bound - i < fuel →
      forInt bound body fuel i s
        = some ((List.range' i (bound - i)).foldl (fun st j => g j st) s) := by
  intro fuel
  induction fuel with
  | zero => intro i s _ h; omega
  | succ fuel ih =>
    intro i s hi hfuel
    unfold forInt
    by_cases hlt : i < bound
    · rw [if_pos hlt, hbody i s hlt]
      simp only
      rw [if_neg (by omega), ih (i + 1) _ (by omega) (by omega)]
      have hb : bound - i = (bound - (i + 1)) + 1 := by omega
      rw [hb, List.range'_succ, List.foldl_cons]
    · rw [if_neg hlt]
      have hb : bound - i = 0 := by omega
      rw [hb]
      rfl

theorem forInt_fail {σ : Type} (bound : Nat) (body : Nat → σ → Option σ) (j : Nat)
    (hj : j < bound) (hbody : ∀ s : σ, body j s = none) :
    ∀ (d fuel i : Nat) (s : σ), i + d = j → forInt bound body fuel i s = none := by
  intro d
  induction d with
  | zero =>
    intro fuel i s hi
    have : i = j := by omega
    subst this
    cases fuel with
    | zero => rfl
    | succ fuel =>
      unfold forInt
      rw [if_pos hj, hbody s]
  | succ d ih =>
    intro fuel i s hi
    cases fuel with
    | zero => rfl
    | succ fuel =>
      unfold forInt
      rw [if_pos (by omega)]
      cases body i s with
      | none => rfl
      | some s' =>
        simp only
        by_cases h : i + 1 > INT_MAX
        · rw [if_pos h]
        · rw [if_neg h]
          exact ih fuel (i + 1) s' (by omega)

theorem buildBody_eq (s : List Nat) (i : Nat) (m : Model) (h : i + 3 < s.length)
    (hi : i < 21479999) :
    buildBody s i m = some (buildStep s i m) := by
  have h0 : i < s.length := by omega
  have h1 : i + 1 < s.length := by omega
  have h2 : i + 2 < s.length := by omega
  have hp : ¬ (i % 10000 = 9999 ∧ i * 100 > INT_MAX) := by
    unfold INT_MAX
    omega
  unfold buildBody buildStep contextAt
  rw [List.getElem?_eq_getElem h0, List.getElem?_eq_getElem h1, List.getElem?_eq_getElem h2,
    List.getElem?_eq_getElem h]
  simp only [if_neg hp]
  simp [List.getD_eq_getElem?_getD, List.getElem?_eq_getElem, h0, h1, h2, h]

theorem buildBody_overflow (s : List Nat) (i : Nat) (m : Model) (h1 : i % 10000 = 9999)
    (h2 : i * 100 > INT_MAX) : buildBody s i m = none := by
  unfold buildBody
  split
  · rw [if_pos ⟨h1, h2⟩]
  · rfl

theorem foldl_buildStep_tables (s : List Nat) (ps : List Nat) :
    ∀ m : Model,
      (ps.foldl (fun st j => buildStep s j st) m).unigramTable
          = ps.foldl (fun t j => UpdateUnigramModel t (s.getD j 0)) m.unigramTable ∧
        (ps.foldl (fun st j => buildStep s j st) m).bigramTable
          = ps.foldl (fun t j => UpdateNgramModel t (contextAt 2 s j).1 (contextAt 2 s j).2)
              m.bigramTable ∧
        (ps.foldl (fun st j => buildStep s j st) m).trigramTable
          = ps.foldl (fun t j => UpdateNgramModel t (contextAt 3 s j).1 (contextAt 3 s j).2)
              m.trigramTable ∧
        (ps.foldl (fun st j => buildStep s j st) m).quadgramTable
          = ps.foldl (fun t j => UpdateNgramModel t (contextAt 4 s j).1 (contextAt 4 s j).2)
              m.quadgramTable := by
  induction ps with
  | nil => intro m; exact ⟨rfl, rfl, rfl, rfl⟩
  | cons p rest ih =>
    intro m
    simp only [List.foldl_cons]
    exact ih (buildStep s p m)

theorem entryAt_foldl_update (f : Nat → Nat × Nat) (c w : Nat) (ps : List Nat) :
    ∀ t : NgramTable,
      entryAt (ps.foldl (fun t j => UpdateNgramModel t (f j).1 (f j).2) t) c w =
        if ps.countP (fun j => decide (f j = (c, w))) = 0 then entryAt t c w
        else some ((entryAt t c w).getD 0
          + (ps.countP (fun j => decide (f j = (c, w))) : ℚ)) := by
  induction ps with
  | nil => intro t; simp
  | cons p rest ih =>
    intro t
    rw [List.foldl_cons, ih]
    by_cases hp : f p = (c, w)
    · have hc : (f p).1 = c := by rw [hp]
      have hw : (f p).2 = w := by rw [hp]
      rw [hc, hw, entryAt_UpdateNgramModel_same, List.countP_cons_of_pos (p := fun j => decide (f j = (c, w))) rest (by simpa using hp)]
      by_cases h0 : rest.countP (fun j => decide (f j = (c, w))) = 0
      · rw [if_pos h0, if_neg (by omega), h0]
        simp
      · rw [if_neg h0, if_neg (by omega)]
        simp only [Option.getD_some, Nat.cast_add, Nat.cast_one]
        congr 1
        ring
    · have hne : (c, w) ≠ ((f p).1, (f p).2) := fun e => hp e.symm
      rw [entryAt_UpdateNgramModel_other t (f p).1 (f p).2 c w hne,
        List.countP_cons_of_neg (p := fun j => decide (f j = (c, w))) rest (by simpa using hp)]

theorem map_getD_range (s : List Nat) (n : Nat) (h : n ≤ s.length) :
    (List.range n).map (fun j => s.getD j 0) = s.take n := by
  apply List.ext_getElem?
  intro j
  by_cases hj : j < n
  · have hjs : j < s.length := by omega
    rw [List.getElem?_map, List.getElem?_range hj, List.getElem?_take_of_lt hj,
      List.getElem?_eq_getElem hjs]
    simp [List.getD_eq_getElem?_getD, List.getElem?_eq_getElem hjs]
  · rw [List.getElem?_eq_none (by simp; omega), List.getElem?_eq_none (by simp; omega)]

theorem buildPass_eq (fuel : Nat) (s : List Nat) (m : Model) (h5 : 5 ≤ s.length)
    (hmax : s.length ≤ 21480004) (hfuel : s.length - 5 < fuel) :
    buildPass fuel s m
      = some ((List.range (s.length - 5)).foldl (fun st j => buildStep s j st) m) := by
  have hbound : toU64 (s.length + 2 ^ 64 - NGRAM - 1) = s.length - 5 := by
    unfold toU64 NGRAM
    omega
  unfold buildPass
  rw [hbound, forInt_fold (s.length - 5) (buildBody s) (buildStep s)
    (fun i st hi => buildBody_eq s i st (by omega) (by omega)) (by unfold INT_MAX; omega)
    fuel 0 m
    (Nat.zero_le _) (by omega), Nat.sub_zero, List.range_eq_range']

/-- C23 (amended): for a key sequence `s` of 16-bit keys and length `n` with
`5 ≤ n ≤ 21480004`, the build pass of `Train` started on four empty tables returns (no read
leaves `0..n-1`, no progress output overflows); it is the succession of the four updates at
the positions `0, ..., n - 6` (`n - 5` iterations); afterwards the order-`m` table, `m` in
`{2, 3, 4}`, holds at `(c, w)` the number of positions `i < n - 5` with composite key `c` and
next word `w` (no entry when that number is `0`), and the unigram table holds at `(k, k)` the
number of positions `i < n - 5` with `s[i] = k`, its weights summing to `n - 5`. -/
theorem buildPass_counts (l : Nat → ℚ) (s : List Nat) (h5 : 5 ≤ s.length)
    (hmax : s.length ≤ 21480004) (hk : ∀ k ∈ s, k < 65536) :
    ∀ fuel : Nat, s.length - 5 < fuel →
      ∃ m' : Model, buildPass fuel s ⟨l, [], [], [], []⟩ = some m' ∧
        m' = (List.range (s.length - 5)).foldl (fun st j => buildStep s j st)
          ⟨l, [], [], [], []⟩ ∧
        (∀ c w : Nat, entryAt m'.bigramTable c w =
          if contextCount 2 s (s.length - 5) c w = 0 then none
          else some (contextCount 2 s (s.length - 5) c w : ℚ)) ∧
        (∀ c w : Nat, entryAt m'.trigramTable c w =
          if contextCount 3 s (s.length - 5) c w = 0 then none
          else some (contextCount 3 s (s.length - 5) c w : ℚ)) ∧
        (∀ c w : Nat, entryAt m'.quadgramTable c w =
          if contextCount 4 s (s.length - 5) c w = 0 then none
          else some (contextCount 4 s (s.length - 5) c w : ℚ)) ∧
        (∀ k : Nat, entryAt m'.unigramTable k k =
          if (s.take (s.length - 5)).count k = 0 then none
          else some ((s.take (s.length - 5)).count k : ℚ)) ∧
        tableTotal m'.unigramTable = ((s.length - 5 : Nat) : ℚ) := by
  intro fuel hfuel
  obtain ⟨hu, hb, ht, hq⟩ :=
    foldl_buildStep_tables s (List.range (s.length - 5)) ⟨l, [], [], [], []⟩
  have huni : ((List.range (s.length - 5)).foldl (fun st j => buildStep s j st)
      ⟨l, [], [], [], []⟩).unigramTable = buildUnigram (s.take (s.length - 5)) := by
    rw [hu, ← map_getD_range s (s.length - 5) (by omega)]
    unfold buildUnigram
    rw [List.foldl_map]
  have hbuilt := UnigramBuilt_build (s.take (s.length - 5))
    (fun k hkm => hk k (List.mem_of_mem_take hkm))
  have hentry : ∀ (order : Int) (c w : Nat),
      entryAt ((List.range (s.length - 5)).foldl
          (fun t j => UpdateNgramModel t (contextAt order s j).1 (contextAt order s j).2) [])
        c w =
      if contextCount order s (s.length - 5) c w = 0 then none
      else some (contextCount order s (s.length - 5) c w : ℚ) := by
    intro order c w
    rw [entryAt_foldl_update (contextAt order s) c w]
    unfold contextCount
    by_cases h0 : (List.range (s.length - 5)).countP
        (fun j => decide (contextAt order s j = (c, w))) = 0
    · rw [if_pos h0, if_pos h0]
      rfl
    · rw [if_neg h0, if_neg h0]
      simp [entryAt, mapFind]
  refine ⟨_, buildPass_eq fuel s _ h5 hmax hfuel, rfl, ?_, ?_, ?_, ?_, ?_⟩
  · intro c w
    rw [hb]
    exact hentry 2 c w
  · intro c w
    rw [ht]
    exact hentry 3 c w
  · intro c w
    rw [hq]
    exact hentry 4 c w
  · intro k
    rw [huni]
    unfold entryAt
    rw [hbuilt.2.2.1 k]
    by_cases h0 : (s.take (s.length - 5)).count k = 0
    · rw [if_pos h0, if_pos h0]
    · rw [if_neg h0, if_neg h0]
      simp [mapFind]
  · rw [huni, hbuilt.2.2.2, List.length_take, Nat.min_eq_left (by omega)]

/-- Witness of C23 (amended): on the seven keys `[1, 2, 1, 2, 3, 4, 5]` the build pass makes
two iterations; the bigram table holds `1` at `(1, 2)` and at `(2, 1)`. -/
theorem buildPass_counts_witness :
    ∃ m' : Model, buildPass 3 [1, 2, 1, 2, 3, 4, 5] ⟨fun _ => 1, [], [], [], []⟩ = some m' ∧
      m'.bigramTable = [(1, [(2, 1)]), (2, [(1, 1)])] ∧
      m'.unigramTable = [(1, [(1, 1)]), (2, [(2, 1)])] ∧
      entryAt m'.bigramTable 1 2 = some 1 := by
  obtain ⟨m', h, hm, hbi, _, _, _, _⟩ :=
    buildPass_counts (fun _ => 1) [1, 2, 1, 2, 3, 4, 5] (by decide) (by decide) (by decide) 3
      (by decide)
  refine ⟨m', h, ?_, ?_, ?_⟩
  · rw [hm]; decide!
  · rw [hm]; decide!
  · rw [hbi 1 2]; decide!

/-- C23 (counterexample): on the `21480005` keys `1, 1, ..., 1` the build loop has the bound
`21480000` and reaches the position `i = 21479999`, where `i % 10000 == 9999` and the progress
output forms the `int` product `i * 100 = 2147999900`, beyond `INT_MAX`; no amount of fuel
yields a result. -/
theorem buildPass_no_result :
    ¬ ∃ fuel : Nat,
      (buildPass fuel (List.replicate 21480005 1) ⟨fun _ => 1, [], [], [], []⟩).isSome
        = true := by
  rintro ⟨fuel, h⟩
  have hbound : toU64 ((List.replicate 21480005 1).length + 2 ^ 64 - NGRAM - 1)
      = 21480000 := by
    rw [List.length_replicate]
    unfold toU64 NGRAM
    norm_num
  unfold buildPass at h
  rw [hbound, forInt_fail 21480000 _ 21479999 (by norm_num)
    (fun m => buildBody_overflow _ 21479999 m (by norm_num) (by unfold INT_MAX; norm_num))
    21479999 fuel 0 _ (by norm_num)] at h
  simp at h

/-! ## `LambdaEM`: accuracies and the division by `normal` -/

/-- C24 (evaluation at the failing input): on `hitModel` and the held-out sequence of eleven
keys `1`, the bigram loop examines the single position `i = 5`, where `GetMax` returns the
actual next key `1`; `LambdaEM` then divides the one hit by the final index `i = 6`, so the
bigram accuracy is `1/6` and not `1/1`. -/
theorem lambdaAccuracies_divides_by_index :
    GetMax hitModel.bigramTable (MakeNgramModelKey 2 1) = 1 ∧
      forIntIdx (toU64 (11 + 2 ^ 64 - NGRAM - 1))
          (accBody2 hitModel [1, 1, 1, 1, 1, 1, 1, 1, 1, 1, 1]) 12 (NGRAM + 1) 0
        = some (6, 1) ∧
      lambdaAccuracies 12 hitModel [1, 1, 1, 1, 1, 1, 1, 1, 1, 1, 1] = some (1 / 6, 0, 0) := by
  refine ⟨by decide!, by decide!, by decide!⟩

/-- C27 (evaluation at the failing input): on `dupModel` and the held-out sequence of eleven
keys `5` no order scores a hit, the three accuracies are `0`, so `normal = 0`; `LambdaEM`
goes on to the divisions by `normal` all the same, and they yield no number. -/
theorem LambdaEM_divides_by_zero :
    lambdaAccuracies 12 dupModel [5, 5, 5, 5, 5, 5, 5, 5, 5, 5, 5] = some (0, 0, 0) ∧
      lambdaWeights dupModel.l 0 0 0 = none ∧
      LambdaEM 12 dupModel [5, 5, 5, 5, 5, 5, 5, 5, 5, 5, 5] = none := by
  have h : lambdaAccuracies 12 dupModel [5, 5, 5, 5, 5, 5, 5, 5, 5, 5, 5] = some (0, 0, 0) := by
    decide!
  have hw : lambdaWeights dupModel.l 0 0 0 = none := by
    unfold lambdaWeights
    simp
  refine ⟨h, hw, ?_⟩
  unfold LambdaEM
  rw [h]
  exact hw

/-! ## Sequences of fewer than five elements -/

/-- C29 (evaluation at the failing input): for a sequence of four elements the bound
`size() - NGRAM - 1` wraps to `2^64 - 1`, so the loops do run: `WordToKeySequence` on the four
tokens `[the, cat, the, cat]` goes on to read `wordVec[4]`, the build loop of `Train` on four
keys reads `keySequence[4]` in its second iteration, and the loop of `Test` calls `ScoreResult`
in its first iteration; none of them has a result, whatever the fuel. -/
theorem short_sequence_bound_wraps :
    toU64 (4 + 2 ^ 64 - NGRAM - 1) = 2 ^ 64 - 1 ∧
      (∀ fuel : Nat,
        WordToKeySequence fuel Vocab.fresh ["the", "cat", "the", "cat"] [] = none) ∧
      (∀ fuel : Nat, buildPass fuel [1, 2, 1, 2] ⟨fun _ => 1, [], [], [], []⟩ = none) ∧
      (∀ fuel : Nat, testPass fuel dupModel [1, 2, 1, 2] ⟨0, 0, 0, 0, 0⟩ = none) := by
  have hb : toU64 (4 + 2 ^ 64 - NGRAM - 1) = 2 ^ 64 - 1 := by decide
  refine ⟨hb, fun fuel => ?_, fun fuel => ?_, fun fuel => ?_⟩
  · unfold WordToKeySequence
    have hlen : (["the", "cat", "the", "cat"] : List String).length = 4 := rfl
    rw [hlen, hb, forInt_fail (2 ^ 64 - 1) _ 4 (by norm_num) (fun s => rfl) 4 fuel 0 _ rfl]
  · unfold buildPass
    have hlen : ([1, 2, 1, 2] : List Nat).length = 4 := rfl
    rw [hlen, hb, forInt_fail (2 ^ 64 - 1) _ 1 (by norm_num) (fun s => rfl) 1 fuel 0 _ rfl]
  · unfold testPass
    have hlen : ([1, 2, 1, 2] : List Nat).length = 4 := rfl
    rw [hlen, hb, forInt_fail (2 ^ 64 - 1) _ 0 (by norm_num) (fun s => rfl) 0 fuel 0 _ rfl]

/-! ## `Tokenize` -/

theorem strAt_append_cons (pre : List Nat) (c : Nat) (rest : List Nat) :
    strAt (pre ++ c :: rest) pre.length = some c := by
  unfold strAt
  rw [if_pos (by simp), List.getElem?_append_right (le_refl _), Nat.sub_self,
    List.getElem?_cons_zero]

theorem strAt_append_nil (pre : List Nat) : strAt (pre ++ []) pre.length = some 0 := by
  unfold strAt
  rw [List.append_nil, if_neg (lt_irrefl _), if_pos rfl]

theorem dropWhile_head_false (p : Nat → Bool) (l : List Nat) :
    ∀ (c : Nat) (rest : List Nat), l.dropWhile p = c :: rest → p c = false := by
  induction l with
  | nil => intro c rest h; simp at h
  | cons x xs ih =>
    intro c rest h
    by_cases hx : p x = true
    · rw [List.dropWhile_cons_of_pos hx] at h
      exact ih c rest h
    · rw [List.dropWhile_cons_of_neg hx] at h
      injection h with h1 _
      rw [← h1]
      simpa using hx

theorem mem_of_mem_dropWhile (p : Nat → Bool) (l : List Nat) (c : Nat)
    (h : c ∈ l.dropWhile p) : c ∈ l := by
  have := List.takeWhile_append_dropWhile p l
  rw [← this]
  exact List.mem_append_right _ h

theorem maximalRuns_nil (delims : List Nat) : maximalRuns delims [] = [] := by
  simp [maximalRuns]

theorem maximalRuns_delims_append (delims : List Nat) (ds rest : List Nat)
    (h : ∀ c ∈ ds, IsDelimiter c delims = true) :
    maximalRuns delims (ds ++ rest) = maximalRuns delims rest := by
  induction ds with
  | nil => rfl
  | cons d ds ih =>
    have hd : IsDelimiter d delims = true := h d (List.mem_cons_self _ _)
    have ih2 := ih (fun c hc => h c (List.mem_cons_of_mem _ hc))
    unfold maximalRuns at ih2 ⊢
    rw [List.cons_append, List.splitOnP_cons, if_pos hd, List.filter_cons_of_neg (by simp)]
    exact ih2

theorem maximalRuns_run (delims : List Nat) (run rest : List Nat) (hne : run ≠ [])
    (hrun : ∀ c ∈ run, IsDelimiter c delims = false)
    (hrest : ∀ (c : Nat) (tl : List Nat), rest = c :: tl → IsDelimiter c delims = true) :
    maximalRuns delims (run ++ rest) = run :: maximalRuns delims rest := by
  cases rest with
  | nil =>
    rw [List.append_nil, maximalRuns_nil]
    unfold maximalRuns
    rw [List.splitOnP_eq_single _ _ (fun x hx => by rw [hrun x hx]; simp)]
    simp [hne]
  | cons d tl =>
    have hd : IsDelimiter d delims = true := hrest d tl rfl
    have h2 : maximalRuns delims (d :: tl) = maximalRuns delims tl :=
      maximalRuns_delims_append delims [d] tl (fun c hc => by
        rw [List.mem_singleton] at hc
        rw [hc]
        exact hd)
    rw [h2]
    unfold maximalRuns
    rw [List.splitOnP_first _ _ (fun x hx => by rw [hrun x hx]; simp) d hd tl,
      List.filter_cons_of_pos (by simpa using hne)]

theorem cstr_append_run (pre run zeros tail : List Nat) (hrun : ∀ c ∈ run, c ≠ 0)
    (hz : ∀ c ∈ zeros, c = 0) (hend : zeros ≠ [] ∨ tail = []) :
    cstr (pre ++ (run ++ zeros ++ tail)) pre.length = run := by
  unfold cstr
  rw [List.drop_left, List.append_assoc,
    List.takeWhile_append_of_pos (fun a ha => by simpa using hrun a ha)]
  cases zeros with
  | nil =>
    rcases hend with h | h
    · exact absurd rfl h
    · rw [h]; simp
  | cons z zs =>
    have hz0 : z = 0 := hz z (List.mem_cons_self _ _)
    rw [hz0]
    simp

theorem tokenizeLoop_step (delims : List Nat) (fuel : Nat) (pre R run R1 ds R2 : List Nat)
    (c : Nat) (tl : List Nat) (ptrs : List Nat) (hR : R = c :: tl) (hc : c ≠ 0)
    (hrun : R.takeWhile (advanceCond delims) = run)
    (hR1 : R.dropWhile (advanceCond delims) = R1)
    (hds : R1.takeWhile (consumeCond delims) = ds)
    (hR2 : R1.dropWhile (consumeCond delims) = R2)
    (hnz : ∀ x ∈ R2, x ≠ 0)
    (hlen : (pre ++ R).length ≤ INT_MAX) :
    tokenizeLoop delims (fuel + 1) ⟨pre.length, pre ++ R, ptrs⟩ =
      tokenizeLoop delims fuel
        ⟨(pre ++ (run ++ List.replicate ds.length 0)).length,
          (pre ++ (run ++ List.replicate ds.length 0)) ++ R2,
          if R2 = [] then ptrs
          else ptrs ++ [(pre ++ (run ++ List.replicate ds.length 0)).length]⟩ := by
  have hsplit1 : R = run ++ R1 := by
    rw [← hrun, ← hR1, List.takeWhile_append_dropWhile]
  have hsplit2 : R1 = ds ++ R2 := by
    rw [← hds, ← hR2, List.takeWhile_append_dropWhile]
  have hd0 : (pre ++ R).drop pre.length = R := List.drop_left _ _
  have hd1 : (pre ++ R).drop (pre.length + run.length) = R1 := by
    rw [hsplit1, ← List.append_assoc, ← List.length_append, List.drop_left]
  have ht1 : (pre ++ R).take (pre.length + run.length) = pre ++ run := by
    rw [hsplit1, ← List.append_assoc, ← List.length_append, List.take_left]
  have hd2 : (pre ++ R).drop (pre.length + run.length + ds.length) = R2 := by
    rw [hsplit1, hsplit2, ← List.append_assoc, ← List.append_assoc, ← List.length_append,
      ← List.length_append, List.drop_left]
  have hs0 : strAt (pre ++ R) pre.length = some c := by
    rw [hR]; exact strAt_append_cons pre c tl
  have hi : pre.length + run.length + ds.length
      = (pre ++ (run ++ List.replicate ds.length 0)).length := by
    simp [Nat.add_assoc]
  have hle : ¬ pre.length + run.length + ds.length > INT_MAX := by
    have : (pre ++ R).length = pre.length + run.length + ds.length + R2.length := by
      rw [hsplit1, hsplit2]
      simp [Nat.add_assoc]
    omega
  have hbuf : pre ++ run ++ List.replicate ds.length 0 ++ R2
      = (pre ++ (run ++ List.replicate ds.length 0)) ++ R2 := by
    simp [List.append_assoc]
  conv_lhs => unfold tokenizeLoop
  simp only [hs0, if_neg hc, hd0, scanWhile, hrun, hd1, hds, ht1, hd2, if_neg hle]
  rw [hbuf, hi]
  cases R2 with
  | nil =>
    rw [strAt_append_nil]
    simp
  | cons x xs =>
    rw [strAt_append_cons]
    have hx : x ≠ 0 := hnz x (List.mem_cons_self _ _)
    simp [hx]

theorem advanceCond_true (delims : List Nat) (c : Nat) :
    advanceCond delims c = true ↔ IsDelimiter c delims = false ∧ c ≠ 0 := by
  unfold advanceCond
  cases h : IsDelimiter c delims <;> simp

theorem consumeCond_true (delims : List Nat) (c : Nat) :
    consumeCond delims c = true ↔ IsDelimiter c delims = true ∧ c ≠ 0 := by
  unfold consumeCond
  cases h : IsDelimiter c delims <;> simp

theorem tokenizeLoop_spec (delims : List Nat) :
    ∀ (fuel : Nat) (pre R ptrs : List Nat),
      (∀ c ∈ R, c ≠ 0) →
      (∀ (c : Nat) (tl : List Nat), R = c :: tl → IsDelimiter c delims = false) →
      R.length < fuel →
      (pre ++ R).length ≤ INT_MAX →
      ∃ (W starts : List Nat) (st : TokState),
        tokenizeLoop delims fuel ⟨pre.length, pre ++ R, ptrs⟩ = some st ∧
        st.buf = pre ++ W ∧ st.ptrs = ptrs ++ starts ∧
        W.length = R.length ∧
        (R = [] → starts = []) ∧
        (R ≠ [] → (pre.length :: starts).map (cstr (pre ++ W)) = maximalRuns delims R) := by
  intro fuel
  induction fuel with
  | zero => intro pre R ptrs _ _ hf; omega
  | succ fuel ih =>
    intro pre R ptrs hnz hhead hf hlen
    cases hR : R with
    | nil =>
      refine ⟨[], [], ⟨pre.length, pre ++ [], ptrs⟩, ?_, rfl, by simp, rfl, fun _ => rfl,
        fun h => absurd rfl h⟩
      unfold tokenizeLoop
      simp only [strAt_append_nil]
      simp
    | cons c tl =>
      have hc : c ≠ 0 := hnz c (by rw [hR]; exact List.mem_cons_self _ _)
      have hcd : IsDelimiter c delims = false := hhead c tl hR
      have hadv : advanceCond delims c = true := (advanceCond_true delims c).2 ⟨hcd, hc⟩
      -- the four pieces of the remaining text
      obtain ⟨run, hrun⟩ : ∃ run, R.takeWhile (advanceCond delims) = run := ⟨_, rfl⟩
      obtain ⟨R1, hR1⟩ : ∃ R1, R.dropWhile (advanceCond delims) = R1 := ⟨_, rfl⟩
      obtain ⟨ds, hds⟩ : ∃ ds, R1.takeWhile (consumeCond delims) = ds := ⟨_, rfl⟩
      obtain ⟨R2, hR2⟩ : ∃ R2, R1.dropWhile (consumeCond delims) = R2 := ⟨_, rfl⟩
      have hsplit1 : R = run ++ R1 := by
        rw [← hrun, ← hR1, List.takeWhile_append_dropWhile]
      have hsplit2 : R1 = ds ++ R2 := by
        rw [← hds, ← hR2, List.takeWhile_append_dropWhile]
      have hR1mem : ∀ x ∈ R1, x ∈ R := fun x hx => by
        rw [← hR1] at hx; exact mem_of_mem_dropWhile _ _ _ hx
      have hR2mem : ∀ x ∈ R2, x ∈ R := fun x hx => by
        apply hR1mem; rw [← hR2] at hx; exact mem_of_mem_dropWhile _ _ _ hx
      have hnz2 : ∀ x ∈ R2, x ≠ 0 := fun x hx => hnz x (hR2mem x hx)
      have hrun_ne : run ≠ [] := by
        rw [← hrun, hR, List.takeWhile_cons_of_pos hadv]; simp
      have hrun_p : ∀ x ∈ run, IsDelimiter x delims = false ∧ x ≠ 0 := fun x hx => by
        rw [← hrun] at hx
        exact (advanceCond_true delims x).1 (List.mem_takeWhile_imp hx)
      have hds_p : ∀ x ∈ ds, IsDelimiter x delims = true := fun x hx => by
        rw [← hds] at hx
        exact ((consumeCond_true delims x).1 (List.mem_takeWhile_imp hx)).1
      have hR1head : ∀ (x : Nat) (t : List Nat), R1 = x :: t → IsDelimiter x delims = true := by
        intro x t hx
        have hfalse : advanceCond delims x = false :=
          dropWhile_head_false _ R x t (by rw [hR1, hx])
        have hx0 : x ≠ 0 := hnz x (hR1mem x (by rw [hx]; exact List.mem_cons_self _ _))
        cases hd : IsDelimiter x delims with
        | true => rfl
        | false =>
          have := (advanceCond_true delims x).2 ⟨hd, hx0⟩
          rw [hfalse] at this; cases this
      have hR2head : ∀ (x : Nat) (t : List Nat), R2 = x :: t → IsDelimiter x delims = false := by
        intro x t hx
        have hfalse : consumeCond delims x = false :=
          dropWhile_head_false _ R1 x t (by rw [hR2, hx])
        have hx0 : x ≠ 0 := hnz2 x (by rw [hx]; exact List.mem_cons_self _ _)
        cases hd : IsDelimiter x delims with
        | false => rfl
        | true =>
          have := (consumeCond_true delims x).2 ⟨hd, hx0⟩
          rw [hfalse] at this; cases this
      have hds_ne : R2 ≠ [] → ds ≠ [] := by
        intro h2 hdsnil
        cases hR1c : R1 with
        | nil =>
          rw [hR1c] at hsplit2
          have : (ds ++ R2).length = 0 := by rw [← hsplit2]; rfl
          rw [List.length_append] at this
          exact h2 (List.length_eq_zero.1 (by omega))
        | cons x t =>
          have hxd := hR1head x t hR1c
          have hx0 : x ≠ 0 := hnz x (hR1mem x (by rw [hR1c]; exact List.mem_cons_self _ _))
          have hcons : consumeCond delims x = true := (consumeCond_true delims x).2 ⟨hxd, hx0⟩
          rw [← hds, hR1c, List.takeWhile_cons_of_pos hcons] at hdsnil
          cases hdsnil
      have hlenR : R.length = run.length + ds.length + R2.length := by
        rw [hsplit1, hsplit2]; simp [Nat.add_assoc]
      have hrunlen : 0 < run.length := List.length_pos.2 hrun_ne
      have hstep := tokenizeLoop_step delims fuel pre R run R1 ds R2 c tl ptrs hR hc hrun hR1
        hds hR2 hnz2 hlen
      have hlen2 : ((pre ++ (run ++ List.replicate ds.length 0)) ++ R2).length ≤ INT_MAX := by
        have : (pre ++ R).length = pre.length + R.length := List.length_append _ _
        simp only [List.length_append, List.length_replicate] at *
        omega
      obtain ⟨W2, starts2, st, hrec, hbuf, hptrs, hW2, hnil2, hruns2⟩ :=
        ih (pre ++ (run ++ List.replicate ds.length 0)) R2
          (if R2 = [] then ptrs
           else ptrs ++ [(pre ++ (run ++ List.replicate ds.length 0)).length])
          hnz2 hR2head (by omega) hlen2
      have hbufeq : pre ++ (run ++ List.replicate ds.length 0 ++ W2)
          = (pre ++ (run ++ List.replicate ds.length 0)) ++ W2 := by
        simp [List.append_assoc]
      have hruns : maximalRuns delims R = run :: maximalRuns delims R2 := by
        rw [hsplit1, maximalRuns_run delims run R1 hrun_ne (fun x hx => (hrun_p x hx).1) hR1head,
          hsplit2, maximalRuns_delims_append delims ds R2 hds_p]
      have hz : ∀ x ∈ List.replicate ds.length 0, x = 0 := fun x hx =>
        (List.mem_replicate.1 hx).2
      rw [← hR]
      by_cases h2 : R2 = []
      · have hs2 : starts2 = [] := hnil2 h2
        have hW2nil : W2 = [] := List.length_eq_zero.1 (by rw [hW2, h2]; rfl)
        refine ⟨run ++ List.replicate ds.length 0 ++ W2, [], st, ?_, ?_, ?_, ?_, fun _ => rfl, ?_⟩
        · rw [hstep, hrec]
        · rw [hbuf, hbufeq]
        · rw [hptrs, if_pos h2, hs2]
        · simp only [List.length_append, List.length_replicate]; omega
        · intro _
          rw [hruns, h2, maximalRuns_nil, List.map_cons, List.map_nil,
            cstr_append_run pre run _ W2 (fun x hx => (hrun_p x hx).2) hz (Or.inr hW2nil)]
      · refine ⟨run ++ List.replicate ds.length 0 ++ W2,
          (pre ++ (run ++ List.replicate ds.length 0)).length :: starts2, st,
          ?_, ?_, ?_, ?_, fun h => ?_, ?_⟩
        · rw [hstep, hrec]
        · rw [hbuf, hbufeq]
        · rw [hptrs, if_neg h2, List.append_assoc]; rfl
        · simp only [List.length_append, List.length_replicate]; omega
        · rw [h] at hR
          cases hR
        · intro _
          have hzne : List.replicate ds.length 0 ≠ [] := by
            intro h
            have := congrArg List.length h
            rw [List.length_replicate] at this
            exact hds_ne h2 (List.length_eq_zero.1 this)
          rw [hruns, List.map_cons,
            cstr_append_run pre run _ W2 (fun x hx => (hrun_p x hx).2) hz (Or.inl hzne),
            hbufeq, hruns2 h2]

theorem splitOnP_no_match (p : Nat → Bool) (l : List Nat) :
    ∀ r ∈ l.splitOnP p, ∀ c ∈ r, p c = false := by
  induction l with
  | nil =>
    intro r hr c hc
    rw [List.splitOnP_nil] at hr
    rw [List.mem_singleton.1 hr] at hc
    cases hc
  | cons x xs ih =>
    intro r hr c hc
    rw [List.splitOnP_cons] at hr
    by_cases hx : p x = true
    · rw [if_pos hx] at hr
      rcases List.mem_cons.1 hr with h | h
      · rw [h] at hc; cases hc
      · exact ih r h c hc
    · rw [if_neg hx] at hr
      cases hs : xs.splitOnP p with
      | nil => exact absurd hs (List.splitOnP_ne_nil p xs)
      | cons h t =>
        rw [hs] at hr ih
        rw [List.modifyHead_cons] at hr
        rcases List.mem_cons.1 hr with h1 | h1
        · rw [h1] at hc
          rcases List.mem_cons.1 hc with h2 | h2
          · rw [h2]; simpa using hx
          · exact ih h (List.mem_cons_self _ _) c h2
        · exact ih r (List.mem_cons_of_mem _ h1) c hc

theorem maximalRuns_mem (delims buf : List Nat) :
    ∀ r ∈ maximalRuns delims buf, r ≠ [] ∧ ∀ c ∈ r, IsDelimiter c delims = false := by
  intro r hr
  unfold maximalRuns at hr
  rw [List.mem_filter] at hr
  exact ⟨by simpa using hr.2, splitOnP_no_match _ buf r hr.1⟩

theorem Tokenize_runs (buf delims : List Nat) (fuel : Nat)
    (hne : buf ≠ []) (h0 : ∀ c ∈ buf, c ≠ 0) (hd : delims ≠ [])
    (hsize : buf.length < BUFSIZE) (hfuel : buf.length < fuel) :
    ∃ r, Tokenize fuel buf delims = some r ∧ r.1 = r.2.1.length ∧
      tokensOf r = maximalRuns delims buf := by
  obtain ⟨c0, tl, hbuf⟩ : ∃ c0 tl, buf = c0 :: tl := by
    cases buf with
    | nil => exact absurd rfl hne
    | cons a b => exact ⟨a, b, rfl⟩
  have hc0 : c0 ≠ 0 := h0 c0 (by rw [hbuf]; exact List.mem_cons_self _ _)
  have hs0 : strAt buf 0 = some c0 := by
    have := strAt_append_cons [] c0 tl
    rw [hbuf]; exact this
  have hdl : ¬ delims.length = 0 := fun h => hd (List.length_eq_zero.1 h)
  obtain ⟨ds, hds⟩ : ∃ ds, buf.takeWhile (consumeCond delims) = ds := ⟨_, rfl⟩
  obtain ⟨R, hR⟩ : ∃ R, buf.dropWhile (consumeCond delims) = R := ⟨_, rfl⟩
  have hsplit : buf = ds ++ R := by
    rw [← hds, ← hR, List.takeWhile_append_dropWhile]
  have hi : (if IsDelimiter c0 delims = true then scanWhile (consumeCond delims) buf else 0)
      = ds.length := by
    by_cases hcd : IsDelimiter c0 delims = true
    · rw [if_pos hcd, scanWhile, hds]
    · rw [if_neg hcd, ← hds, hbuf, List.takeWhile_cons_of_neg]
      · rfl
      · intro h
        exact hcd ((consumeCond_true delims c0).1 h).1
  have hlenb : buf.length = ds.length + R.length := by rw [hsplit, List.length_append]
  have hint : ¬ ds.length > INT_MAX := by
    have : BUFSIZE ≤ INT_MAX := by decide
    omega
  have hds_p : ∀ x ∈ ds, IsDelimiter x delims = true := fun x hx => by
    rw [← hds] at hx
    exact ((consumeCond_true delims x).1 (List.mem_takeWhile_imp hx)).1
  have hRmem : ∀ x ∈ R, x ≠ 0 := fun x hx =>
    h0 x (by rw [← hR] at hx; exact mem_of_mem_dropWhile _ _ _ hx)
  have hRhead : ∀ (x : Nat) (t : List Nat), R = x :: t → IsDelimiter x delims = false := by
    intro x t hx
    have hfalse : consumeCond delims x = false :=
      dropWhile_head_false _ buf x t (by rw [hR, hx])
    have hx0 : x ≠ 0 := hRmem x (by rw [hx]; exact List.mem_cons_self _ _)
    cases hdx : IsDelimiter x delims with
    | false => rfl
    | true =>
      have := (consumeCond_true delims x).2 ⟨hdx, hx0⟩
      rw [hfalse] at this; cases this
  have hruns : maximalRuns delims buf = maximalRuns delims R := by
    rw [hsplit, maximalRuns_delims_append delims ds R hds_p]
  unfold Tokenize
  simp only [hs0, if_neg hc0, if_neg hdl, hi, if_neg hint]
  cases hRc : R with
  | nil =>
    have hsn : strAt buf ds.length = some 0 := by
      rw [hsplit, hRc]; exact strAt_append_nil ds
    refine ⟨(0, [], buf), ?_, rfl, ?_⟩
    · simp only [hsn]
      simp
    · rw [hruns, hRc, maximalRuns_nil]; rfl
  | cons x t =>
    have hx0 : x ≠ 0 := hRmem x (by rw [hRc]; exact List.mem_cons_self _ _)
    have hsx : strAt buf ds.length = some x := by
      rw [hsplit, hRc]; exact strAt_append_cons ds x t
    obtain ⟨W, starts, st, hloop, hb, hp, _, _, hmap⟩ :=
      tokenizeLoop_spec delims fuel ds R [ds.length] hRmem hRhead (by omega)
        (by
          have : BUFSIZE ≤ INT_MAX := by decide
          rw [← hsplit]; omega)
    rw [← hsplit] at hloop
    refine ⟨(st.ptrs.length, st.ptrs, st.buf), ?_, rfl, ?_⟩
    · simp only [hsx, if_neg hx0, hloop]
    · have hRne : R ≠ [] := by rw [hRc]; exact List.cons_ne_nil _ _
      unfold tokensOf
      simp only
      rw [hp, hb, hruns, ← hmap hRne]
      rfl

/-- C28: for a non-empty NUL-terminated buffer (its characters before the NUL, fewer than
`BUFSIZE` of them as the parameter type `char buf[BUFSIZE]` declares) and a non-empty delimiter
string, `Tokenize` returns, and the strings its pointers denote are, in order, exactly the
maximal runs of non-delimiter characters of the buffer; the returned count is the number of
runs, every token is non-empty and free of delimiters, and a buffer of delimiters only gives
0 tokens. -/
theorem Tokenize_spec (buf delims : List Nat) (fuel : Nat)
    (hne : buf ≠ []) (h0 : ∀ c ∈ buf, c ≠ 0) (hd : delims ≠ [])
    (hsize : buf.length < BUFSIZE) (hfuel : buf.length < fuel) :
    ∃ r, Tokenize fuel buf delims = some r ∧
      tokensOf r = maximalRuns delims buf ∧
      r.1 = (maximalRuns delims buf).length ∧
      r.2.1.length = r.1 ∧
      (∀ t ∈ tokensOf r, t ≠ [] ∧ ∀ c ∈ t, IsDelimiter c delims = false) ∧
      ((∀ c ∈ buf, IsDelimiter c delims = true) → r.1 = 0) := by
  obtain ⟨r, hr, hcount, htok⟩ := Tokenize_runs buf delims fuel hne h0 hd hsize hfuel
  have hlen : r.1 = (maximalRuns delims buf).length := by
    rw [← htok, hcount]; unfold tokensOf; rw [List.length_map]
  refine ⟨r, hr, htok, hlen, hcount.symm, ?_, ?_⟩
  · intro t ht
    rw [htok] at ht
    exact maximalRuns_mem delims buf t ht
  · intro hall
    have := maximalRuns_delims_append delims buf [] hall
    rw [List.append_nil, maximalRuns_nil] at this
    rw [hlen, this]; rfl

theorem Tokenize_spec_witness :
    ∃ r, Tokenize 20 (codes ", the cat,  sat ") (codes ", ") = some r ∧
      tokensOf r = [codes "the", codes "cat", codes "sat"] ∧ r.1 = 3 := by
  obtain ⟨r, hr, htok, hlen, _⟩ :=
    Tokenize_spec (codes ", the cat,  sat ") (codes ", ") 20 (by decide) (by decide)
      (by decide) (by decide) (by decide)
  have hm : maximalRuns (codes ", ") (codes ", the cat,  sat ")
      = [codes "the", codes "cat", codes "sat"] := by decide
  exact ⟨r, hr, by rw [htok, hm], by rw [hlen, hm]; rfl⟩

/-! ## `PruneSequence`: pruning twice -/

theorem forU32_out_of_fuel {σ : Type} (size : Nat) (body : Nat → σ → σ)
    (hsize : size < 2 ^ 32) :
    ∀ (fuel i : Nat) (s : σ), i + fuel ≤ size → forU32 size body fuel i s = none := by
  intro fuel
  induction fuel with
  | zero => intro i s _; rfl
  | succ fuel ih =>
    intro i s hi
    unfold forU32
    rw [if_pos (by omega)]
    have hw : toU32 (i + 1) = i + 1 := Nat.mod_eq_of_lt (by omega)
    rw [hw]
    exact ih _ _ (by omega)

theorem forEachU32_some_bounds {α σ : Type} (vec : List α) (g : α → σ → σ) (fuel : Nat)
    (s r : σ) (h : forEachU32 vec g fuel s = some r) :
    vec.length < 2 ^ 32 ∧ vec.length < fuel := by
  by_cases hsize : vec.length < 2 ^ 32
  · refine ⟨hsize, ?_⟩
    by_contra hfuel
    have hnone : forEachU32 vec g fuel s = none :=
      forU32_out_of_fuel _ _ hsize fuel 0 s (by omega)
    rw [hnone] at h
    cases h
  · rw [forEachU32_wrap vec g fuel s (by omega)] at h
    cases h

theorem PruneSequence_some_bounds (fuel : Nat) (v w : List String)
    (h : PruneSequence fuel v = some w) : v.length < 2 ^ 32 ∧ v.length < fuel := by
  unfold PruneSequence at h
  cases h1 : forEachU32 v pruneCount fuel [] with
  | none => rw [h1] at h; cases h
  | some freqMap => exact forEachU32_some_bounds v pruneCount fuel [] freqMap h1

theorem count_filter_count (v : List String) (t : String)
    (ht : t ∈ v.filter (fun w => decide (v.count w > 1))) :
    (v.filter (fun w => decide (v.count w > 1))).count t = v.count t ∧ 1 < v.count t := by
  have hp : decide (v.count t > 1) = true := (List.mem_filter.1 ht).2
  exact ⟨List.count_filter hp, by simpa using hp⟩

theorem filter_count_fixed (v : List String) :
    (v.filter (fun w => decide (v.count w > 1))).filter
        (fun t => decide ((v.filter (fun w => decide (v.count w > 1))).count t > 1))
      = v.filter (fun w => decide (v.count w > 1)) := by
  rw [List.filter_eq_self]
  intro t ht
  have := count_filter_count v t ht
  simp only [decide_eq_true_eq]
  omega

theorem PruneSequence_twice (fuel : Nat) (v : List String) (hlen : v.length < 2 ^ 32)
    (hfuel : v.length < fuel) :
    PruneSequence fuel (v.filter (fun w => decide (v.count w > 1)))
      = some (v.filter (fun w => decide (v.count w > 1))) := by
  have hle : (v.filter (fun w => decide (v.count w > 1))).length ≤ v.length :=
    List.length_filter_le _ _
  rw [PruneSequence_eq_filter fuel _ (by omega) (by omega), filter_count_fixed]

/-- C33: `PruneSequence` is idempotent. For every token list `v` and every fuel, pruning the
outcome of pruning `v` gives the outcome of pruning `v` (on a list that `PruneSequence` does not
return from, neither side has a result); and on every list of fewer than `2^32` tokens, with
fuel above its length, `PruneSequence` returns a list `w` that `PruneSequence` returns
unchanged, every token of `w` having in `w` all its occurrences in `v`, at least `2`. -/
theorem PruneSequence_idempotent (fuel : Nat) (v : List String) :
    (PruneSequence fuel v).bind (PruneSequence fuel) = PruneSequence fuel v ∧
      (v.length < 2 ^ 32 → v.length < fuel →
        ∃ w, PruneSequence fuel v = some w ∧ PruneSequence fuel w = some w ∧
          ∀ t ∈ w, w.count t = v.count t ∧ 2 ≤ w.count t) := by
  constructor
  · cases h : PruneSequence fuel v with
    | none => rfl
    | some w =>
      obtain ⟨hlen, hfuel⟩ := PruneSequence_some_bounds fuel v w h
      rw [PruneSequence_eq_filter fuel v hlen hfuel] at h
      cases h
      exact PruneSequence_twice fuel v hlen hfuel
  · intro hlen hfuel
    refine ⟨_, PruneSequence_eq_filter fuel v hlen hfuel, PruneSequence_twice fuel v hlen hfuel,
      ?_⟩
    intro t ht
    have := count_filter_count v t ht
    omega

/-- Witness of C33: `[the, cat, sat, the, cat, ran]` is pruned to `[the, cat, the, cat]`, which
is pruned to itself. -/
theorem PruneSequence_idempotent_witness :
    ∃ w, PruneSequence 7 ["the", "cat", "sat", "the", "cat", "ran"] = some w ∧
      PruneSequence 7 w = some w ∧
      ∀ t ∈ w, w.count t = ["the", "cat", "sat", "the", "cat", "ran"].count t ∧ 2 ≤ w.count t :=
  (PruneSequence_idempotent 7 ["the", "cat", "sat", "the", "cat", "ran"]).2 (by decide)
    (by decide)

/-! ## Scoring a list with a repeated candidate -/

/-- C31 (evaluation at the failing input): started on accumulators all `0`, a single call of
`ScoreResult` for the actual word `9` on the ranked list with the entries `9 ↦ 1` and
`9 ↦ 1/2` leaves `boolAccuracy = 1`, `realAccuracy = 3/2`, `recall = 2`,
`topSevenAccuracy = 2` and `nPredictions = 1`: the loop counts every entry that carries the
actual word, so `recall` and `topSevenAccuracy` exceed `nPredictions` and the one call raised
`recall` by `2`. The list is the one `Predict` returns on `dupModel` at position `3` of
`[1, 2, 3, 9]`, so one iteration of the loop of `Test` has this outcome. -/
theorem ScoreResult_recall_exceeds_predictions :
    ScoreResult ⟨0, 0, 0, 0, 0⟩ 9 [⟨(9, 1), 2 / 5⟩, ⟨(9, 1 / 2), 2 / 5⟩]
        = some ⟨1, 3 / 2, 2, 2, 1⟩ ∧
      testBody dupModel [1, 2, 3, 9] 3 ⟨0, 0, 0, 0, 0⟩ = some ⟨1, 3 / 2, 2, 2, 1⟩ ∧
      ∃ s : LambdaStats,
        ScoreResult ⟨0, 0, 0, 0, 0⟩ 9 [⟨(9, 1), 2 / 5⟩, ⟨(9, 1 / 2), 2 / 5⟩] = some s ∧
          s.nPredictions < s.recall_ ∧ s.nPredictions < s.topSevenAccuracy ∧
          s.recall_ = 0 + 2 := by
  have h : ScoreResult ⟨0, 0, 0, 0, 0⟩ 9 [⟨(9, 1), 2 / 5⟩, ⟨(9, 1 / 2), 2 / 5⟩]
      = some ⟨1, 3 / 2, 2, 2, 1⟩ := by decide!
  have ht : testBody dupModel [1, 2, 3, 9] 3 ⟨0, 0, 0, 0, 0⟩ = some ⟨1, 3 / 2, 2, 2, 1⟩ := by
    decide!
  exact ⟨h, ht, _, h, by norm_num, by norm_num, by norm_num⟩

/-! ## Prediction: the initial value of `min3` -/

/-- C32 (evaluation at the failing input): on `sentinelModel`, whose stored values all lie in
`[0, 1]` and whose weights `l[1..4]` are non-negative with sum `19/20`, `Predict` at position
`3` of `[1, 2, 3]` returns an entry with the score `799999/20`. The trigram group is found, its
only candidate is skipped as a duplicate, so `min3` keeps its initial value `99999`, and the
bigram loop adds `l[3] * 99999` to the score of its candidate. -/
theorem Predict_sentinel_in_score :
    Predict sentinelModel [1, 2, 3] 3 []
        = some [⟨(9, 1 / 2), 799999 / 20⟩, ⟨(9, 1), 3 / 4⟩] ∧
      weightsInUnit sentinelModel.unigramTable ∧ weightsInUnit sentinelModel.bigramTable ∧
      weightsInUnit sentinelModel.trigramTable ∧ weightsInUnit sentinelModel.quadgramTable ∧
      0 ≤ sentinelModel.l 1 ∧ 0 ≤ sentinelModel.l 2 ∧ 0 ≤ sentinelModel.l 3 ∧
      0 ≤ sentinelModel.l 4 ∧
      sentinelModel.l 1 + sentinelModel.l 2 + sentinelModel.l 3 + sentinelModel.l 4
        < 799999 / 20 ∧
      (799999 / 20 : ℚ) = sentinelModel.l 1 * 0 + sentinelModel.l 2 * (1 / 2)
        + sentinelModel.l 3 * 99999 + sentinelModel.l 4 * 1 := by
  refine ⟨by decide!, ?_, ?_, ?_, ?_, by decide!, by decide!, by decide!, by decide!,
    by decide!, by decide!⟩
  · intro group hg
    cases hg
  · intro group hg e he
    simp only [sentinelModel, List.mem_singleton] at hg
    subst hg
    simp only [List.mem_cons, List.mem_singleton, List.not_mem_nil, or_false] at he
    rcases he with rfl | rfl <;> norm_num
  · intro group hg e he
    simp only [sentinelModel, List.mem_singleton] at hg
    subst hg
    simp only [List.mem_singleton] at he
    subst he
    norm_num
  · intro group hg e he
    simp only [sentinelModel, List.mem_singleton] at hg
    subst hg
    simp only [List.mem_singleton] at he
    subst he
    norm_num

/-! ## `Tokenize`: the number of tokens of a line -/

theorem letterLine_length (n : Nat) : (letterLine n).length = 2 * n + 1 := by
  induction n with
  | zero => rfl
  | succ n ih =>
    unfold letterLine
    rw [List.length_cons, List.length_cons, ih]
    omega

theorem letterLine_ne_zero (n : Nat) : ∀ c ∈ letterLine n, c ≠ 0 := by
  induction n with
  | zero =>
    intro c hc
    unfold letterLine at hc
    rw [List.mem_singleton.1 hc]
    decide
  | succ n ih =>
    intro c hc
    unfold letterLine at hc
    rcases List.mem_cons.1 hc with h | h
    · rw [h]; decide
    · rcases List.mem_cons.1 h with h2 | h2
      · rw [h2]; decide
      · exact ih c h2

theorem letterLine_ne_nil (n : Nat) : letterLine n ≠ [] := by
  cases n <;> simp [letterLine]

theorem letterLine_runs (n : Nat) :
    maximalRuns delimiters (letterLine n) = List.replicate (n + 1) [97] := by
  have hrun : ∀ c ∈ [97], IsDelimiter c delimiters = false := by
    intro c hc
    rw [List.mem_singleton.1 hc]
    decide
  induction n with
  | zero =>
    have h := maximalRuns_run delimiters [97] [] (by simp) hrun (by intro c tl h; cases h)
    rw [maximalRuns_nil] at h
    exact h
  | succ n ih =>
    have h := maximalRuns_run delimiters [97] (32 :: letterLine n) (by simp) hrun
      (by
        intro c tl h
        cases h
        decide)
    have h2 := maximalRuns_delims_append delimiters [32] (letterLine n)
      (by
        intro c hc
        rw [List.mem_singleton.1 hc]
        decide)
    have e1 : letterLine (n + 1) = [97] ++ 32 :: letterLine n := rfl
    have e2 : 32 :: letterLine n = [32] ++ letterLine n := rfl
    rw [e1, h, e2, h2, ih]
    rfl

theorem Tokenize_letterLine (n fuel : Nat) (hsize : 2 * n + 1 < BUFSIZE)
    (hfuel : 2 * n + 1 < fuel) :
    ∃ r, Tokenize fuel (letterLine n) delimiters = some r ∧ r.1 = n + 1 := by
  obtain ⟨r, hr, hcount, htok⟩ :=
    Tokenize_runs (letterLine n) delimiters fuel (letterLine_ne_nil n) (letterLine_ne_zero n)
      (by decide) (by rw [letterLine_length]; exact hsize)
      (by rw [letterLine_length]; exact hfuel)
  refine ⟨r, hr, ?_⟩
  have hl := congrArg List.length htok
  rw [letterLine_runs, List.length_replicate] at hl
  unfold tokensOf at hl
  rw [List.length_map] at hl
  rw [hcount, hl]

/-- C34 (evaluation at the failing input): the line of `2048` one-letter words separated by
single blanks has `4095 = BUFSIZE - 1` characters, and on it, with the delimiter set of the
model, `Tokenize` returns `2048` tokens, not fewer than `MAX_TOKENS_PER_READ = 1024`: the
pointers it writes do not fit the array `toks` of `TextToWordSequence`. -/
theorem Tokenize_exceeds_token_array :
    (letterLine 2047).length = BUFSIZE - 1 ∧
      ∃ r, Tokenize 4096 (letterLine 2047) delimiters = some r ∧ r.1 = 2048 ∧
        ¬ r.1 < MAX_TOKENS_PER_READ := by
  refine ⟨by rw [letterLine_length]; decide, ?_⟩
  obtain ⟨r, hr, hcount⟩ := Tokenize_letterLine 2047 4096 (by decide) (by decide)
  refine ⟨r, hr, hcount, ?_⟩
  rw [hcount]
  decide

end NGram
